import Mathlib

/-!
Verification of the coverage-graph core (`rustc_mir_transform/src/coverage/graph.rs`).

The development shallowly embeds the source file:
* MIR basic blocks are natural numbers; a body is the list of its blocks'
  terminators (only terminators matter to this core).
* `bcbFilteredSuccessors` mirrors `bcb_filtered_successors`.
* `computeBcbs` mirrors `compute_basic_coverage_blocks` (chain merging over a
  depth-first traversal of the coverage-relevant subgraph).
* `fromMir` mirrors `CoverageGraph::from_mir` (deduplicated successor lists,
  inverse predecessor lists, dominator-order ranks, loop headers, enclosing
  loop headers).
* `travRun`/`travNext` mirror `ReadyFirstTraversal`.

Library pieces that the source uses but that are outside this file
(`rustc_data_structures`: `depth_first_search`, `reverse_post_order`,
`Dominators`; `rustc_middle`: `Terminator::successors`) are modelled from the
spec, as marked on their doc comments.
-/

namespace CoverageSpec

/-- Terminator kinds of MIR basic blocks, restricted to the data that
`bcb_filtered_successors` and the MIR successor relation inspect.  Unwind
actions are modelled by the optional cleanup block they may carry. -/
inductive TermKind where
  | switchInt (targets : List Nat)
  | yieldT (resume : Nat) (dropBb : Option Nat)
  | assertT (target : Nat) (cleanup : Option Nat)
  | dropT (target : Nat) (cleanup : Option Nat)
  | falseEdge (realTarget : Nat) (imaginaryTarget : Nat)
  | falseUnwind (realTarget : Nat) (cleanup : Option Nat)
  | goto (target : Nat)
  | call (target : Option Nat) (cleanup : Option Nat)
  | inlineAsm (targets : List Nat) (cleanup : Option Nat)
  | coroutineDrop
  | ret
  | tailCall
  | unreachable
  | unwindResume
  | unwindTerminate
deriving DecidableEq

/-- A MIR body, reduced to the terminator of each basic block
(block `i` is entry `i` of the list; block 0 is `START_BLOCK`). -/
abbrev MirBody := List TermKind

/-- Terminator of block `bb`; out-of-range blocks are treated as having no
successors at all (they never occur for well-formed bodies). -/
def bbTerm (mb : MirBody) (bb : Nat) : TermKind :=
  List.getD mb bb .unreachable

/-- Coverage-relevant successors of one terminator, with the yield flag
(mirrors `CoverageSuccessors`). -/
structure CovSuccs where
  targets : List Nat
  isYield : Bool
deriving DecidableEq

/-- Mirrors `bcb_filtered_successors`: the subset of a terminator's successors
that is relevant to the coverage graph. -/
def bcbFilteredSuccessors : TermKind → CovSuccs
  | .switchInt targets => ⟨targets, false⟩
  | .yieldT resume _ => ⟨[resume], true⟩
  | .assertT target _ => ⟨[target], false⟩
  | .dropT target _ => ⟨[target], false⟩
  | .falseEdge realTarget _ => ⟨[realTarget], false⟩
  | .falseUnwind realTarget _ => ⟨[realTarget], false⟩
  | .goto target => ⟨[target], false⟩
  | .call maybeTarget _ => ⟨maybeTarget.toList, false⟩
  | .inlineAsm targets _ => ⟨targets, false⟩
  | .coroutineDrop => ⟨[], false⟩
  | .ret => ⟨[], false⟩
  | .tailCall => ⟨[], false⟩
  | .unreachable => ⟨[], false⟩
  | .unwindResume => ⟨[], false⟩
  | .unwindTerminate => ⟨[], false⟩

/-- Mirrors `CoverageSuccessors::is_out_summable`. -/
def CovSuccs.isOutSummable (cs : CovSuccs) : Bool :=
  !cs.isYield && !cs.targets.isEmpty

/-- Mirrors `CoverageSuccessors::is_out_chainable`. -/
def CovSuccs.isOutChainable (cs : CovSuccs) : Bool :=
  cs.isOutSummable && cs.targets.length == 1

/-- Modelled from the spec: the full MIR successor relation
(`Terminator::successors` of `rustc_middle`, not part of this file), including
the coverage-irrelevant unwind, drop and imaginary edges.  It is used only for
the "sole predecessor" test of the chain merger (spec section 6). -/
def allSuccs : TermKind → List Nat
  | .switchInt targets => targets
  | .yieldT resume dropBb => resume :: dropBb.toList
  | .assertT target cleanup => target :: cleanup.toList
  | .dropT target cleanup => target :: cleanup.toList
  | .falseEdge realTarget imaginaryTarget => [realTarget, imaginaryTarget]
  | .falseUnwind realTarget cleanup => realTarget :: cleanup.toList
  | .goto target => [target]
  | .call maybeTarget cleanup => maybeTarget.toList ++ cleanup.toList
  | .inlineAsm targets cleanup => targets ++ cleanup.toList
  | .coroutineDrop => []
  | .ret => []
  | .tailCall => []
  | .unreachable => []
  | .unwindResume => []
  | .unwindTerminate => []

/-- The coverage-relevant successors of a terminator are among its full MIR
successors. -/
theorem covSuccs_subset_allSuccs (t : TermKind) :
    ∀ b ∈ (bcbFilteredSuccessors t).targets, b ∈ allSuccs t := by
  cases t <;> simp [bcbFilteredSuccessors, allSuccs] <;> intro b hb <;> simp [hb]

/-- Entries contributed to node `b`'s predecessor list by the sources
`i, i+1, ...` whose successor lists are `sls`: one copy of the source index
per occurrence of `b` in its successor list, sources in ascending order. -/
def predsInto (b : Nat) (i : Nat) : List (List Nat) → List Nat
  | [] => []
  | ts :: rest => ((ts.filter (fun t => t == b)).map fun _ => i) ++ predsInto b (i + 1) rest

/-- Builds the predecessor lists of a graph given as successor lists, exactly
as the double loop in `from_mir` does: scan every source in index order and
append it to each of its targets' predecessor lists (one entry per edge
occurrence).  The same function, applied to the full MIR successor lists,
yields the MIR predecessor cache used by the chain merger. -/
def buildPreds (sls : List (List Nat)) (n : Nat) : List (List Nat) :=
  (List.range n).map fun b => predsInto b 0 sls

/-- Mirrors `.filter(|&s| seen.insert(s))` over an `FxHashSet`: keep the first
occurrence of each element, dropping later duplicates. -/
def filterNew (seen : List Nat) : List Nat → List Nat
  | [] => []
  | x :: xs => if x ∈ seen then filterNew seen xs else x :: filterNew (x :: seen) xs

/-- Result of a depth-first search: the visited set, the preorder (discovery
order) and the postorder (finish order) of the newly visited nodes. -/
structure DfsOut where
  visited : List Nat
  pre : List Nat
  post : List Nat

/-- Modelled from the spec: depth-first search (the source defers to
`graph::depth_first_search` and `graph::iterate::reverse_post_order` of
`rustc_data_structures`).  `dfsA sf fuel vs vis` explores the pending roots
`vs` in order, skipping nodes already in `vis`; `fuel` only forces
termination and is irrelevant whenever it is large enough. -/
def dfsA (sf : Nat → List Nat) : Nat → List Nat → List Nat → DfsOut
  | 0, _, vis => ⟨vis, [], []⟩
  | _ + 1, [], vis => ⟨vis, [], []⟩
  | f + 1, v :: vs, vis =>
    if v ∈ vis then dfsA sf f vs vis
    else
      let o1 := dfsA sf f (sf v) (v :: vis)
      let o2 := dfsA sf f vs o1.visited
      ⟨o2.visited, v :: (o1.pre ++ o2.pre), (o1.post ++ [v]) ++ o2.post⟩

/-- Successor function of a finite graph given by its successor lists. -/
def graphSf (g : List (List Nat)) (v : Nat) : List Nat :=
  List.getD g v []

/-- An upper bound for the length of every successor list of `g`. -/
def graphBound (g : List (List Nat)) : Nat :=
  (g.map List.length).foldr Nat.max 0

/-- Fuel that is always sufficient for a complete depth-first search of `g`. -/
def dfsFuel (g : List (List Nat)) : Nat :=
  g.length * (graphBound g + 1) + 1

/-- Complete depth-first search of the graph `g` from `root`. -/
def dfsRun (g : List (List Nat)) (root : Nat) : DfsOut :=
  dfsA (graphSf g) (dfsFuel g) [root] []

theorem dfsA_basic (sf : Nat → List Nat) :
    ∀ (fuel : Nat) (vs vis : List Nat),
      (∀ x ∈ vis, x ∈ (dfsA sf fuel vs vis).visited) ∧
      (∀ x, x ∈ (dfsA sf fuel vs vis).visited ↔ x ∈ vis ∨ x ∈ (dfsA sf fuel vs vis).pre) ∧
      (∀ x, x ∈ (dfsA sf fuel vs vis).pre ↔ x ∈ (dfsA sf fuel vs vis).post) ∧
      (dfsA sf fuel vs vis).pre.Nodup ∧
      (dfsA sf fuel vs vis).post.Nodup ∧
      (∀ x ∈ (dfsA sf fuel vs vis).pre, x ∉ vis) := by
  intro fuel
  induction fuel with
  | zero => intro vs vis; simp [dfsA]
  | succ f ih =>
    intro vs vis
    cases vs with
    | nil => simp [dfsA]
    | cons v vs =>
      by_cases hv : v ∈ vis
      · simpa [dfsA, hv] using ih vs vis
      · have h1 := ih (sf v) (v :: vis)
        set o1 := dfsA sf f (sf v) (v :: vis) with ho1
        have h2 := ih vs o1.visited
        set o2 := dfsA sf f vs o1.visited with ho2
        obtain ⟨m1, e1, pp1, np1, nq1, d1⟩ := h1
        obtain ⟨m2, e2, pp2, np2, nq2, d2⟩ := h2
        have hout : dfsA sf (f + 1) (v :: vs) vis =
            ⟨o2.visited, v :: (o1.pre ++ o2.pre), (o1.post ++ [v]) ++ o2.post⟩ := by
          simp [dfsA, hv, ho1, ho2]
        rw [hout]
        simp only [List.mem_cons, List.mem_append]
        have hvo1 : v ∈ o1.visited := m1 v (by simp)
        have ho1vis : ∀ x ∈ o1.pre, x ∈ o1.visited := fun x hx => (e1 x).mpr (Or.inr hx)
        refine ⟨?_, ?_, ?_, ?_, ?_, ?_⟩
        · intro x hx
          exact m2 x (m1 x (by simp [hx]))
        · intro x
          rw [e2 x, e1 x]
          simp only [List.mem_cons]
          tauto
        · intro x
          rw [pp1 x, pp2 x]
          tauto
        · refine List.nodup_cons.mpr ⟨?_, ?_⟩
          · intro hx
            rcases List.mem_append.mp hx with hx | hx
            · exact d1 v hx (by simp)
            · exact d2 v hx hvo1
          · refine List.Nodup.append np1 np2 ?_
            intro x hx1 hx2
            exact d2 x hx2 (ho1vis x hx1)
        · refine List.Nodup.append ?_ nq2 ?_
          · refine List.Nodup.append nq1 (by simp) ?_
            intro x hx1 hx2
            have hxv : x = v := by simpa using hx2
            subst hxv
            exact d1 x ((pp1 x).mpr hx1) (by simp)
          · intro x hx1 hx2
            have hx1' : x ∈ o1.post ∨ x = v := by
              rcases List.mem_append.mp hx1 with h | h
              · exact Or.inl h
              · exact Or.inr (by simpa using h)
            have hxvis : x ∈ o1.visited := by
              rcases hx1' with h | h
              · exact ho1vis x ((pp1 x).mpr h)
              · subst h; exact hvo1
            exact d2 x ((pp2 x).mpr hx2) hxvis
        · intro x hx
          rcases hx with hx | hx | hx
          · subst hx; exact hv
          · intro hcon; exact d1 x hx (by simp [hcon])
          · intro hcon; exact d2 x hx (m1 x (by simp [hcon]))

theorem dfsA_vis_mono (sf : Nat → List Nat) (fuel : Nat) (vs vis : List Nat) :
    ∀ x ∈ vis, x ∈ (dfsA sf fuel vs vis).visited :=
  (dfsA_basic sf fuel vs vis).1

theorem dfsA_visited_iff (sf : Nat → List Nat) (fuel : Nat) (vs vis : List Nat) :
    ∀ x, x ∈ (dfsA sf fuel vs vis).visited ↔ x ∈ vis ∨ x ∈ (dfsA sf fuel vs vis).pre :=
  (dfsA_basic sf fuel vs vis).2.1

theorem dfsA_pre_iff_post (sf : Nat → List Nat) (fuel : Nat) (vs vis : List Nat) :
    ∀ x, x ∈ (dfsA sf fuel vs vis).pre ↔ x ∈ (dfsA sf fuel vs vis).post :=
  (dfsA_basic sf fuel vs vis).2.2.1

theorem dfsA_pre_nodup (sf : Nat → List Nat) (fuel : Nat) (vs vis : List Nat) :
    (dfsA sf fuel vs vis).pre.Nodup :=
  (dfsA_basic sf fuel vs vis).2.2.2.1

theorem dfsA_post_nodup (sf : Nat → List Nat) (fuel : Nat) (vs vis : List Nat) :
    (dfsA sf fuel vs vis).post.Nodup :=
  (dfsA_basic sf fuel vs vis).2.2.2.2.1

theorem dfsA_pre_not_vis (sf : Nat → List Nat) (fuel : Nat) (vs vis : List Nat) :
    ∀ x ∈ (dfsA sf fuel vs vis).pre, x ∉ vis :=
  (dfsA_basic sf fuel vs vis).2.2.2.2.2

/-- Element `a` occurs strictly before an occurrence of `b` in the list. -/
def ListBefore (a b : Nat) (l : List Nat) : Prop :=
  ∃ l1 l2 l3, l = l1 ++ a :: (l2 ++ b :: l3)

theorem listBefore_cons (a b x : Nat) (l : List Nat) (h : ListBefore a b l) :
    ListBefore a b (x :: l) := by
  obtain ⟨l1, l2, l3, rfl⟩ := h
  exact ⟨x :: l1, l2, l3, rfl⟩

theorem listBefore_append_left (a b : Nat) (l r : List Nat) (h : ListBefore a b l) :
    ListBefore a b (l ++ r) := by
  obtain ⟨l1, l2, l3, rfl⟩ := h
  exact ⟨l1, l2, l3 ++ r, by simp⟩

theorem listBefore_append_right (a b : Nat) (l r : List Nat) (h : ListBefore a b r) :
    ListBefore a b (l ++ r) := by
  obtain ⟨l1, l2, l3, rfl⟩ := h
  exact ⟨l ++ l1, l2, l3, by simp⟩

theorem listBefore_head (a b : Nat) (l : List Nat) (h : b ∈ l) :
    ListBefore a b (a :: l) := by
  obtain ⟨s, t, rfl⟩ := List.append_of_mem h
  exact ⟨[], s, t, rfl⟩

theorem listBefore_last (a b : Nat) (l : List Nat) (h : a ∈ l) :
    ListBefore a b (l ++ [b]) := by
  obtain ⟨s, t, rfl⟩ := List.append_of_mem h
  exact ⟨s, t, [], by simp⟩

theorem listBefore_reverse (a b : Nat) (l : List Nat) (h : ListBefore a b l) :
    ListBefore b a l.reverse := by
  obtain ⟨l1, l2, l3, rfl⟩ := h
  exact ⟨l3.reverse, l2.reverse, l1.reverse, by simp⟩

theorem listBefore_mem_left (a b : Nat) (l : List Nat) (h : ListBefore a b l) : a ∈ l := by
  obtain ⟨l1, l2, l3, rfl⟩ := h
  simp

theorem listBefore_mem_right (a b : Nat) (l : List Nat) (h : ListBefore a b l) : b ∈ l := by
  obtain ⟨l1, l2, l3, rfl⟩ := h
  simp

/-- In the preorder, every discovered node is either one of the pending roots
or is preceded by some node of which it is a successor (its discoverer). -/
theorem dfsA_pre_discoverer (sf : Nat → List Nat) :
    ∀ (fuel : Nat) (vs vis : List Nat), ∀ b ∈ (dfsA sf fuel vs vis).pre,
      b ∈ vs ∨ ∃ u, b ∈ sf u ∧ ListBefore u b (dfsA sf fuel vs vis).pre := by
  intro fuel
  induction fuel with
  | zero => intro vs vis b hb; simp [dfsA] at hb
  | succ f ih =>
    intro vs vis b hb
    cases vs with
    | nil => simp [dfsA] at hb
    | cons v vs =>
      by_cases hv : v ∈ vis
      · rw [show dfsA sf (f + 1) (v :: vs) vis = dfsA sf f vs vis by simp [dfsA, hv]] at hb ⊢
        rcases ih vs vis b hb with h | h
        · exact Or.inl (by simp [h])
        · exact Or.inr h
      · have hout : dfsA sf (f + 1) (v :: vs) vis =
            ⟨(dfsA sf f vs (dfsA sf f (sf v) (v :: vis)).visited).visited,
             v :: ((dfsA sf f (sf v) (v :: vis)).pre ++
               (dfsA sf f vs (dfsA sf f (sf v) (v :: vis)).visited).pre),
             ((dfsA sf f (sf v) (v :: vis)).post ++ [v]) ++
               (dfsA sf f vs (dfsA sf f (sf v) (v :: vis)).visited).post⟩ := by
          simp [dfsA, hv]
        set o1 := dfsA sf f (sf v) (v :: vis) with ho1
        set o2 := dfsA sf f vs o1.visited with ho2
        rw [hout] at hb ⊢
        simp only [List.mem_cons, List.mem_append] at hb
        rcases hb with rfl | hb | hb
        · exact Or.inl (by simp)
        · rcases ih (sf v) (v :: vis) b hb with h | h
          · exact Or.inr ⟨v, h, listBefore_head v b _ (by simp [hb])⟩
          · obtain ⟨u, hu, hbef⟩ := h
            exact Or.inr ⟨u, hu, listBefore_cons _ _ _ _ (listBefore_append_left _ _ _ _ hbef)⟩
        · rcases ih vs o1.visited b hb with h | h
          · exact Or.inl (by simp [h])
          · obtain ⟨u, hu, hbef⟩ := h
            exact Or.inr ⟨u, hu, listBefore_cons _ _ _ _ (listBefore_append_right _ _ _ _ hbef)⟩

/-- In the postorder, every finished node is either one of the pending roots
or is followed by some node of which it is a successor (in a depth-first
search, a node's discoverer finishes after it). -/
theorem dfsA_post_parent_later (sf : Nat → List Nat) :
    ∀ (fuel : Nat) (vs vis : List Nat), ∀ b ∈ (dfsA sf fuel vs vis).post,
      b ∈ vs ∨ ∃ u, b ∈ sf u ∧ ListBefore b u (dfsA sf fuel vs vis).post := by
  intro fuel
  induction fuel with
  | zero => intro vs vis b hb; simp [dfsA] at hb
  | succ f ih =>
    intro vs vis b hb
    cases vs with
    | nil => simp [dfsA] at hb
    | cons v vs =>
      by_cases hv : v ∈ vis
      · rw [show dfsA sf (f + 1) (v :: vs) vis = dfsA sf f vs vis by simp [dfsA, hv]] at hb ⊢
        rcases ih vs vis b hb with h | h
        · exact Or.inl (by simp [h])
        · exact Or.inr h
      · have hout : dfsA sf (f + 1) (v :: vs) vis =
            ⟨(dfsA sf f vs (dfsA sf f (sf v) (v :: vis)).visited).visited,
             v :: ((dfsA sf f (sf v) (v :: vis)).pre ++
               (dfsA sf f vs (dfsA sf f (sf v) (v :: vis)).visited).pre),
             ((dfsA sf f (sf v) (v :: vis)).post ++ [v]) ++
               (dfsA sf f vs (dfsA sf f (sf v) (v :: vis)).visited).post⟩ := by
          simp [dfsA, hv]
        set o1 := dfsA sf f (sf v) (v :: vis) with ho1
        set o2 := dfsA sf f vs o1.visited with ho2
        rw [hout] at hb ⊢
        simp only [List.mem_append] at hb
        rcases hb with hb | hb
        · rcases hb with hb | hb
          · rcases ih (sf v) (v :: vis) b hb with h | h
            · refine Or.inr ⟨v, h, listBefore_append_left _ _ _ _ (listBefore_last _ _ _ hb)⟩
            · obtain ⟨u, hu, hbef⟩ := h
              exact Or.inr ⟨u, hu,
                listBefore_append_left _ _ _ _ (listBefore_append_left _ _ _ _ hbef)⟩
          · have : b = v := by simpa using hb
            exact Or.inl (by simp [this])
        · rcases ih vs o1.visited b hb with h | h
          · exact Or.inl (by simp [h])
          · obtain ⟨u, hu, hbef⟩ := h
            exact Or.inr ⟨u, hu, listBefore_append_right _ _ _ _ hbef⟩

/-- Number of elements of `l` that are not in `vis` (with multiplicity). -/
def countNotIn : List Nat → List Nat → Nat
  | [], _ => 0
  | x :: xs, vis => (if x ∈ vis then 0 else 1) + countNotIn xs vis

/-- Number of nodes below `n` that are not yet visited. -/
def missing (n : Nat) (vis : List Nat) : Nat :=
  countNotIn (List.range n) vis

theorem countNotIn_mono (vis vis' : List Nat) (h : ∀ x ∈ vis, x ∈ vis') :
    ∀ l : List Nat, countNotIn l vis' ≤ countNotIn l vis := by
  intro l
  induction l with
  | nil => simp [countNotIn]
  | cons x xs ih =>
    simp only [countNotIn]
    by_cases hx : x ∈ vis
    · simp [hx, h x hx]; omega
    · by_cases hx' : x ∈ vis' <;> simp [hx, hx'] <;> omega

theorem countNotIn_strict (v : Nat) (vis : List Nat) (hv : v ∉ vis) :
    ∀ l : List Nat, v ∈ l → countNotIn l (v :: vis) < countNotIn l vis := by
  intro l
  induction l with
  | nil => simp
  | cons x xs ih =>
    intro hmem
    simp only [countNotIn]
    by_cases hxv : x = v
    · subst hxv
      have h1 : x ∈ x :: vis := by simp
      have hle : countNotIn xs (x :: vis) ≤ countNotIn xs vis :=
        countNotIn_mono vis (x :: vis) (fun y hy => by simp [hy]) xs
      simp [h1, hv]
      omega
    · have hmem' : v ∈ xs := by
        rcases List.mem_cons.mp hmem with h | h
        · exact absurd h.symm hxv
        · exact h
      have hlt := ih hmem'
      have hiff : (x ∈ v :: vis) ↔ (x ∈ vis) := by simp [hxv]
      by_cases hxvis : x ∈ vis
      · simp [hxvis, hiff.mpr hxvis]; omega
      · have : x ∉ v :: vis := fun hc => hxvis (hiff.mp hc)
        simp [hxvis, this]
        omega

theorem missing_mono (n : Nat) (vis vis' : List Nat) (h : ∀ x ∈ vis, x ∈ vis') :
    missing n vis' ≤ missing n vis :=
  countNotIn_mono vis vis' h (List.range n)

theorem missing_cons_lt (n v : Nat) (vis : List Nat) (hvn : v < n) (hv : v ∉ vis) :
    missing n (v :: vis) < missing n vis :=
  countNotIn_strict v vis hv (List.range n) (List.mem_range.mpr hvn)

/-- With enough fuel, a depth-first search visits all of its pending roots,
and the successors of every finished node are all visited. -/
theorem dfsA_complete (sf : Nat → List Nat) (n S : Nat)
    (hb : ∀ v, (sf v).length ≤ S) (ht : ∀ v, ∀ x ∈ sf v, x < n) :
    ∀ (fuel : Nat) (vs vis : List Nat), (∀ v ∈ vs, v < n) →
      vs.length + missing n vis * (S + 1) ≤ fuel →
      (∀ v ∈ vs, v ∈ (dfsA sf fuel vs vis).visited) ∧
      (∀ b ∈ (dfsA sf fuel vs vis).pre, ∀ x ∈ sf b, x ∈ (dfsA sf fuel vs vis).visited) := by
  intro fuel
  induction fuel with
  | zero =>
    intro vs vis hvs hfuel
    have hnil : vs = [] := by
      cases vs with
      | nil => rfl
      | cons a l => exfalso; simp only [List.length_cons] at hfuel; omega
    subst hnil
    simp [dfsA]
  | succ f ih =>
    intro vs vis hvs hfuel
    cases vs with
    | nil => simp [dfsA]
    | cons v vs =>
      by_cases hv : v ∈ vis
      · rw [show dfsA sf (f + 1) (v :: vs) vis = dfsA sf f vs vis by simp [dfsA, hv]]
        have hih := ih vs vis (fun w hw => hvs w (by simp [hw])) (by simp at hfuel; omega)
        refine ⟨?_, hih.2⟩
        intro w hw
        rcases List.mem_cons.mp hw with rfl | hw'
        · exact dfsA_vis_mono sf f vs vis w hv
        · exact hih.1 w hw'
      · have hout : dfsA sf (f + 1) (v :: vs) vis =
            ⟨(dfsA sf f vs (dfsA sf f (sf v) (v :: vis)).visited).visited,
             v :: ((dfsA sf f (sf v) (v :: vis)).pre ++
               (dfsA sf f vs (dfsA sf f (sf v) (v :: vis)).visited).pre),
             ((dfsA sf f (sf v) (v :: vis)).post ++ [v]) ++
               (dfsA sf f vs (dfsA sf f (sf v) (v :: vis)).visited).post⟩ := by
          simp [dfsA, hv]
        set o1 := dfsA sf f (sf v) (v :: vis) with ho1
        set o2 := dfsA sf f vs o1.visited with ho2
        have hm : missing n (v :: vis) < missing n vis :=
          missing_cons_lt n v vis (hvs v (by simp)) hv
        have hfuel1 : (sf v).length + missing n (v :: vis) * (S + 1) ≤ f := by
          have hsv := hb v
          simp only [List.length_cons] at hfuel
          have : missing n (v :: vis) + 1 ≤ missing n vis := hm
          nlinarith [Nat.zero_le vs.length]
        have hih1 := ih (sf v) (v :: vis) (fun x hx => ht v x hx) hfuel1
        have hm2 : missing n o1.visited ≤ missing n (v :: vis) :=
          missing_mono n (v :: vis) o1.visited (dfsA_vis_mono sf f (sf v) (v :: vis))
        have hfuel2 : vs.length + missing n o1.visited * (S + 1) ≤ f := by
          simp only [List.length_cons] at hfuel
          have h1 : missing n (v :: vis) + 1 ≤ missing n vis := hm
          nlinarith [Nat.zero_le (S + 1)]
        have hih2 := ih vs o1.visited (fun w hw => hvs w (by simp [hw])) hfuel2
        rw [hout]
        constructor
        · intro w hw
          rcases List.mem_cons.mp hw with heq | hw'
          · subst heq
            exact dfsA_vis_mono sf f vs o1.visited w
              (dfsA_vis_mono sf f (sf w) (w :: vis) w (by simp))
          · exact hih2.1 w hw'
        · intro b hb2 x hx
          simp only [List.mem_cons, List.mem_append] at hb2
          rcases hb2 with rfl | hb2 | hb2
          · exact dfsA_vis_mono sf f vs o1.visited x (hih1.1 x hx)
          · exact dfsA_vis_mono sf f vs o1.visited x (hih1.2 b hb2 x hx)
          · exact hih2.2 b hb2 x hx

/-- A path in the graph with successor function `sf`: consecutive elements are
joined by edges. -/
def IsPath (sf : Nat → List Nat) (p : List Nat) : Prop :=
  List.Chain' (fun a b => b ∈ sf a) p

/-- A (nonempty) path from `x` to `y`. -/
def PathFromTo (sf : Nat → List Nat) (x y : Nat) (p : List Nat) : Prop :=
  IsPath sf p ∧ p.head? = some x ∧ p.getLast? = some y

/-- There is a path from `x` to `y`. -/
def Reaches (sf : Nat → List Nat) (x y : Nat) : Prop :=
  ∃ p, PathFromTo sf x y p

theorem pathFromTo_single (sf : Nat → List Nat) (x : Nat) : PathFromTo sf x x [x] := by
  refine ⟨?_, rfl, rfl⟩
  simp [IsPath]

theorem pathFromTo_cons (sf : Nat → List Nat) (x y z : Nat) (p : List Nat)
    (hxy : y ∈ sf x) (hp : PathFromTo sf y z p) : PathFromTo sf x z (x :: p) := by
  obtain ⟨hc, hh, hl⟩ := hp
  cases p with
  | nil => simp at hh
  | cons a t =>
    have ha : a = y := by simpa using hh
    subst ha
    refine ⟨?_, rfl, ?_⟩
    · exact List.chain'_cons'.mpr ⟨fun b hb => by simp at hb; simpa [hb] using hxy, hc⟩
    · simpa [List.getLast?_cons_cons] using hl

theorem pathFromTo_head_mem (sf : Nat → List Nat) (x y : Nat) (p : List Nat)
    (hp : PathFromTo sf x y p) : x ∈ p := by
  obtain ⟨-, hh, -⟩ := hp
  cases p with
  | nil => simp at hh
  | cons a t => simp at hh; simp [hh]

theorem getLast?_mem' : ∀ (p : List Nat) (y : Nat), p.getLast? = some y → y ∈ p := by
  intro p
  induction p with
  | nil => intro y hy; simp at hy
  | cons a t ih =>
    intro y hy
    cases t with
    | nil => simp at hy; simp [hy]
    | cons b t' =>
      rw [List.getLast?_cons_cons] at hy
      exact List.mem_cons.mpr (Or.inr (ih y hy))

theorem pathFromTo_last_mem (sf : Nat → List Nat) (x y : Nat) (p : List Nat)
    (hp : PathFromTo sf x y p) : y ∈ p :=
  getLast?_mem' p y hp.2.2

/-- Every endpoint of a path out of a successor-closed set lies in the set. -/
theorem path_closure (sf : Nat → List Nat) (V : List Nat)
    (hclosed : ∀ b ∈ V, ∀ x ∈ sf b, x ∈ V) :
    ∀ (p : List Nat) (x y : Nat), PathFromTo sf x y p → x ∈ V → y ∈ V := by
  intro p
  induction p with
  | nil => intro x y hp; exact absurd hp.2.1 (by simp)
  | cons a t ih =>
    intro x y hp hx
    obtain ⟨hc, hh, hl⟩ := hp
    have hax : a = x := by simpa using hh
    subst hax
    cases t with
    | nil =>
      have hya : a = y := by simpa using hl
      subst hya; exact hx
    | cons b t' =>
      have hedge : b ∈ sf a := (List.chain'_cons.mp hc).1
      have hbV : b ∈ V := hclosed a hx b hedge
      refine ih b y ⟨(List.chain'_cons.mp hc).2, rfl, ?_⟩ hbV
      simpa [List.getLast?_cons_cons] using hl

/-- Every node discovered by the search is connected to one of the pending
roots by a path that avoids the initially visited set. -/
theorem dfsA_pre_path (sf : Nat → List Nat) :
    ∀ (fuel : Nat) (vs vis : List Nat), ∀ b ∈ (dfsA sf fuel vs vis).pre,
      ∃ v ∈ vs, ∃ p, PathFromTo sf v b p ∧ ∀ x ∈ p, x ∉ vis := by
  intro fuel
  induction fuel with
  | zero => intro vs vis b hb; simp [dfsA] at hb
  | succ f ih =>
    intro vs vis b hb
    cases vs with
    | nil => simp [dfsA] at hb
    | cons v vs =>
      by_cases hv : v ∈ vis
      · rw [show dfsA sf (f + 1) (v :: vs) vis = dfsA sf f vs vis by simp [dfsA, hv]] at hb
        obtain ⟨w, hw, p, hp, havoid⟩ := ih vs vis b hb
        exact ⟨w, by simp [hw], p, hp, havoid⟩
      · have hout : dfsA sf (f + 1) (v :: vs) vis =
            ⟨(dfsA sf f vs (dfsA sf f (sf v) (v :: vis)).visited).visited,
             v :: ((dfsA sf f (sf v) (v :: vis)).pre ++
               (dfsA sf f vs (dfsA sf f (sf v) (v :: vis)).visited).pre),
             ((dfsA sf f (sf v) (v :: vis)).post ++ [v]) ++
               (dfsA sf f vs (dfsA sf f (sf v) (v :: vis)).visited).post⟩ := by
          simp [dfsA, hv]
        set o1 := dfsA sf f (sf v) (v :: vis) with ho1
        set o2 := dfsA sf f vs o1.visited with ho2
        rw [hout] at hb
        simp only [List.mem_cons, List.mem_append] at hb
        rcases hb with rfl | hb | hb
        · exact ⟨b, by simp, [b], pathFromTo_single sf b, by simpa using hv⟩
        · obtain ⟨w, hw, p, hp, havoid⟩ := ih (sf v) (v :: vis) b hb
          refine ⟨v, by simp, v :: p, pathFromTo_cons sf v w b p hw hp, ?_⟩
          intro x hx
          rcases List.mem_cons.mp hx with rfl | hx'
          · exact hv
          · exact fun hc => havoid x hx' (by simp [hc])
        · obtain ⟨w, hw, p, hp, havoid⟩ := ih vs o1.visited b hb
          refine ⟨w, by simp [hw], p, hp, ?_⟩
          intro x hx hc
          exact havoid x hx (dfsA_vis_mono sf f (sf v) (v :: vis) x (by simp [hc]))

/-- A well-formed successor-list graph: every edge target is a node index. -/
abbrev GWf (g : List (List Nat)) : Prop :=
  ∀ l ∈ g, ∀ x ∈ l, x < g.length

theorem graphBound_cons (l : List Nat) (rest : List (List Nat)) :
    graphBound (l :: rest) = Nat.max l.length (graphBound rest) := rfl

theorem graphSf_mem_or_nil (g : List (List Nat)) (v : Nat) :
    graphSf g v ∈ g ∨ graphSf g v = [] := by
  by_cases hv : v < g.length
  · left
    simp only [graphSf, List.getD_eq_getElem?_getD, List.getElem?_eq_getElem hv, Option.getD_some]
    exact List.getElem_mem hv
  · right
    simp [graphSf, List.getD_eq_getElem?_getD, List.getElem?_eq_none (by omega : g.length ≤ v)]

theorem graphSf_length_le (g : List (List Nat)) : ∀ v, (graphSf g v).length ≤ graphBound g := by
  intro v
  rcases graphSf_mem_or_nil g v with h | h
  · generalize graphSf g v = l at h
    induction g with
    | nil => simp at h
    | cons l0 rest ih =>
      rw [graphBound_cons]
      rcases List.mem_cons.mp h with rfl | h'
      · exact Nat.le_max_left _ _
      · exact le_trans (ih h') (Nat.le_max_right _ _)
  · simp [h]

theorem graphSf_targets_lt (g : List (List Nat)) (hwf : GWf g) :
    ∀ v, ∀ x ∈ graphSf g v, x < g.length := by
  intro v x hx
  rcases graphSf_mem_or_nil g v with h | h
  · exact hwf _ h x hx
  · rw [h] at hx; simp at hx

theorem countNotIn_nil_vis : ∀ l : List Nat, countNotIn l [] = l.length := by
  intro l
  induction l with
  | nil => rfl
  | cons x xs ih => simp [countNotIn, ih]; omega

theorem dfsRun_fuel_ok (g : List (List Nat)) (root : Nat) :
    [root].length + missing g.length [] * (graphBound g + 1) ≤ dfsFuel g := by
  simp [missing, countNotIn_nil_vis, dfsFuel]
  omega

/-- A complete run visits its root, and the visited set is successor-closed. -/
theorem dfsRun_complete (g : List (List Nat)) (root : Nat) (hwf : GWf g)
    (hroot : root < g.length) :
    root ∈ (dfsRun g root).visited ∧
    ∀ b ∈ (dfsRun g root).visited, ∀ x ∈ graphSf g b, x ∈ (dfsRun g root).visited := by
  have h := dfsA_complete (graphSf g) g.length (graphBound g) (graphSf_length_le g)
    (graphSf_targets_lt g hwf) (dfsFuel g) [root] [] (by simpa using hroot)
    (dfsRun_fuel_ok g root)
  constructor
  · exact h.1 root (by simp)
  · intro b hb x hx
    have hbpre : b ∈ (dfsRun g root).pre := by
      rcases (dfsA_visited_iff (graphSf g) (dfsFuel g) [root] [] b).mp hb with h' | h'
      · simp at h'
      · exact h'
    exact h.2 b hbpre x hx

/-- The visited set of a run from an empty initial set is exactly the preorder. -/
theorem dfsRun_visited_iff_pre (g : List (List Nat)) (root : Nat) :
    ∀ x, x ∈ (dfsRun g root).visited ↔ x ∈ (dfsRun g root).pre := by
  intro x
  simp only [dfsRun]
  rw [dfsA_visited_iff (graphSf g) (dfsFuel g) [root] [] x]
  simp

/-- The visited set of a complete run is exactly the set of nodes reachable
from the root. -/
theorem dfsRun_visited_iff_reaches (g : List (List Nat)) (root : Nat) (hwf : GWf g)
    (hroot : root < g.length) :
    ∀ y, y ∈ (dfsRun g root).visited ↔ Reaches (graphSf g) root y := by
  intro y
  constructor
  · intro hy
    have hypre : y ∈ (dfsRun g root).pre := (dfsRun_visited_iff_pre g root y).mp hy
    obtain ⟨v, hv, p, hp, -⟩ := dfsA_pre_path (graphSf g) (dfsFuel g) [root] [] y hypre
    have hvr : v = root := by simpa using hv
    subst hvr
    exact ⟨p, hp⟩
  · rintro ⟨p, hp⟩
    have h := dfsRun_complete g root hwf hroot
    exact path_closure (graphSf g) (dfsRun g root).visited h.2 p root y hp h.1

/-- The coverage-relevant subgraph of a MIR body: each block's successor list
is the coverage-relevant successor list of its terminator (mirrors
`CoverageRelevantSubgraph`). -/
def filteredG (mb : MirBody) : List (List Nat) :=
  mb.map fun t => (bcbFilteredSuccessors t).targets

/-- The full MIR graph: each block's successor list is its terminator's
complete successor list. -/
def fullG (mb : MirBody) : List (List Nat) :=
  mb.map allSuccs

/-- The MIR predecessor cache: for each block, the list of blocks having an
edge to it, with multiplicity, sources in ascending order (mirrors
`BasicBlocks::predecessors`, which the chain merger queries). -/
def mirPreds (mb : MirBody) : List (List Nat) :=
  buildPreds (fullG mb) mb.length

/-- Data of one coverage-graph node (mirrors `BasicCoverageBlockData`). -/
structure BcbData where
  basicBlocks : List Nat
  isOutSummable : Bool
deriving DecidableEq

/-- Mirrors `BasicCoverageBlockData::leader_bb`. -/
def BcbData.leaderBb (d : BcbData) : Nat :=
  d.basicBlocks.headI

/-- Mirrors `BasicCoverageBlockData::last_bb`. -/
def BcbData.lastBb (d : BcbData) : Nat :=
  (d.basicBlocks.getLast?).getD 0

/-- Accumulator state of `compute_basic_coverage_blocks`: the flushed coverage
nodes, the block-to-node map, and the currently open chain. -/
structure ChainAcc where
  bcbs : List BcbData
  bbToBcb : List (Option Nat)
  chain : List Nat
deriving DecidableEq

/-- Sets every key in `keys` to `some value` in the map. -/
def setAll (m : List (Option Nat)) (keys : List Nat) (value : Nat) : List (Option Nat) :=
  keys.foldl (fun m k => m.set k (some value)) m

/-- Mirrors `flush_chain_into_new_bcb`: moves the accumulated chain into a new
coverage node, records the block-to-node mapping for its blocks, and computes
`is_out_summable` from the chain's last block. -/
def flushChain (mb : MirBody) (acc : ChainAcc) : ChainAcc :=
  let bcb := acc.bcbs.length
  let m := setAll acc.bbToBcb acc.chain bcb
  let summ := match acc.chain.getLast? with
    | some bb => (bcbFilteredSuccessors (bbTerm mb bb)).isOutSummable
    | none => false
  ⟨acc.bcbs ++ [⟨acc.chain, summ⟩], m, []⟩

/-- One step of the chain merger, for the next visited block `bb`: if the open
chain is nonempty and `bb` cannot extend it (the chain's last block is not
out-chainable, or `bb`'s complete MIR predecessor list is not exactly that
block), flush the chain first; then append `bb` to the open chain. -/
def chainStep (mb : MirBody) (acc : ChainAcc) (bb : Nat) : ChainAcc :=
  match acc.chain.getLast? with
  | none => { acc with chain := acc.chain ++ [bb] }
  | some prev =>
    let canChain := (bcbFilteredSuccessors (bbTerm mb prev)).isOutChainable &&
      ((mirPreds mb).getD bb [] == [prev])
    if canChain then { acc with chain := acc.chain ++ [bb] }
    else { flushChain mb acc with chain := [bb] }

/-- The order in which the chain merger visits blocks: a depth-first preorder
of the coverage-relevant subgraph from `START_BLOCK`, skipping blocks whose
terminator is `Unreachable`. -/
def mergeOrder (mb : MirBody) : List Nat :=
  (dfsRun (filteredG mb) 0).pre.filter fun bb => !(bbTerm mb bb == .unreachable)

/-- Mirrors `compute_basic_coverage_blocks`: partition the visited blocks into
chains, flushing the last chain at the end. -/
def computeBcbs (mb : MirBody) : List BcbData × List (Option Nat) :=
  let init : ChainAcc := ⟨[], List.replicate mb.length none, []⟩
  let acc := (mergeOrder mb).foldl (chainStep mb) init
  let acc := if acc.chain.isEmpty then acc else flushChain mb acc
  (acc.bcbs, acc.bbToBcb)

/-- Successor list of one coverage node: the coverage-relevant successors of
its last block's terminator, mapped to their owning nodes, deduplicated
keeping first occurrences (mirrors the `successors` builder in `from_mir`). -/
def bcbSuccsOf (mb : MirBody) (bbToBcb : List (Option Nat)) (d : BcbData) : List Nat :=
  filterNew []
    (((bcbFilteredSuccessors (bbTerm mb d.lastBb)).targets).filterMap
      fun t => bbToBcb.getD t none)

/-- All successor lists of the coverage graph. -/
def mkSuccessors (mb : MirBody) (bcbs : List BcbData) (bbToBcb : List (Option Nat)) :
    List (List Nat) :=
  bcbs.map (bcbSuccsOf mb bbToBcb)

/-- The graph `g` with node `a` cut out: all edges into `a` are removed. -/
def avoidG (g : List (List Nat)) (a : Nat) : List (List Nat) :=
  g.map fun l => l.filter fun t => !(t == a)

theorem avoidG_length (g : List (List Nat)) (a : Nat) : (avoidG g a).length = g.length := by
  simp [avoidG]

theorem graphSf_avoidG (g : List (List Nat)) (a v : Nat) :
    graphSf (avoidG g a) v = (graphSf g v).filter fun t => !(t == a) := by
  by_cases hv : v < g.length
  · simp only [graphSf, avoidG, List.getD_eq_getElem?_getD]
    rw [List.getElem?_map, List.getElem?_eq_getElem hv]
    simp
  · have h1 : g.length ≤ v := by omega
    simp only [graphSf, avoidG, List.getD_eq_getElem?_getD]
    rw [List.getElem?_map, List.getElem?_eq_none h1]
    simp

theorem avoidG_wf (g : List (List Nat)) (a : Nat) (hwf : GWf g) : GWf (avoidG g a) := by
  intro l hl x hx
  rw [avoidG_length]
  simp only [avoidG, List.mem_map] at hl
  obtain ⟨l0, hl0, rfl⟩ := hl
  exact hwf l0 hl0 x (List.mem_of_mem_filter hx)

/-- The set of nodes reachable from `root` without ever passing through `a`
(empty when `root = a`), computed by a depth-first search of the cut graph. -/
def reachAvoid (g : List (List Nat)) (root a : Nat) : List Nat :=
  if root = a then [] else (dfsRun (avoidG g a) root).visited

/-- Modelled from the spec: the dominance relation of the coverage graph
(`Dominators::dominates` of `rustc_data_structures`, not part of this file).
Decidable formulation: `a` dominates `b` iff `b` cannot be reached from the
root when `a` is cut out of the graph. -/
def dominatesB (g : List (List Nat)) (root a b : Nat) : Bool :=
  !(decide (b ∈ reachAvoid g root a))

/-- Modelled from the spec: the standard path-based dominance contract — `a`
dominates `b` iff every path from the root to `b` passes through `a`. -/
def DominatesP (g : List (List Nat)) (root a b : Nat) : Prop :=
  ∀ p, PathFromTo (graphSf g) root b p → a ∈ p

/-- A path in the cut graph is a path in the original graph, and avoids the
cut node whenever its head does. -/
theorem avoid_path_to_path (g : List (List Nat)) (a : Nat) :
    ∀ p, IsPath (graphSf (avoidG g a)) p → IsPath (graphSf g) p ∧ ∀ z ∈ p.tail, z ≠ a := by
  intro p
  induction p with
  | nil => intro; constructor <;> simp [IsPath]
  | cons x t ih =>
    intro hp
    have hp' : IsPath (graphSf (avoidG g a)) t := (List.chain'_cons'.mp hp).2
    obtain ⟨iht, ihm⟩ := ih hp'
    constructor
    · refine List.chain'_cons'.mpr ⟨?_, iht⟩
      intro b hb
      have := (List.chain'_cons'.mp hp).1 b hb
      rw [graphSf_avoidG] at this
      exact List.mem_of_mem_filter this
    · intro z hz
      simp only [List.tail_cons] at hz
      cases t with
      | nil => simp at hz
      | cons y t' =>
        rcases List.mem_cons.mp hz with rfl | hz'
        · have := (List.chain'_cons'.mp hp).1 z (by simp)
          rw [graphSf_avoidG] at this
          have := List.of_mem_filter this
          simpa using this
        · exact ihm z (by simpa using hz')

/-- A path in the original graph that avoids `a` is a path in the cut graph. -/
theorem path_to_avoid_path (g : List (List Nat)) (a : Nat) :
    ∀ p, IsPath (graphSf g) p → (∀ z ∈ p, z ≠ a) → IsPath (graphSf (avoidG g a)) p := by
  intro p
  induction p with
  | nil => intro; simp [IsPath]
  | cons x t ih =>
    intro hp hav
    refine List.chain'_cons'.mpr ⟨?_, ih (List.chain'_cons'.mp hp).2 (fun z hz => hav z (by simp [hz]))⟩
    intro b hb
    rw [graphSf_avoidG]
    refine List.mem_filter.mpr ⟨(List.chain'_cons'.mp hp).1 b hb, ?_⟩
    have hbt : b ∈ t := by
      cases t with
      | nil => simp at hb
      | cons y t' => simp at hb; simp [hb]
    simpa using hav b (by simp [hbt])

theorem dominatesB_iff (g : List (List Nat)) (root a b : Nat) (hwf : GWf g)
    (hroot : root < g.length) :
    DominatesP g root a b ↔ dominatesB g root a b = true := by
  constructor
  · intro hdom
    by_contra hc
    simp only [dominatesB, Bool.not_eq_true', decide_eq_false_iff_not, Decidable.not_not] at hc
    by_cases hra : root = a
    · rw [reachAvoid, if_pos hra] at hc
      simp at hc
    · rw [reachAvoid, if_neg hra] at hc
      have hreach := (dfsRun_visited_iff_reaches (avoidG g a) root (avoidG_wf g a hwf)
        (by rw [avoidG_length]; exact hroot) b).mp hc
      obtain ⟨p, hp⟩ := hreach
      obtain ⟨hpath, hh, hl⟩ := hp
      obtain ⟨hpath', htl⟩ := avoid_path_to_path g a p hpath
      have hain := hdom p ⟨hpath', hh, hl⟩
      cases p with
      | nil => simp at hh
      | cons x t =>
        have hx : x = root := by simpa using hh
        rcases List.mem_cons.mp hain with rfl | hmem
        · exact hra hx.symm
        · exact htl a (by simpa using hmem) rfl
  · intro hB p hp
    by_contra hain
    have hav : ∀ z ∈ p, z ≠ a := fun z hz hc => hain (hc ▸ hz)
    have hra : root ≠ a := fun hc => (hav root (pathFromTo_head_mem _ _ _ _ hp) hc)
    have hpav : IsPath (graphSf (avoidG g a)) p := path_to_avoid_path g a p hp.1 hav
    have hreach : b ∈ (dfsRun (avoidG g a) root).visited := by
      refine (dfsRun_visited_iff_reaches (avoidG g a) root (avoidG_wf g a hwf)
        (by rw [avoidG_length]; exact hroot) b).mpr ⟨p, hpav, hp.2.1, hp.2.2⟩
    simp only [dominatesB, Bool.not_eq_true', decide_eq_false_iff_not] at hB
    rw [reachAvoid, if_neg hra] at hB
    exact hB hreach

theorem dominatesP_self (g : List (List Nat)) (root a : Nat) : DominatesP g root a a :=
  fun _ hp => pathFromTo_last_mem _ _ _ _ hp

theorem dominatesP_root (g : List (List Nat)) (root b : Nat) : DominatesP g root root b :=
  fun _ hp => pathFromTo_head_mem _ _ _ _ hp

/-- A path can be cut at any occurrence of one of its elements, producing a
path to that element whose elements all belong to the original path. -/
theorem path_cut_at (sf : Nat → List Nat) (root b m : Nat) (p : List Nat)
    (hp : PathFromTo sf root b p) (hm : m ∈ p) :
    ∃ q, PathFromTo sf root m q ∧ ∀ z ∈ q, z ∈ p := by
  obtain ⟨l1, l2, hsplit⟩ := List.append_of_mem hm
  refine ⟨l1 ++ [m], ⟨?_, ?_, ?_⟩, ?_⟩
  · refine List.Chain'.prefix hp.1 ?_
    exact ⟨l2, by simp [hsplit]⟩
  · have hh := hp.2.1
    rw [hsplit] at hh
    cases l1 with
    | nil => simpa using hh
    | cons x t => simpa using hh
  · simp
  · intro z hz
    rw [hsplit]
    rcases List.mem_append.mp hz with h | h
    · simp [h]
    · simp at h; simp [h]

theorem dominatesP_trans (g : List (List Nat)) (root a m b : Nat)
    (h1 : DominatesP g root a m) (h2 : DominatesP g root m b) :
    DominatesP g root a b := by
  intro p hp
  have hm : m ∈ p := h2 p hp
  obtain ⟨q, hq, hsub⟩ := path_cut_at (graphSf g) root b m p hp hm
  exact hsub a (h1 q hq)

/-- Accumulator of the initialization loop of `from_mir` (lines 88-107 of the
source): dominator-order ranks, the loop-header set and the enclosing loop
headers, all built in dominator order. -/
structure InitAcc where
  rank : List Nat
  isLoopHeader : List Bool
  encl : List (Option Nat)
deriving DecidableEq

/-- Reloop predecessors used during construction: the predecessors of `c` that
`c` dominates. -/
def reloopB (g preds : List (List Nat)) (c : Nat) : List Nat :=
  (preds.getD c []).filter fun p => dominatesB g 0 c p

/-- Modelled from the spec: the immediate dominator of `b`
(`Dominators::immediate_dominator`, not part of this file) — the strict
dominator of `b` nearest to it, i.e. the latest one in dominator order;
`none` for the root. -/
def idomOf (g : List (List Nat)) (order : List Nat) (b : Nat) : Option Nat :=
  if b = 0 then none
  else (order.filter fun d => !(d == b) && dominatesB g 0 d b).getLast?

/-- One iteration of the initialization loop, processing node `rb.2` at rank
`rb.1`: record the rank; mark the node as loop header if it dominates one of
its predecessors; then set its enclosing loop header from its immediate
dominator (the dominator itself if it is a loop header, otherwise the
dominator's own enclosing loop header). -/
def initStep (g preds : List (List Nat)) (order : List Nat) (acc : InitAcc) (rb : Nat × Nat) :
    InitAcc :=
  let rank := acc.rank.set rb.2 rb.1
  let isHeader := !(reloopB g preds rb.2).isEmpty
  let headers := if isHeader then acc.isLoopHeader.set rb.2 true else acc.isLoopHeader
  let encl := match idomOf g order rb.2 with
    | some d =>
        acc.encl.set rb.2 (if headers.getD d false then some d else acc.encl.getD d none)
    | none => acc.encl
  ⟨rank, headers, encl⟩

/-- The full initialization loop over all nodes in dominator order. -/
def initAll (g preds : List (List Nat)) (order : List Nat) (n : Nat) : InitAcc :=
  ((List.range order.length).zip order).foldl (initStep g preds order)
    ⟨List.replicate n 0, List.replicate n false, List.replicate n none⟩

/-- Modelled from the spec: reverse postorder from the entry node
(`graph::iterate::reverse_post_order`, not part of this file). -/
def rpoOrder (succs : List (List Nat)) : List Nat :=
  (dfsRun succs 0).post.reverse

/-- The coverage graph (mirrors the `CoverageGraph` struct; the dominator
structure itself is kept implicit — dominance queries recompute it from the
successor lists, per the spec's black-box dominator contract). -/
structure CoverageGraph where
  numNodes : Nat
  bcbs : List BcbData
  bbToBcb : List (Option Nat)
  successors : List (List Nat)
  predecessors : List (List Nat)
  dominatorOrderRank : List Nat
  isLoopHeader : List Bool
  enclosingLoopHeader : List (Option Nat)
deriving DecidableEq

/-- Successor lists of the coverage graph built from `mb`. -/
def bcbSuccsG (mb : MirBody) : List (List Nat) :=
  mkSuccessors mb (computeBcbs mb).1 (computeBcbs mb).2

/-- Predecessor lists of the coverage graph built from `mb`. -/
def bcbPredsG (mb : MirBody) : List (List Nat) :=
  buildPreds (bcbSuccsG mb) (computeBcbs mb).1.length

/-- Dominator order (reverse postorder) of the coverage graph built from `mb`. -/
def bcbOrder (mb : MirBody) : List Nat :=
  rpoOrder (bcbSuccsG mb)

/-- Result of the initialization loop for the coverage graph built from `mb`. -/
def bcbInit (mb : MirBody) : InitAcc :=
  initAll (bcbSuccsG mb) (bcbPredsG mb) (bcbOrder mb) (computeBcbs mb).1.length

/-- Mirrors `CoverageGraph::from_mir`. -/
def fromMir (mb : MirBody) : CoverageGraph :=
  ⟨(computeBcbs mb).1.length, (computeBcbs mb).1, (computeBcbs mb).2,
   bcbSuccsG mb, bcbPredsG mb,
   (bcbInit mb).rank, (bcbInit mb).isLoopHeader, (bcbInit mb).encl⟩

/-- Mirrors `CoverageGraph::bcb_from_bb`: in-range blocks are looked up in the
map, out-of-range blocks yield `None` (no failure). -/
def bcbFromBb (g : CoverageGraph) (bb : Nat) : Option Nat :=
  if bb < g.bbToBcb.length then g.bbToBcb.getD bb none else none

/-- Mirrors `CoverageGraph::cmp_in_dominator_order`. -/
def cmpInDominatorOrder (g : CoverageGraph) (a b : Nat) : Ordering :=
  compare (g.dominatorOrderRank.getD a 0) (g.dominatorOrderRank.getD b 0)

/-- Mirrors `CoverageGraph::sole_predecessor`. -/
def solePredecessor (g : CoverageGraph) (toBcb : Nat) : Option Nat :=
  match g.predecessors.getD toBcb [] with
  | [fromBcb] => some fromBcb
  | _ => none

/-- Mirrors `CoverageGraph::simple_successor`: the unique successor, provided
the node is out-summable and has exactly one successor. -/
def simpleSuccessor (g : CoverageGraph) (fromBcb : Nat) : Option Nat :=
  if (g.bcbs.getD fromBcb ⟨[], false⟩).isOutSummable then
    match g.successors.getD fromBcb [] with
    | [toBcb] => some toBcb
    | _ => none
  else none

/-- Mirrors `CoverageGraph::dominates` (on the finished graph). -/
def DominatesQ (g : CoverageGraph) (a b : Nat) : Prop :=
  DominatesP g.successors 0 a b

/-- Mirrors `CoverageGraph::reloop_predecessors`: the predecessors of `toBcb`
that it dominates. -/
def reloopPredecessors (g : CoverageGraph) (toBcb : Nat) : List Nat :=
  (g.predecessors.getD toBcb []).filter fun p => dominatesB g.successors 0 toBcb p

/-- The chain of strictly enclosing loop headers starting at `c` (the linked
list traversed by `loop_headers_containing`), cut off by fuel. -/
def enclChain (g : CoverageGraph) : Nat → Nat → List Nat
  | 0, _ => []
  | fuel + 1, c =>
    match g.enclosingLoopHeader.getD c none with
    | none => []
    | some h => h :: enclChain g fuel h

/-- Mirrors `CoverageGraph::loop_headers_containing`: the node itself first if
it is a loop header, then the strictly enclosing loop headers from innermost
to outermost. -/
def loopHeadersContaining (g : CoverageGraph) (bcb : Nat) : List Nat :=
  (if g.isLoopHeader.getD bcb false then [bcb] else []) ++ enclChain g g.numNodes bcb

/-- Per-node state of the ready-first traversal (mirrors `ReadyState`). -/
inductive RState where
  | unqueued
  | inFallback
  | inReady
  | visited
deriving DecidableEq

/-- State of the ready-first traversal (mirrors `ReadyFirstTraversal` minus
the borrowed graph). -/
structure TravState where
  nUnvisitedPreds : List Nat
  state : List RState
  readyQueue : List Nat
  fallbackQueue : List Nat
deriving DecidableEq

/-- Mirrors `ReadyFirstTraversal::new`: every node starts unqueued with its
predecessor count, except the start node, which enters the ready queue. -/
def travNew (g : CoverageGraph) : TravState :=
  ⟨g.predecessors.map List.length,
   (List.replicate g.numNodes RState.unqueued).set 0 .inReady,
   [0], []⟩

/-- Pops entries off the fallback queue until a live (`InFallbackQueue`) entry
appears, discarding stale entries (mirrors the loop in `next_inner`; the
states that would panic in the source are proved unreachable below). -/
def drainFallback (st : List RState) : List Nat → Option (Nat × List Nat)
  | [] => none
  | v :: rest =>
    if st.getD v .unqueued == .inFallback then some (v, rest) else drainFallback st rest

/-- Mirrors `ReadyFirstTraversal::next_inner`: prefer the ready queue, then
drain the fallback queue. -/
def nextInner (s : TravState) : Option Nat × TravState :=
  match s.readyQueue with
  | v :: rest => (some v, { s with readyQueue := rest })
  | [] =>
    match drainFallback s.state s.fallbackQueue with
    | some (v, rest) => (some v, { s with fallbackQueue := rest })
    | none => (none, { s with fallbackQueue := [] })

/-- Handling of one successor in `mark_visited_and_enqueue_successors`:
decrement its unvisited-predecessor count and enqueue or promote it. -/
def enqueueStep (s : TravState) (succ : Nat) : TravState :=
  match s.state.getD succ .unqueued with
  | .visited => s
  | .inReady => s
  | st0 =>
    let isUnqueued := st0 == .unqueued
    let k := s.nUnvisitedPreds.getD succ 0 - 1
    let s := { s with nUnvisitedPreds := s.nUnvisitedPreds.set succ k }
    if k = 0 then
      { s with state := s.state.set succ .inReady, readyQueue := s.readyQueue ++ [succ] }
    else if isUnqueued then
      { s with state := s.state.set succ .inFallback,
               fallbackQueue := s.fallbackQueue ++ [succ] }
    else s

/-- Mirrors `mark_visited_and_enqueue_successors`. -/
def markVisitedAndEnqueue (g : CoverageGraph) (s : TravState) (node : Nat) : TravState :=
  (g.successors.getD node []).foldl enqueueStep
    { s with state := s.state.set node .visited }

/-- Mirrors `Iterator::next` for `ReadyFirstTraversal`. -/
def travNext (g : CoverageGraph) (s : TravState) : Option Nat × TravState :=
  match nextInner s with
  | (none, s') => (none, s')
  | (some v, s') => (some v, markVisitedAndEnqueue g s' v)

/-- The list of nodes yielded by repeatedly calling `next` (with enough fuel,
the whole yielded sequence of the iterator). -/
def travRun (g : CoverageGraph) : Nat → TravState → List Nat
  | 0, _ => []
  | fuel + 1, s =>
    match travNext g s with
    | (none, _) => []
    | (some v, s') => v :: travRun g fuel s'

/-- C10: `bcb_from_bb` is total: it returns the mapped entry for in-range
blocks and `None` (rather than failing) for any block index at or past the
length of the block-to-node map. -/
theorem c10_bcbFromBb_total (g : CoverageGraph) (bb : Nat) :
    (g.bbToBcb.length ≤ bb → bcbFromBb g bb = none) ∧
    (bb < g.bbToBcb.length → bcbFromBb g bb = g.bbToBcb.getD bb none) := by
  constructor
  · intro h
    rw [bcbFromBb, if_neg (by omega)]
  · intro h
    rw [bcbFromBb, if_pos h]

theorem c10_bcbFromBb_total_witness :
    bcbFromBb (fromMir [TermKind.goto 1, TermKind.unreachable]) 5 = none ∧
    bcbFromBb (fromMir [TermKind.goto 1, TermKind.unreachable]) 0 = some 0 :=
  ⟨(c10_bcbFromBb_total (fromMir [TermKind.goto 1, TermKind.unreachable]) 5).1 (by decide),
   by rw [(c10_bcbFromBb_total (fromMir [TermKind.goto 1, TermKind.unreachable]) 0).2 (by decide)]
      decide⟩

/-- C7: `simple_successor` returns `some s` exactly when the node's
`is_out_summable` flag is set and its successor list is exactly `[s]`; in
every other case it returns `none`. -/
theorem c7_simpleSuccessor_iff (g : CoverageGraph) (n s : Nat) :
    simpleSuccessor g n = some s ↔
      (g.bcbs.getD n ⟨[], false⟩).isOutSummable = true ∧
        g.successors.getD n [] = [s] := by
  unfold simpleSuccessor
  cases hos : (g.bcbs.getD n ⟨[], false⟩).isOutSummable with
  | false => simp
  | true =>
    cases hl : g.successors.getD n [] with
    | nil => simp
    | cons a t =>
      cases t with
      | nil => simp
      | cons b t' => simp

/-- C9: one step of the chain merger, on a nonempty chain ending in `prev`,
appends the visited block to the chain exactly when `prev` is out-chainable
and the block's complete MIR predecessor list is exactly `[prev]`; otherwise
it flushes the chain into a new coverage node and starts a fresh chain holding
only the visited block. -/
theorem c9_chainStep_spec (mb : MirBody) (acc : ChainAcc) (bb prev : Nat)
    (hlast : acc.chain.getLast? = some prev) :
    (((bcbFilteredSuccessors (bbTerm mb prev)).isOutChainable = true ∧
        (mirPreds mb).getD bb [] = [prev]) →
      chainStep mb acc bb = { acc with chain := acc.chain ++ [bb] }) ∧
    (¬ ((bcbFilteredSuccessors (bbTerm mb prev)).isOutChainable = true ∧
        (mirPreds mb).getD bb [] = [prev]) →
      chainStep mb acc bb = { flushChain mb acc with chain := [bb] }) := by
  constructor
  · intro hcond
    have hbool : ((bcbFilteredSuccessors (bbTerm mb prev)).isOutChainable &&
        ((mirPreds mb).getD bb [] == [prev])) = true := by
      rw [hcond.1, hcond.2]
      simp
    simp only [chainStep, hlast, hbool, if_true]
  · intro hcond
    have hbool : ((bcbFilteredSuccessors (bbTerm mb prev)).isOutChainable &&
        ((mirPreds mb).getD bb [] == [prev])) = false := by
      rw [Bool.and_eq_false_iff]
      by_cases h1 : (bcbFilteredSuccessors (bbTerm mb prev)).isOutChainable = true
      · right
        have h2 : (mirPreds mb).getD bb [] ≠ [prev] := fun hc => hcond ⟨h1, hc⟩
        rw [beq_eq_false_iff_ne]
        exact h2
      · left
        rw [Bool.not_eq_true] at h1
        exact h1
    simp only [chainStep, hlast, hbool, Bool.false_eq_true, if_false]

theorem c9_chainStep_spec_witness :
    chainStep [TermKind.goto 1, TermKind.goto 2, TermKind.ret]
        ⟨[], List.replicate 3 none, [0]⟩ 1 =
      ⟨[], List.replicate 3 none, [0, 1]⟩ ∧
    chainStep [TermKind.switchInt [1, 2], TermKind.ret, TermKind.ret]
        ⟨[], List.replicate 3 none, [0]⟩ 1 =
      ⟨[⟨[0], true⟩], [some 0, none, none], [1]⟩ := by
  constructor
  · rw [(c9_chainStep_spec [TermKind.goto 1, TermKind.goto 2, TermKind.ret]
      ⟨[], List.replicate 3 none, [0]⟩ 1 0 (by decide)).1 (by decide)]
    decide
  · rw [(c9_chainStep_spec [TermKind.switchInt [1, 2], TermKind.ret, TermKind.ret]
      ⟨[], List.replicate 3 none, [0]⟩ 1 0 (by decide)).2 (by decide)]
    decide

theorem filterNew_sublist : ∀ (l seen : List Nat), List.Sublist (filterNew seen l) l := by
  intro l
  induction l with
  | nil => intro seen; simp [filterNew]
  | cons x xs ih =>
    intro seen
    rw [filterNew]
    by_cases hx : x ∈ seen
    · rw [if_pos hx]
      exact List.Sublist.cons x (ih seen)
    · rw [if_neg hx]
      exact List.Sublist.cons₂ x (ih (x :: seen))

theorem filterNew_spec : ∀ (l seen : List Nat),
    (filterNew seen l).Nodup ∧ ∀ x, x ∈ filterNew seen l ↔ x ∈ l ∧ x ∉ seen := by
  intro l
  induction l with
  | nil => intro seen; simp [filterNew]
  | cons x xs ih =>
    intro seen
    rw [filterNew]
    by_cases hx : x ∈ seen
    · rw [if_pos hx]
      obtain ⟨ihn, ihm⟩ := ih seen
      refine ⟨ihn, ?_⟩
      intro y
      rw [ihm y]
      constructor
      · rintro ⟨h1, h2⟩; exact ⟨by simp [h1], h2⟩
      · rintro ⟨h1, h2⟩
        rcases List.mem_cons.mp h1 with rfl | h1'
        · exact absurd hx h2
        · exact ⟨h1', h2⟩
    · rw [if_neg hx]
      obtain ⟨ihn, ihm⟩ := ih (x :: seen)
      constructor
      · refine List.nodup_cons.mpr ⟨?_, ihn⟩
        intro hc
        exact ((ihm x).mp hc).2 (by simp)
      · intro y
        rw [List.mem_cons, ihm y]
        constructor
        · rintro (rfl | ⟨h1, h2⟩)
          · exact ⟨by simp, hx⟩
          · exact ⟨by simp [h1], fun hc => h2 (by simp [hc])⟩
        · rintro ⟨h1, h2⟩
          rcases List.mem_cons.mp h1 with rfl | h1'
          · exact Or.inl rfl
          · by_cases hyx : y = x
            · exact Or.inl hyx
            · exact Or.inr ⟨h1', by simp [hyx, h2]⟩

theorem count_map_const (l : List Nat) (i a : Nat) :
    List.count a (l.map fun _ => i) = if a = i then l.length else 0 := by
  induction l with
  | nil => simp
  | cons x xs ih =>
    simp only [List.map_cons, List.count_cons, ih]
    by_cases h : a = i
    · subst h
      simp
    · have hne : (i == a) = false := beq_eq_false_iff_ne.mpr fun hc => h hc.symm
      simp [h, hne]

theorem count_filter_eq (b : Nat) (ts : List Nat) :
    (ts.filter fun t => t == b).length = List.count b ts := by
  induction ts with
  | nil => simp
  | cons x xs ih =>
    simp only [List.filter_cons, List.count_cons]
    by_cases h : x = b
    · subst h
      simp [ih]
    · have h1 : (x == b) = false := beq_eq_false_iff_ne.mpr h
      have h2 : (b == x) = false := beq_eq_false_iff_ne.mpr fun hc => h hc.symm
      simp [h1, h2, ih]

theorem count_predsInto (b : Nat) : ∀ (sls : List (List Nat)) (i a : Nat),
    List.count a (predsInto b i sls) =
      if i ≤ a ∧ a - i < sls.length then List.count b (sls.getD (a - i) []) else 0 := by
  intro sls
  induction sls with
  | nil => intro i a; simp [predsInto]
  | cons ts rest ih =>
    intro i a
    rw [predsInto, List.count_append, count_map_const, count_filter_eq, ih]
    by_cases hai : a = i
    · subst hai
      have h1 : a ≤ a ∧ a - a < (ts :: rest).length := by simp
      have h2 : ¬ (a + 1 ≤ a ∧ a - (a + 1) < rest.length) := by omega
      rw [if_pos rfl, if_pos h1, if_neg h2]
      simp
    · rw [if_neg hai]
      by_cases hlt : i ≤ a ∧ a - i < (ts :: rest).length
      · have h2 : i + 1 ≤ a ∧ a - (i + 1) < rest.length := by
          simp only [List.length_cons] at hlt
          omega
        rw [if_pos h2, if_pos hlt]
        have hgd : (ts :: rest).getD (a - i) [] = rest.getD (a - (i + 1)) [] := by
          have : a - i = (a - (i + 1)) + 1 := by omega
          rw [this]
          simp [List.getD]
        rw [hgd]
        simp
      · have h2 : ¬ (i + 1 ≤ a ∧ a - (i + 1) < rest.length) := by
          simp only [List.length_cons] at hlt
          omega
        rw [if_neg h2, if_neg hlt]

theorem buildPreds_length (sls : List (List Nat)) (n : Nat) :
    (buildPreds sls n).length = n := by
  simp [buildPreds]

theorem buildPreds_getD (sls : List (List Nat)) (n b : Nat) (hb : b < n) :
    (buildPreds sls n).getD b [] = predsInto b 0 sls := by
  rw [buildPreds, List.getD_eq_getElem?_getD, List.getElem?_map,
    List.getElem?_range hb]
  simp

theorem mkSuccessors_length (mb : MirBody) (bcbs : List BcbData) (m : List (Option Nat)) :
    (mkSuccessors mb bcbs m).length = bcbs.length := by
  simp [mkSuccessors]

theorem mkSuccessors_getD (mb : MirBody) (bcbs : List BcbData) (m : List (Option Nat))
    (c : Nat) (hc : c < bcbs.length) :
    (mkSuccessors mb bcbs m).getD c [] = bcbSuccsOf mb m (bcbs.getD c ⟨[], false⟩) := by
  rw [mkSuccessors, List.getD_eq_getElem?_getD, List.getElem?_map,
    List.getElem?_eq_getElem hc]
  simp [List.getD_eq_getElem?_getD, List.getElem?_eq_getElem hc]

theorem fromMir_numNodes (mb : MirBody) : (fromMir mb).numNodes = (computeBcbs mb).1.length :=
  rfl

theorem fromMir_bcbs (mb : MirBody) : (fromMir mb).bcbs = (computeBcbs mb).1 := rfl

theorem fromMir_bbToBcb (mb : MirBody) : (fromMir mb).bbToBcb = (computeBcbs mb).2 := rfl

theorem fromMir_successors (mb : MirBody) :
    (fromMir mb).successors = mkSuccessors mb (computeBcbs mb).1 (computeBcbs mb).2 := rfl

theorem fromMir_predecessors (mb : MirBody) :
    (fromMir mb).predecessors =
      buildPreds (mkSuccessors mb (computeBcbs mb).1 (computeBcbs mb).2)
        (computeBcbs mb).1.length := rfl

/-- The raw (not yet deduplicated) successor node list of coverage node `c`:
the coverage-relevant successors of its last block's terminator, mapped to
their owning coverage nodes. -/
def bcbRawTargets (mb : MirBody) (c : Nat) : List Nat :=
  ((bcbFilteredSuccessors
      (bbTerm mb ((computeBcbs mb).1.getD c ⟨[], false⟩).lastBb)).targets).filterMap
    fun t => (computeBcbs mb).2.getD t none

theorem fromMir_succ_eq_filterNew (mb : MirBody) (c : Nat)
    (hc : c < (fromMir mb).numNodes) :
    (fromMir mb).successors.getD c [] = filterNew [] (bcbRawTargets mb c) := by
  rw [fromMir_successors, mkSuccessors_getD mb _ _ c hc]
  rfl

/-- C8: in the constructed coverage graph, each successor list holds every
target node at most once, is a sublist of the raw target list (so the first
occurrence order is preserved) with the same members (so a repeated branch
target contributes exactly one edge), and the predecessor lists are the exact
multiset inverse: `a` occurs in `predecessors b` exactly as often as `b`
occurs in `successors a`. -/
theorem c8_adjacency (mb : MirBody) :
    (∀ c, c < (fromMir mb).numNodes →
      ((fromMir mb).successors.getD c []).Nodup ∧
      (List.Sublist ((fromMir mb).successors.getD c []) (bcbRawTargets mb c)) ∧
      (∀ x, x ∈ (fromMir mb).successors.getD c [] ↔ x ∈ bcbRawTargets mb c)) ∧
    (∀ a b, a < (fromMir mb).numNodes → b < (fromMir mb).numNodes →
      List.count a ((fromMir mb).predecessors.getD b []) =
        List.count b ((fromMir mb).successors.getD a [])) := by
  constructor
  · intro c hc
    rw [fromMir_succ_eq_filterNew mb c hc]
    refine ⟨(filterNew_spec _ _).1, filterNew_sublist _ _, ?_⟩
    intro x
    rw [(filterNew_spec _ _).2 x]
    simp
  · intro a b ha hb
    rw [fromMir_predecessors,
      buildPreds_getD _ _ b (by rwa [fromMir_numNodes] at hb),
      count_predsInto, fromMir_successors]
    have hcond : 0 ≤ a ∧ a - 0 <
        (mkSuccessors mb (computeBcbs mb).1 (computeBcbs mb).2).length := by
      rw [mkSuccessors_length]
      rw [fromMir_numNodes] at ha
      omega
    rw [if_pos hcond]
    simp

theorem c8_adjacency_witness :
    ((fromMir [TermKind.switchInt [1, 1, 2], TermKind.ret, TermKind.ret]).successors.getD 0
      []).Nodup ∧
    List.count 0
        ((fromMir [TermKind.switchInt [1, 1, 2], TermKind.ret, TermKind.ret]).predecessors.getD
          1 []) =
      List.count 1
        ((fromMir [TermKind.switchInt [1, 1, 2], TermKind.ret, TermKind.ret]).successors.getD
          0 []) :=
  ⟨((c8_adjacency [TermKind.switchInt [1, 1, 2], TermKind.ret, TermKind.ret]).1 0
      (by decide)).1,
   (c8_adjacency [TermKind.switchInt [1, 1, 2], TermKind.ret, TermKind.ret]).2 0 1
      (by decide) (by decide)⟩

/-- Concatenation of a list of lists. -/
def flat : List (List Nat) → List Nat
  | [] => []
  | l :: ls => l ++ flat ls

theorem mem_flat (L : List (List Nat)) (x : Nat) : x ∈ flat L ↔ ∃ l ∈ L, x ∈ l := by
  induction L with
  | nil => simp [flat]
  | cons l ls ih =>
    rw [flat, List.mem_append, ih]
    constructor
    · rintro (h | ⟨l', hl', hx⟩)
      · exact ⟨l, by simp, h⟩
      · exact ⟨l', by simp [hl'], hx⟩
    · rintro ⟨l', hl', hx⟩
      rcases List.mem_cons.mp hl' with rfl | hl''
      · exact Or.inl hx
      · exact Or.inr ⟨l', hl'', hx⟩

theorem flat_append (L1 L2 : List (List Nat)) : flat (L1 ++ L2) = flat L1 ++ flat L2 := by
  induction L1 with
  | nil => simp [flat]
  | cons l ls ih => simp [flat, ih]

theorem flat_decomp (L : List (List Nat)) (c : Nat) (hc : c < L.length) :
    flat L = flat (L.take c) ++ L.getD c [] ++ flat (L.drop (c + 1)) := by
  induction L generalizing c with
  | nil => simp at hc
  | cons l ls ih =>
    cases c with
    | zero => simp [flat, List.getD]
    | succ c' =>
      have hc' : c' < ls.length := by simpa using hc
      have := ih c' hc'
      simp only [List.take_succ_cons, List.drop_succ_cons, flat]
      rw [this]
      simp [List.getD]

theorem getD_set_self (m : List (Option Nat)) (k : Nat) (v : Option Nat) (hk : k < m.length) :
    (m.set k v).getD k none = v := by
  rw [List.getD_eq_getElem?_getD, List.getElem?_set_self (by simpa using hk)]
  simp

theorem getD_set_ne (m : List (Option Nat)) (k : Nat) (v : Option Nat) (bb : Nat)
    (h : k ≠ bb) : (m.set k v).getD bb none = m.getD bb none := by
  rw [List.getD_eq_getElem?_getD, List.getElem?_set_ne h]
  rw [List.getD_eq_getElem?_getD]

theorem setAll_getD (keys : List Nat) : ∀ (m : List (Option Nat)) (v : Nat) (bb : Nat),
    (setAll m keys v).getD bb none =
      if bb ∈ keys ∧ bb < m.length then some v else m.getD bb none := by
  induction keys with
  | nil => intro m v bb; simp [setAll]
  | cons k ks ih =>
    intro m v bb
    have hstep : setAll m (k :: ks) v = setAll (m.set k (some v)) ks v := rfl
    rw [hstep, ih]
    by_cases hbb : bb ∈ ks
    · rw [List.length_set]
      by_cases hlt : bb < m.length
      · rw [if_pos ⟨hbb, hlt⟩, if_pos ⟨by simp [hbb], hlt⟩]
      · rw [if_neg (by tauto), if_neg (by tauto)]
        by_cases hkbb : k = bb
        · subst hkbb
          rw [List.set_eq_of_length_le (by omega)]
        · exact getD_set_ne m k (some v) bb hkbb
    · rw [List.length_set, if_neg (by tauto)]
      by_cases hkbb : k = bb
      · subst hkbb
        by_cases hlt : k < m.length
        · rw [if_pos ⟨by simp, hlt⟩]
          exact getD_set_self m k (some v) hlt
        · rw [if_neg (by tauto)]
          rw [List.set_eq_of_length_le (by omega)]
      · rw [if_neg (by simp [hkbb]; tauto)]
        exact getD_set_ne m k (some v) bb hkbb

theorem setAll_length (keys : List Nat) : ∀ (m : List (Option Nat)) (v : Nat),
    (setAll m keys v).length = m.length := by
  induction keys with
  | nil => intro m v; simp [setAll]
  | cons k ks ih =>
    intro m v
    have hstep : setAll m (k :: ks) v = setAll (m.set k (some v)) ks v := rfl
    rw [hstep, ih, List.length_set]

theorem eq_singleton_of_length_one_mem (l : List Nat) (x : Nat)
    (hlen : l.length = 1) (hx : x ∈ l) : l = [x] := by
  cases l with
  | nil => simp at hx
  | cons a t =>
    cases t with
    | nil =>
      have : x = a := by simpa using hx
      simp [this]
    | cons b t' => simp at hlen

/-- Well-formedness of a MIR body: it has an entry block, every terminator
edge targets an existing block, and the entry block has no predecessors (the
MIR invariant the source relies on; see the comment above the final asserts of
`from_mir`). -/
abbrev MirWf (mb : MirBody) : Prop :=
  0 < mb.length ∧ (∀ t ∈ mb, ∀ b ∈ allSuccs t, b < mb.length) ∧
    (mirPreds mb).getD 0 [] = []

theorem filteredG_graphSf (mb : MirBody) (u : Nat) (hu : u < mb.length) :
    graphSf (filteredG mb) u = (bcbFilteredSuccessors (bbTerm mb u)).targets := by
  rw [graphSf, filteredG, List.getD_eq_getElem?_getD, List.getElem?_map,
    List.getElem?_eq_getElem hu]
  simp [bbTerm, List.getD_eq_getElem?_getD, List.getElem?_eq_getElem hu]

theorem fullG_graphSf (mb : MirBody) (u : Nat) (hu : u < mb.length) :
    graphSf (fullG mb) u = allSuccs (bbTerm mb u) := by
  rw [graphSf, fullG, List.getD_eq_getElem?_getD, List.getElem?_map,
    List.getElem?_eq_getElem hu]
  simp [bbTerm, List.getD_eq_getElem?_getD, List.getElem?_eq_getElem hu]

theorem filteredG_wf (mb : MirBody) (hwf : MirWf mb) : GWf (filteredG mb) := by
  intro l hl x hx
  simp only [filteredG, List.mem_map] at hl
  obtain ⟨t, ht, rfl⟩ := hl
  have : x ∈ allSuccs t := covSuccs_subset_allSuccs t x hx
  have := hwf.2.1 t ht x this
  simpa [filteredG] using this

theorem fullG_wf (mb : MirBody) (hwf : MirWf mb) : GWf (fullG mb) := by
  intro l hl x hx
  simp only [fullG, List.mem_map] at hl
  obtain ⟨t, ht, rfl⟩ := hl
  have := hwf.2.1 t ht x hx
  simpa [fullG] using this

/-- Membership in the MIR predecessor cache corresponds to MIR edges. -/
theorem mirPreds_mem (mb : MirBody) (w : Nat) (hw : w < mb.length) (u : Nat) :
    u ∈ (mirPreds mb).getD w [] ↔ u < mb.length ∧ w ∈ allSuccs (bbTerm mb u) := by
  rw [mirPreds, buildPreds_getD _ _ w (by simpa [fullG] using hw)]
  rw [← List.count_pos_iff, count_predsInto]
  by_cases hu : u < (fullG mb).length
  · rw [if_pos (by constructor <;> omega)]
    have hu' : u < mb.length := by simpa [fullG] using hu
    rw [Nat.sub_zero,
      show List.getD (fullG mb) u [] = allSuccs (bbTerm mb u) from fullG_graphSf mb u hu',
      List.count_pos_iff]
    exact ⟨fun h => ⟨hu', h⟩, fun h => h.2⟩
  · rw [if_neg (by omega)]
    have hu' : ¬ u < mb.length := by simpa [fullG] using hu
    constructor
    · intro h; omega
    · intro h; exact absurd h.1 hu'

theorem dfsA_nil (sf : Nat → List Nat) (f : Nat) (vis : List Nat) :
    dfsA sf f [] vis = ⟨vis, [], []⟩ := by
  cases f <;> rfl

theorem dfsRun_pre_cons (g : List (List Nat)) (root : Nat) :
    (dfsRun g root).pre = root ::
      ((dfsA (graphSf g) (g.length * (graphBound g + 1)) (graphSf g root) [root]).pre ++
       (dfsA (graphSf g) (g.length * (graphBound g + 1)) []
         (dfsA (graphSf g) (g.length * (graphBound g + 1)) (graphSf g root) [root]).visited).pre) := by
  rw [dfsRun, dfsFuel]
  simp [dfsA]

theorem dfsRun_pre_single (g : List (List Nat)) (root : Nat) (hroot : graphSf g root = []) :
    (dfsRun g root).pre = [root] := by
  rw [dfsRun_pre_cons, hroot, dfsA_nil, dfsA_nil]
  rfl

theorem mergeOrder_nodup (mb : MirBody) : (mergeOrder mb).Nodup :=
  List.Nodup.filter _ (dfsA_pre_nodup _ _ _ _)

theorem mergeOrder_sub_pre (mb : MirBody) :
    ∀ bb ∈ mergeOrder mb, bb ∈ (dfsRun (filteredG mb) 0).pre := by
  intro bb hbb
  exact List.mem_of_mem_filter hbb

theorem mergeOrder_not_unreachable (mb : MirBody) :
    ∀ bb ∈ mergeOrder mb, bbTerm mb bb ≠ .unreachable := by
  intro bb hbb
  have := List.of_mem_filter hbb
  simpa using this

theorem mergeOrder_lt (mb : MirBody) (hwf : MirWf mb) :
    ∀ bb ∈ mergeOrder mb, bb < mb.length := by
  intro bb hbb
  have hpre := mergeOrder_sub_pre mb bb hbb
  rcases dfsA_pre_discoverer (graphSf (filteredG mb)) (dfsFuel (filteredG mb)) [0] [] bb hpre
    with h | ⟨u, hu, -⟩
  · have h0 : bb = 0 := by simpa using h
    subst h0
    exact hwf.1
  · have h1 := graphSf_targets_lt (filteredG mb) (filteredG_wf mb hwf) u bb hu
    simpa [filteredG] using h1

/-- Every block of the merge order except the entry has a coverage-relevant
in-edge from a block visited earlier in the depth-first preorder. -/
theorem mergeOrder_disc (mb : MirBody) :
    ∀ w ∈ mergeOrder mb, w = 0 ∨ ∃ u, u < mb.length ∧
      w ∈ (bcbFilteredSuccessors (bbTerm mb u)).targets ∧
      ListBefore u w (dfsRun (filteredG mb) 0).pre := by
  intro w hw
  have hpre := mergeOrder_sub_pre mb w hw
  rcases dfsA_pre_discoverer (graphSf (filteredG mb)) (dfsFuel (filteredG mb)) [0] [] w hpre
    with h | ⟨u, hu, hbef⟩
  · exact Or.inl (by simpa using h)
  · right
    have hulen : u < mb.length := by
      by_contra hc
      have : graphSf (filteredG mb) u = [] := by
        rw [graphSf, List.getD_eq_getElem?_getD,
          List.getElem?_eq_none (by simpa [filteredG] using Nat.le_of_not_lt hc)]
        rfl
      rw [this] at hu
      simp at hu
    refine ⟨u, hulen, ?_, hbef⟩
    rwa [filteredG_graphSf mb u hulen] at hu

theorem mergeOrder_head (mb : MirBody) (hstart : bbTerm mb 0 ≠ .unreachable) :
    ∃ rest, mergeOrder mb = 0 :: rest := by
  rw [mergeOrder, dfsRun_pre_cons]
  rw [List.filter_cons]
  have hcond : (!(bbTerm mb 0 == TermKind.unreachable)) = true := by
    simpa using hstart
  rw [if_pos (by simp [hcond])]
  exact ⟨_, rfl⟩

/-- If the entry block's terminator is the explicit unreachable marker, the
merge order is empty (the single visited block is filtered out). -/
theorem mergeOrder_start_unreachable (mb : MirBody)
    (hstart : bbTerm mb 0 = .unreachable) : mergeOrder mb = [] := by
  rw [mergeOrder, dfsRun_pre_single]
  · rw [List.filter_cons]
    have hcond : (!(bbTerm mb 0 == TermKind.unreachable)) = false := by
      simp [hstart]
    rw [if_neg (by simp [hcond])]
    rfl
  · by_cases h0 : 0 < mb.length
    · rw [filteredG_graphSf mb 0 h0, hstart]
      rfl
    · rw [graphSf, List.getD_eq_getElem?_getD,
        List.getElem?_eq_none (by simpa [filteredG] using Nat.le_of_not_lt h0)]
      rfl

theorem getD_append_lt {α : Type} (l r : List α) (c : Nat) (d : α) (hc : c < l.length) :
    (l ++ r).getD c d = l.getD c d := by
  rw [List.getD_eq_getElem?_getD, List.getD_eq_getElem?_getD,
    List.getElem?_append_left hc]

theorem getD_append_len {α : Type} (l r : List α) (d : α) :
    (l ++ r).getD l.length d = r.getD 0 d := by
  rw [List.getD_eq_getElem?_getD, List.getD_eq_getElem?_getD,
    List.getElem?_append_right (le_refl _), Nat.sub_self]

/-- Two consecutive blocks of one chain: the earlier block's coverage-relevant
successor list is exactly the later block, the later block's complete MIR
predecessor list is exactly the earlier block, and the later block is not the
entry block. -/
def strongLink (mb : MirBody) (p w : Nat) : Prop :=
  (bcbFilteredSuccessors (bbTerm mb p)).targets = [w] ∧
  (mirPreds mb).getD w [] = [p] ∧ w ≠ 0

/-- Invariant of the chain-merging fold after processing the blocks `done`. -/
structure MergeInv (mb : MirBody) (done : List Nat) (acc : ChainAcc) : Prop where
  partition : flat (acc.bcbs.map (fun d => d.basicBlocks)) ++ acc.chain = done
  maplen : acc.bbToBcb.length = mb.length
  mapiff : ∀ bb c, acc.bbToBcb.getD bb none = some c ↔
    c < acc.bcbs.length ∧ bb ∈ (acc.bcbs.getD c ⟨[], false⟩).basicBlocks
  nonempty : ∀ d ∈ acc.bcbs, d.basicBlocks ≠ []
  links : ∀ d ∈ acc.bcbs, List.Chain' (strongLink mb) d.basicBlocks
  chainlinks : List.Chain' (strongLink mb) acc.chain
  summ : ∀ d ∈ acc.bcbs, d.isOutSummable =
    (bcbFilteredSuccessors (bbTerm mb d.lastBb)).isOutSummable

theorem flushChain_inv (mb : MirBody) (done : List Nat) (acc : ChainAcc)
    (inv : MergeInv mb done acc) (hne : acc.chain ≠ []) (hnd : done.Nodup)
    (hlt : ∀ bb ∈ acc.chain, bb < mb.length) :
    MergeInv mb done (flushChain mb acc) := by
  have hlast := List.getLast?_eq_getLast_of_ne_nil hne
  have hflush : flushChain mb acc =
      ⟨acc.bcbs ++ [⟨acc.chain,
          (bcbFilteredSuccessors (bbTerm mb (acc.chain.getLast hne))).isOutSummable⟩],
       setAll acc.bbToBcb acc.chain acc.bcbs.length, []⟩ := by
    rw [flushChain, hlast]
  -- disjointness of the already flushed blocks from the open chain
  have hdisj : ∀ bb ∈ acc.chain, ∀ c, c < acc.bcbs.length →
      bb ∉ (acc.bcbs.getD c ⟨[], false⟩).basicBlocks := by
    intro bb hbb c hc hmem
    have hflat : bb ∈ flat (acc.bcbs.map (fun d => d.basicBlocks)) := by
      rw [mem_flat]
      refine ⟨(acc.bcbs.getD c ⟨[], false⟩).basicBlocks, ?_, hmem⟩
      rw [List.mem_map]
      refine ⟨acc.bcbs.getD c ⟨[], false⟩, ?_, rfl⟩
      rw [List.getD_eq_getElem?_getD, List.getElem?_eq_getElem hc]
      exact List.getElem_mem hc
    have hnd' : (flat (acc.bcbs.map (fun d => d.basicBlocks)) ++ acc.chain).Nodup := by
      rw [inv.partition]; exact hnd
    exact (List.disjoint_of_nodup_append hnd') hflat hbb
  rw [hflush]
  constructor
  · simp only [List.map_append, List.map_cons, List.map_nil, flat_append]
    simp only [flat, List.append_nil]
    exact inv.partition
  · rw [setAll_length]; exact inv.maplen
  · intro bb c
    rw [setAll_getD, inv.maplen]
    by_cases hbb : bb ∈ acc.chain
    · have hbblt : bb < mb.length := hlt bb hbb
      rw [if_pos ⟨hbb, hbblt⟩]
      constructor
      · intro h
        have hc : c = acc.bcbs.length := by
          have := Option.some.inj h
          omega
        subst hc
        refine ⟨by simp, ?_⟩
        rw [getD_append_len]
        simpa using hbb
      · rintro ⟨hclt, hcm⟩
        simp only [List.length_append, List.length_cons, List.length_nil] at hclt
        by_cases hceq : c = acc.bcbs.length
        · simp [hceq]
        · have hclt' : c < acc.bcbs.length := by omega
          rw [getD_append_lt _ _ _ _ hclt'] at hcm
          exact absurd hcm (hdisj bb hbb c hclt')
    · rw [if_neg (by tauto)]
      rw [inv.mapiff]
      constructor
      · rintro ⟨hclt, hcm⟩
        refine ⟨by simp; omega, ?_⟩
        rw [getD_append_lt _ _ _ _ hclt]
        exact hcm
      · rintro ⟨hclt, hcm⟩
        simp only [List.length_append, List.length_cons, List.length_nil] at hclt
        by_cases hceq : c = acc.bcbs.length
        · subst hceq
          rw [getD_append_len] at hcm
          simp only [List.getD_cons_zero] at hcm
          exact absurd hcm hbb
        · have hclt' : c < acc.bcbs.length := by omega
          rw [getD_append_lt _ _ _ _ hclt'] at hcm
          exact ⟨hclt', hcm⟩
  · intro d hd
    rcases List.mem_append.mp hd with h | h
    · exact inv.nonempty d h
    · have hdd : d = ⟨acc.chain,
          (bcbFilteredSuccessors (bbTerm mb (acc.chain.getLast hne))).isOutSummable⟩ := by
        simpa using h
      rw [hdd]
      exact hne
  · intro d hd
    rcases List.mem_append.mp hd with h | h
    · exact inv.links d h
    · have hdd : d = ⟨acc.chain,
          (bcbFilteredSuccessors (bbTerm mb (acc.chain.getLast hne))).isOutSummable⟩ := by
        simpa using h
      rw [hdd]
      exact inv.chainlinks
  · exact List.chain'_nil
  · intro d hd
    rcases List.mem_append.mp hd with h | h
    · exact inv.summ d h
    · have hdd : d = ⟨acc.chain,
          (bcbFilteredSuccessors (bbTerm mb (acc.chain.getLast hne))).isOutSummable⟩ := by
        simpa using h
      rw [hdd]
      simp only [BcbData.lastBb]
      rw [hlast]
      rfl

theorem chain_sub_done (mb : MirBody) (done : List Nat) (acc : ChainAcc)
    (inv : MergeInv mb done acc) : ∀ x ∈ acc.chain, x ∈ done := by
  intro x hx
  rw [← inv.partition]
  simp [hx]

theorem chainStep_inv (mb : MirBody) (done : List Nat) (acc : ChainAcc) (bb : Nat)
    (inv : MergeInv mb done acc)
    (hnd : (done ++ [bb]).Nodup)
    (hlt : ∀ x ∈ done ++ [bb], x < mb.length)
    (hpreds0 : (mirPreds mb).getD 0 [] = [])
    (hdisc : bb = 0 ∨ ∃ u, u < mb.length ∧
      bb ∈ (bcbFilteredSuccessors (bbTerm mb u)).targets) :
    MergeInv mb (done ++ [bb]) (chainStep mb acc bb) := by
  have hbblt : bb < mb.length := hlt bb (by simp)
  have hdone_nd : done.Nodup := (List.nodup_append.mp hnd).1
  have hdone_lt : ∀ x ∈ done, x < mb.length := fun x hx => hlt x (by simp [hx])
  cases hlast : acc.chain.getLast? with
  | none =>
    have hcnil : acc.chain = [] := List.getLast?_eq_none_iff.mp hlast
    have hstep : chainStep mb acc bb = { acc with chain := acc.chain ++ [bb] } := by
      rw [chainStep, hlast]
    rw [hstep]
    constructor
    · rw [← List.append_assoc, inv.partition]
    · exact inv.maplen
    · exact inv.mapiff
    · exact inv.nonempty
    · exact inv.links
    · rw [hcnil]
      exact List.chain'_singleton bb
    · exact inv.summ
  | some prev =>
    have hchne : acc.chain ≠ [] := by
      intro hc
      rw [hc] at hlast
      simp at hlast
    cases hcc : ((bcbFilteredSuccessors (bbTerm mb prev)).isOutChainable &&
        ((mirPreds mb).getD bb [] == [prev])) with
    | true =>
      have h1 : (bcbFilteredSuccessors (bbTerm mb prev)).isOutChainable = true :=
        (Bool.and_eq_true_iff.mp hcc).1
      have h2 : (mirPreds mb).getD bb [] = [prev] := by
        have := (Bool.and_eq_true_iff.mp hcc).2
        simpa using this
      have hbb0 : bb ≠ 0 := by
        intro hc
        rw [hc, hpreds0] at h2
        simp at h2
      have hlink : strongLink mb prev bb := by
        rcases hdisc with hc | ⟨u, hul, hmem⟩
        · exact absurd hc hbb0
        · have hu_pred : u ∈ (mirPreds mb).getD bb [] := by
            rw [mirPreds_mem mb bb hbblt u]
            exact ⟨hul, covSuccs_subset_allSuccs _ bb hmem⟩
          rw [h2] at hu_pred
          have huprev : u = prev := by simpa using hu_pred
          subst huprev
          have hlen1 : (bcbFilteredSuccessors (bbTerm mb u)).targets.length = 1 := by
            have := (Bool.and_eq_true_iff.mp h1).2
            simpa using this
          exact ⟨eq_singleton_of_length_one_mem _ bb hlen1 hmem, h2, hbb0⟩
      have hstep : chainStep mb acc bb = { acc with chain := acc.chain ++ [bb] } := by
        rw [chainStep, hlast]
        simp only [hcc, if_true]
      rw [hstep]
      constructor
      · rw [← List.append_assoc, inv.partition]
      · exact inv.maplen
      · exact inv.mapiff
      · exact inv.nonempty
      · exact inv.links
      · rw [List.chain'_append]
        refine ⟨inv.chainlinks, List.chain'_singleton bb, ?_⟩
        intro x hx y hy
        have hxp : prev = x := by rw [hlast] at hx; simpa using hx
        have hyb : bb = y := by simpa using hy
        rw [← hxp, ← hyb]
        exact hlink
      · exact inv.summ
    | false =>
      have hflushinv := flushChain_inv mb done acc inv hchne hdone_nd
        (fun x hx => hdone_lt x (chain_sub_done mb done acc inv x hx))
      have hstep : chainStep mb acc bb = { flushChain mb acc with chain := [bb] } := by
        rw [chainStep, hlast]
        simp only [hcc, Bool.false_eq_true, if_false]
      rw [hstep]
      have hfc : (flushChain mb acc).chain = [] := by
        rw [flushChain]
      constructor
      · have hp := hflushinv.partition
        rw [hfc, List.append_nil] at hp
        simp [hp]
      · exact hflushinv.maplen
      · exact hflushinv.mapiff
      · exact hflushinv.nonempty
      · exact hflushinv.links
      · exact List.chain'_singleton bb
      · exact hflushinv.summ

theorem mergeFold_inv (mb : MirBody) (hpreds0 : (mirPreds mb).getD 0 [] = []) :
    ∀ (order done : List Nat) (acc : ChainAcc), MergeInv mb done acc →
      (done ++ order).Nodup →
      (∀ x ∈ done ++ order, x < mb.length) →
      (∀ w ∈ order, w = 0 ∨ ∃ u, u < mb.length ∧
        w ∈ (bcbFilteredSuccessors (bbTerm mb u)).targets) →
      MergeInv mb (done ++ order) (order.foldl (chainStep mb) acc) := by
  intro order
  induction order with
  | nil =>
    intro done acc inv _ _ _
    simpa using inv
  | cons bb rest ih =>
    intro done acc inv hnd hlt hdisc
    have hsub : List.Sublist (done ++ [bb]) (done ++ bb :: rest) :=
      List.Sublist.append_left (by simp) done
    have hstep := chainStep_inv mb done acc bb inv (hnd.sublist hsub)
      (fun x hx => hlt x (hsub.mem hx)) hpreds0 (hdisc bb (by simp))
    have happ : done ++ bb :: rest = (done ++ [bb]) ++ rest := by simp
    rw [happ]
    have hfold : (bb :: rest).foldl (chainStep mb) acc =
        rest.foldl (chainStep mb) (chainStep mb acc bb) := rfl
    rw [hfold]
    refine ih (done ++ [bb]) (chainStep mb acc bb) hstep ?_ ?_ ?_
    · rw [← happ]; exact hnd
    · rw [← happ]; exact hlt
    · intro w hw; exact hdisc w (by simp [hw])

theorem replicate_none_getD (n bb : Nat) :
    (List.replicate n (none : Option Nat)).getD bb none = none := by
  rw [List.getD_eq_getElem?_getD, List.getElem?_replicate]
  by_cases h : bb < n <;> simp [h]

theorem mergeInit_inv (mb : MirBody) :
    MergeInv mb [] ⟨[], List.replicate mb.length none, []⟩ := by
  constructor
  · simp [flat]
  · simp
  · intro bb c
    rw [replicate_none_getD]
    simp
  · simp
  · simp
  · exact List.chain'_nil
  · simp

theorem computeBcbs_inv (mb : MirBody) (hwf : MirWf mb) :
    MergeInv mb (mergeOrder mb) ⟨(computeBcbs mb).1, (computeBcbs mb).2, []⟩ := by
  have hfold := mergeFold_inv mb hwf.2.2 (mergeOrder mb) []
    ⟨[], List.replicate mb.length none, []⟩ (mergeInit_inv mb)
    (by simpa using mergeOrder_nodup mb)
    (by simpa using mergeOrder_lt mb hwf)
    (by
      intro w hw
      rcases mergeOrder_disc mb w hw with h | ⟨u, hul, hmem, -⟩
      · exact Or.inl h
      · exact Or.inr ⟨u, hul, hmem⟩)
  simp only [List.nil_append] at hfold
  set acc := (mergeOrder mb).foldl (chainStep mb) ⟨[], List.replicate mb.length none, []⟩
    with hacc
  have hcomp : computeBcbs mb =
      ((if acc.chain.isEmpty then acc else flushChain mb acc).bcbs,
       (if acc.chain.isEmpty then acc else flushChain mb acc).bbToBcb) := rfl
  by_cases hce : acc.chain.isEmpty
  · have hchain : acc.chain = [] := by simpa using hce
    rw [hcomp, if_pos hce]
    have heta : (⟨acc.bcbs, acc.bbToBcb, []⟩ : ChainAcc) = acc := by
      rw [← hchain]
    rw [heta]
    exact hfold
  · have hchain : acc.chain ≠ [] := by simpa using hce
    rw [hcomp, if_neg hce]
    have hflush := flushChain_inv mb (mergeOrder mb) acc hfold hchain (mergeOrder_nodup mb)
      (fun x hx => mergeOrder_lt mb hwf x (chain_sub_done mb _ acc hfold x hx))
    have hfc : (flushChain mb acc).chain = [] := by rw [flushChain]
    have heta : (⟨(flushChain mb acc).bcbs, (flushChain mb acc).bbToBcb, []⟩ : ChainAcc) =
        flushChain mb acc := by
      rw [← hfc]
    rw [heta]
    exact hflush

theorem listBefore_getElem (a b : Nat) (l : List Nat) (h : ListBefore a b l) :
    ∃ i j : Nat, i < j ∧ l[i]? = some a ∧ l[j]? = some b := by
  obtain ⟨l1, l2, l3, rfl⟩ := h
  refine ⟨l1.length, l1.length + 1 + l2.length, by omega, ?_, ?_⟩
  · rw [List.getElem?_append_right (le_refl _), Nat.sub_self]
    simp
  · rw [List.getElem?_append_right (by omega)]
    have h1 : l1.length + 1 + l2.length - l1.length = l2.length + 1 := by omega
    rw [h1]
    show (a :: (l2 ++ b :: l3))[l2.length + 1]? = some b
    rw [List.getElem?_cons_succ, List.getElem?_append_right (le_refl _), Nat.sub_self]
    simp

theorem getElem?_some_lt {l : List Nat} {i : Nat} {a : Nat} (h : l[i]? = some a) :
    i < l.length := by
  by_contra hc
  rw [List.getElem?_eq_none (by omega)] at h
  simp at h

theorem listBefore_nodup_asymm (l : List Nat) (hnd : l.Nodup) (a b : Nat)
    (h1 : ListBefore a b l) : ¬ ListBefore b a l := by
  intro h2
  obtain ⟨i, j, hij, hia, hjb⟩ := listBefore_getElem a b l h1
  obtain ⟨i', j', hij', hib, hja⟩ := listBefore_getElem b a l h2
  have e1 : i = j' := List.getElem?_inj (getElem?_some_lt hia) hnd (by rw [hia, hja])
  have e2 : j = i' := List.getElem?_inj (getElem?_some_lt hjb) hnd (by rw [hjb, hib])
  omega

theorem listBefore_nodup_ne (l : List Nat) (hnd : l.Nodup) (a : Nat) :
    ¬ ListBefore a a l := by
  intro h
  obtain ⟨i, j, hij, hia, hja⟩ := listBefore_getElem a a l h
  have heq : i = j := List.getElem?_inj (getElem?_some_lt hia) hnd (by rw [hia, hja])
  omega

theorem listBefore_filter (a b : Nat) (l : List Nat) (p : Nat → Bool)
    (h : ListBefore a b l) (hpa : p a = true) (hpb : p b = true) :
    ListBefore a b (l.filter p) := by
  obtain ⟨l1, l2, l3, rfl⟩ := h
  refine ⟨l1.filter p, l2.filter p, l3.filter p, ?_⟩
  rw [List.filter_append, List.filter_cons, if_pos hpa, List.filter_append,
    List.filter_cons, if_pos hpb]

/-- Any member of the tail of a nonempty list has an immediate predecessor in
the list. -/
theorem cons_mem_decomp (a w : Nat) (t : List Nat) (hw : w ∈ t) :
    ∃ l1 p l2, a :: t = l1 ++ p :: w :: l2 := by
  obtain ⟨t1, t2, rfl⟩ := List.append_of_mem hw
  have hne : (a :: t1) ≠ [] := by simp
  have hdl := List.dropLast_append_getLast hne
  refine ⟨(a :: t1).dropLast, (a :: t1).getLast hne, t2, ?_⟩
  calc a :: (t1 ++ w :: t2) = (a :: t1) ++ w :: t2 := by simp
    _ = ((a :: t1).dropLast ++ [(a :: t1).getLast hne]) ++ w :: t2 := by rw [hdl]
    _ = (a :: t1).dropLast ++ (a :: t1).getLast hne :: w :: t2 := by simp

/-- Any member of a list other than its last element has an immediate
successor in the list. -/
theorem mem_ne_last_decomp : ∀ (l : List Nat) (u : Nat), u ∈ l →
    (∀ q, l.getLast? = some q → u ≠ q) → ∃ l1 next l2, l = l1 ++ u :: next :: l2 := by
  intro l
  induction l with
  | nil => intro u hu; simp at hu
  | cons x t ih =>
    intro u hu hne
    cases t with
    | nil =>
      have hux : u = x := by simpa using hu
      exact absurd hux (hne x rfl)
    | cons y t' =>
      rcases List.mem_cons.mp hu with rfl | hu'
      · exact ⟨[], y, t', rfl⟩
      · have hne' : ∀ q, (y :: t').getLast? = some q → u ≠ q := by
          intro q hq
          exact hne q (by rwa [List.getLast?_cons_cons])
        obtain ⟨l1, next, l2, heq⟩ := ih u hu' hne'
        exact ⟨x :: l1, next, l2, by rw [heq]; rfl⟩

/-- The last element of a list is never the earlier element of an adjacent
pair, provided the list has no duplicates. -/
theorem getLast?_ne_mid (l l1 l2 : List Nat) (p t : Nat) (hnd : l.Nodup)
    (hdec : l = l1 ++ p :: t :: l2) (q : Nat) (hq : l.getLast? = some q) : q ≠ p := by
  subst hdec
  rw [List.getLast?_append_of_ne_nil l1 (by simp)] at hq
  rw [List.getLast?_cons_cons] at hq
  have hqmem : q ∈ t :: l2 := getLast?_mem' _ _ hq
  have hsub : List.Sublist (p :: t :: l2) (l1 ++ p :: t :: l2) := by
    refine List.sublist_append_right ..
  have hnd' : (p :: t :: l2).Nodup := hnd.sublist hsub
  have hp : p ∉ t :: l2 := (List.nodup_cons.mp hnd').1
  intro hc
  subst hc
  exact hp hqmem

/-- A relation holding along a chain holds on every adjacent pair. -/
theorem chain'_mid (R : Nat → Nat → Prop) (l l1 l2 : List Nat) (p w : Nat)
    (hc : List.Chain' R l) (hdec : l = l1 ++ p :: w :: l2) : R p w := by
  subst hdec
  have h := (List.chain'_append.mp hc).2.1
  exact (List.chain'_cons.mp h).1

theorem flat_map_blocks_mem (bcbs : List BcbData) (bb : Nat) :
    bb ∈ flat (bcbs.map (fun d => d.basicBlocks)) ↔
      ∃ c, c < bcbs.length ∧ bb ∈ (bcbs.getD c ⟨[], false⟩).basicBlocks := by
  rw [mem_flat]
  constructor
  · rintro ⟨l, hl, hbb⟩
    rw [List.mem_map] at hl
    obtain ⟨d, hd, rfl⟩ := hl
    obtain ⟨c, hc, hdc⟩ := List.mem_iff_getElem.mp hd
    refine ⟨c, hc, ?_⟩
    rw [List.getD_eq_getElem?_getD, List.getElem?_eq_getElem hc]
    rw [Option.getD_some, hdc]
    exact hbb
  · rintro ⟨c, hc, hbb⟩
    refine ⟨(bcbs.getD c ⟨[], false⟩).basicBlocks, ?_, hbb⟩
    rw [List.mem_map]
    refine ⟨bcbs.getD c ⟨[], false⟩, ?_, rfl⟩
    rw [List.getD_eq_getElem?_getD, List.getElem?_eq_getElem hc]
    exact List.getElem_mem hc

theorem fromMir_succs_mem (mb : MirBody) (c : Nat) (hc : c < (fromMir mb).numNodes)
    (x : Nat) :
    x ∈ (fromMir mb).successors.getD c [] ↔
      ∃ t ∈ (bcbFilteredSuccessors
          (bbTerm mb ((computeBcbs mb).1.getD c ⟨[], false⟩).lastBb)).targets,
        (computeBcbs mb).2.getD t none = some x := by
  rw [fromMir_succ_eq_filterNew mb c hc, (filterNew_spec _ _).2 x]
  rw [bcbRawTargets, List.mem_filterMap]
  simp

theorem fromMir_pred_mem_iff (mb : MirBody) (a c : Nat) (hc : c < (fromMir mb).numNodes) :
    a ∈ (fromMir mb).predecessors.getD c [] ↔
      a < (fromMir mb).numNodes ∧ c ∈ (fromMir mb).successors.getD a [] := by
  rw [fromMir_predecessors,
    buildPreds_getD _ _ c (by rwa [fromMir_numNodes] at hc),
    ← List.count_pos_iff, count_predsInto]
  by_cases ha : a < (mkSuccessors mb (computeBcbs mb).1 (computeBcbs mb).2).length
  · rw [if_pos ⟨Nat.zero_le a, by omega⟩, Nat.sub_zero, List.count_pos_iff]
    have halen : a < (fromMir mb).numNodes := by
      rwa [mkSuccessors_length, ← fromMir_numNodes] at ha
    rw [show (mkSuccessors mb (computeBcbs mb).1 (computeBcbs mb).2).getD a [] =
      (fromMir mb).successors.getD a [] from rfl]
    exact ⟨fun h => ⟨halen, h⟩, fun h => h.2⟩
  · rw [if_neg (by omega)]
    have halen : ¬ a < (fromMir mb).numNodes := by
      rwa [mkSuccessors_length, ← fromMir_numNodes] at ha
    constructor
    · intro h; omega
    · intro h; exact absurd h.1 halen

/-- C2 (amended): after construction, a block is mapped by `bb_to_bcb` to some
coverage node — necessarily exactly one, the one listing it among its blocks —
if and only if it is reachable from the entry block along coverage-relevant
edges AND its terminator is not the explicit `Unreachable` marker (such blocks
are skipped by the traversal); every other block is mapped to none. -/
theorem c2_reachable_mapped (mb : MirBody) (hwf : MirWf mb) :
    ∀ bb, bb < mb.length →
      ((((fromMir mb).bbToBcb.getD bb none).isSome = true) ↔
        (Reaches (graphSf (filteredG mb)) 0 bb ∧ bbTerm mb bb ≠ TermKind.unreachable)) ∧
      (∀ c, (fromMir mb).bbToBcb.getD bb none = some c →
        c < (fromMir mb).numNodes ∧
        bb ∈ ((fromMir mb).bcbs.getD c ⟨[], false⟩).basicBlocks ∧
        ∀ c', c' < (fromMir mb).numNodes →
          bb ∈ ((fromMir mb).bcbs.getD c' ⟨[], false⟩).basicBlocks → c' = c) := by
  intro bb _
  have inv := computeBcbs_inv mb hwf
  have hpart : flat ((computeBcbs mb).1.map (fun d => d.basicBlocks)) = mergeOrder mb := by
    have h := inv.partition
    simpa using h
  constructor
  · rw [Option.isSome_iff_exists]
    have h1 : (∃ c, (fromMir mb).bbToBcb.getD bb none = some c) ↔ bb ∈ mergeOrder mb := by
      constructor
      · rintro ⟨c, hcc⟩
        rw [fromMir_bbToBcb] at hcc
        have := (inv.mapiff bb c).mp hcc
        rw [← hpart, flat_map_blocks_mem]
        exact ⟨c, this.1, this.2⟩
      · intro hmem
        rw [← hpart, flat_map_blocks_mem] at hmem
        obtain ⟨c, hc, hbbmem⟩ := hmem
        exact ⟨c, by rw [fromMir_bbToBcb]; exact (inv.mapiff bb c).mpr ⟨hc, hbbmem⟩⟩
    rw [h1, mergeOrder, List.mem_filter]
    have h2 : bb ∈ (dfsRun (filteredG mb) 0).pre ↔ Reaches (graphSf (filteredG mb)) 0 bb := by
      rw [← dfsRun_visited_iff_pre]
      exact dfsRun_visited_iff_reaches (filteredG mb) 0 (filteredG_wf mb hwf)
        (by simpa [filteredG] using hwf.1) bb
    rw [h2]
    constructor
    · rintro ⟨hr, hcond⟩
      exact ⟨hr, by simpa using hcond⟩
    · rintro ⟨hr, hcond⟩
      exact ⟨hr, by simpa using hcond⟩
  · intro c hcc
    rw [fromMir_bbToBcb] at hcc
    have h := (inv.mapiff bb c).mp hcc
    refine ⟨by rw [fromMir_numNodes]; exact h.1, by rw [fromMir_bcbs]; exact h.2, ?_⟩
    intro c' hc' hmem'
    rw [fromMir_numNodes] at hc'
    rw [fromMir_bcbs] at hmem'
    have := (inv.mapiff bb c').mpr ⟨hc', hmem'⟩
    rw [hcc] at this
    exact (Option.some.inj this).symm

/-- C2 counterexample: in the two-block body `[goto 1, unreachable]`, block 1
is reachable from the entry along a coverage-relevant edge, yet `bb_to_bcb`
maps it to none — refuting the claim as stated (which has no exception for
blocks with an `Unreachable` terminator). -/
theorem c2_counterexample :
    Reaches (graphSf (filteredG [TermKind.goto 1, TermKind.unreachable])) 0 1 ∧
    (fromMir [TermKind.goto 1, TermKind.unreachable]).bbToBcb.getD 1 none = none := by
  constructor
  · refine ⟨[0, 1], ⟨?_, rfl, rfl⟩⟩
    refine List.chain'_cons.mpr ⟨?_, List.chain'_singleton 1⟩
    decide
  · decide

theorem c2_reachable_mapped_witness :
    (((fromMir [TermKind.goto 1, TermKind.unreachable]).bbToBcb.getD 1 none).isSome = true ↔
      (Reaches (graphSf (filteredG [TermKind.goto 1, TermKind.unreachable])) 0 1 ∧
        bbTerm [TermKind.goto 1, TermKind.unreachable] 1 ≠ TermKind.unreachable)) :=
  (c2_reachable_mapped [TermKind.goto 1, TermKind.unreachable] (by decide) 1 (by decide)).1

theorem getD_mem {α : Type} (l : List α) (c : Nat) (d : α) (hc : c < l.length) :
    l.getD c d ∈ l := by
  rw [List.getD_eq_getElem?_getD, List.getElem?_eq_getElem hc]
  exact List.getElem_mem hc

theorem getD_map_blocks (bcbs : List BcbData) (c : Nat) (hc : c < bcbs.length) :
    (bcbs.map (fun d => d.basicBlocks)).getD c [] =
      (bcbs.getD c ⟨[], false⟩).basicBlocks := by
  rw [List.getD_eq_getElem?_getD, List.getElem?_map, List.getElem?_eq_getElem hc]
  simp [List.getD_eq_getElem?_getD, List.getElem?_eq_getElem hc]

theorem lastBb_mem (d : BcbData) (h : d.basicBlocks ≠ []) : d.lastBb ∈ d.basicBlocks := by
  rw [BcbData.lastBb, List.getLast?_eq_getLast_of_ne_nil h, Option.getD_some]
  exact List.getLast_mem h

theorem lastBb_getLast? (d : BcbData) (h : d.basicBlocks ≠ []) :
    d.basicBlocks.getLast? = some d.lastBb := by
  rw [BcbData.lastBb, List.getLast?_eq_getLast_of_ne_nil h, Option.getD_some]

theorem bcb_blocks_ne_nil (mb : MirBody) (hwf : MirWf mb) (c : Nat)
    (hc : c < (computeBcbs mb).1.length) :
    ((computeBcbs mb).1.getD c ⟨[], false⟩).basicBlocks ≠ [] :=
  (computeBcbs_inv mb hwf).nonempty _ (getD_mem _ c _ hc)

theorem bcb_blocks_chain (mb : MirBody) (hwf : MirWf mb) (c : Nat)
    (hc : c < (computeBcbs mb).1.length) :
    List.Chain' (strongLink mb) ((computeBcbs mb).1.getD c ⟨[], false⟩).basicBlocks :=
  (computeBcbs_inv mb hwf).links _ (getD_mem _ c _ hc)

theorem flat_blocks_eq_order (mb : MirBody) (hwf : MirWf mb) :
    flat ((computeBcbs mb).1.map (fun d => d.basicBlocks)) = mergeOrder mb := by
  have h := (computeBcbs_inv mb hwf).partition
  simpa using h

theorem bcb_blocks_sub_order (mb : MirBody) (hwf : MirWf mb) (c : Nat)
    (hc : c < (computeBcbs mb).1.length) :
    ∀ x ∈ ((computeBcbs mb).1.getD c ⟨[], false⟩).basicBlocks, x ∈ mergeOrder mb := by
  intro x hx
  rw [← flat_blocks_eq_order mb hwf, flat_map_blocks_mem]
  exact ⟨c, hc, hx⟩

theorem bcb_blocks_nodup (mb : MirBody) (hwf : MirWf mb) (c : Nat)
    (hc : c < (computeBcbs mb).1.length) :
    ((computeBcbs mb).1.getD c ⟨[], false⟩).basicBlocks.Nodup := by
  have hdec := flat_decomp ((computeBcbs mb).1.map (fun d => d.basicBlocks)) c
    (by simpa using hc)
  rw [getD_map_blocks _ c hc] at hdec
  have hsub : List.Sublist ((computeBcbs mb).1.getD c ⟨[], false⟩).basicBlocks
      (flat ((computeBcbs mb).1.map (fun d => d.basicBlocks))) := by
    rw [hdec, List.append_assoc]
    refine List.Sublist.trans ?_ (List.sublist_append_right _ _)
    exact List.sublist_append_left _ _
  rw [flat_blocks_eq_order mb hwf] at hsub
  exact (mergeOrder_nodup mb).sublist hsub

theorem bcb_owner_unique (mb : MirBody) (hwf : MirWf mb) (bb c c' : Nat)
    (hc : c < (computeBcbs mb).1.length) (hc' : c' < (computeBcbs mb).1.length)
    (hm : bb ∈ ((computeBcbs mb).1.getD c ⟨[], false⟩).basicBlocks)
    (hm' : bb ∈ ((computeBcbs mb).1.getD c' ⟨[], false⟩).basicBlocks) : c = c' := by
  have inv := computeBcbs_inv mb hwf
  have h1 := (inv.mapiff bb c).mpr ⟨hc, hm⟩
  have h2 := (inv.mapiff bb c').mpr ⟨hc', hm'⟩
  rw [h1] at h2
  exact Option.some.inj h2

/-- A coverage-relevant edge between blocks of different coverage nodes can
only leave from the last block of its chain. -/
theorem cross_edge_from_last (mb : MirBody) (hwf : MirWf mb) (c : Nat)
    (hc : c < (computeBcbs mb).1.length) (u w : Nat)
    (hu : u ∈ ((computeBcbs mb).1.getD c ⟨[], false⟩).basicBlocks)
    (hw : w ∈ (bcbFilteredSuccessors (bbTerm mb u)).targets)
    (hwnot : w ∉ ((computeBcbs mb).1.getD c ⟨[], false⟩).basicBlocks) :
    ((computeBcbs mb).1.getD c ⟨[], false⟩).basicBlocks.getLast? = some u := by
  have hne := bcb_blocks_ne_nil mb hwf c hc
  cases hq : ((computeBcbs mb).1.getD c ⟨[], false⟩).basicBlocks.getLast? with
  | none => exact absurd (List.getLast?_eq_none_iff.mp hq) hne
  | some q =>
    by_cases huq : u = q
    · rw [huq]
    · exfalso
      obtain ⟨l1, next, l2, hdec⟩ := mem_ne_last_decomp _ u hu
        (fun q' hq' => by rw [hq] at hq'; intro hc2; exact huq (by rw [hc2, Option.some.inj hq']))
      have hlink := chain'_mid (strongLink mb) _ l1 l2 u next (bcb_blocks_chain mb hwf c hc) hdec
      have hwn : w = next := by
        rw [hlink.1] at hw
        simpa using hw
      subst hwn
      exact hwnot (by rw [hdec]; simp)

theorem blocks0_head (mb : MirBody) (hwf : MirWf mb) (hn : 0 < (computeBcbs mb).1.length) :
    ∃ t, ((computeBcbs mb).1.getD 0 ⟨[], false⟩).basicBlocks = 0 :: t := by
  have hne := bcb_blocks_ne_nil mb hwf 0 hn
  have hstart : bbTerm mb 0 ≠ TermKind.unreachable := by
    intro hc
    have hord := mergeOrder_start_unreachable mb hc
    cases hb : ((computeBcbs mb).1.getD 0 ⟨[], false⟩).basicBlocks with
    | nil => exact hne hb
    | cons b bs =>
      have : b ∈ mergeOrder mb := bcb_blocks_sub_order mb hwf 0 hn b (by rw [hb]; simp)
      rw [hord] at this
      simp at this
  obtain ⟨rest, hrest⟩ := mergeOrder_head mb hstart
  have hdec := flat_decomp ((computeBcbs mb).1.map (fun d => d.basicBlocks)) 0
    (by simpa using hn)
  rw [getD_map_blocks _ 0 hn] at hdec
  simp only [List.take_zero, flat, List.nil_append] at hdec
  have heq : ((computeBcbs mb).1.getD 0 ⟨[], false⟩).basicBlocks ++
      flat (((computeBcbs mb).1.map (fun d => d.basicBlocks)).drop 1) = 0 :: rest := by
    rw [← hdec, flat_blocks_eq_order mb hwf, hrest]
  cases hb : ((computeBcbs mb).1.getD 0 ⟨[], false⟩).basicBlocks with
  | nil => exact absurd hb hne
  | cons b bs =>
    rw [hb, List.cons_append] at heq
    have hb0 : b = 0 := (List.cons.injEq _ _ _ _ ▸ heq).1
    exact ⟨bs, by rw [hb0]⟩

/-- C3: in every constructed coverage graph, the entry node has an empty
predecessor list, and every other node has at least one predecessor; the entry
node is thus the unique node with zero predecessors. -/
theorem c3_entry_unique_no_preds (mb : MirBody) (hwf : MirWf mb) :
    (fromMir mb).predecessors.getD 0 [] = [] ∧
    ∀ c, 0 < c → c < (fromMir mb).numNodes →
      (fromMir mb).predecessors.getD c [] ≠ [] := by
  constructor
  · by_cases hn : 0 < (computeBcbs mb).1.length
    · by_contra hnonempty
      obtain ⟨x, hx⟩ := List.exists_mem_of_ne_nil _ hnonempty
      have h0lt : (0 : Nat) < (fromMir mb).numNodes := by rwa [fromMir_numNodes]
      obtain ⟨hxlt, hsucc⟩ := (fromMir_pred_mem_iff mb x 0 h0lt).mp hx
      obtain ⟨t, htmem, htmap⟩ := (fromMir_succs_mem mb x (by exact hxlt) 0).mp hsucc
      have inv := computeBcbs_inv mb hwf
      obtain ⟨h0len, htblocks⟩ := (inv.mapiff t 0).mp htmap
      have hxlen : x < (computeBcbs mb).1.length := by rwa [fromMir_numNodes] at hxlt
      have hxne := bcb_blocks_ne_nil mb hwf x hxlen
      have humem : ((computeBcbs mb).1.getD x ⟨[], false⟩).lastBb ∈
          ((computeBcbs mb).1.getD x ⟨[], false⟩).basicBlocks := lastBb_mem _ hxne
      set u := ((computeBcbs mb).1.getD x ⟨[], false⟩).lastBb with hu
      have hulen : u < mb.length :=
        mergeOrder_lt mb hwf u (bcb_blocks_sub_order mb hwf x hxlen u humem)
      obtain ⟨t0, ht0⟩ := blocks0_head mb hwf hn
      by_cases htz : t = 0
      · subst htz
        have : u ∈ (mirPreds mb).getD 0 [] := by
          rw [mirPreds_mem mb 0 hwf.1 u]
          exact ⟨hulen, covSuccs_subset_allSuccs _ 0 htmem⟩
        rw [hwf.2.2] at this
        simp at this
      · have htin : t ∈ t0 := by
          rw [ht0] at htblocks
          rcases List.mem_cons.mp htblocks with h | h
          · exact absurd h htz
          · exact h
        obtain ⟨l1, p, l2, hdec⟩ := cons_mem_decomp 0 t t0 htin
        rw [← ht0] at hdec
        have hlink := chain'_mid (strongLink mb) _ l1 l2 p t
          (bcb_blocks_chain mb hwf 0 h0len) hdec
        have htlen : t < mb.length :=
          mergeOrder_lt mb hwf t (bcb_blocks_sub_order mb hwf 0 h0len t htblocks)
        have hup : u = p := by
          have : u ∈ (mirPreds mb).getD t [] := by
            rw [mirPreds_mem mb t htlen u]
            exact ⟨hulen, covSuccs_subset_allSuccs _ t htmem⟩
          rw [hlink.2.1] at this
          simpa using this
        have hpmem : p ∈ ((computeBcbs mb).1.getD 0 ⟨[], false⟩).basicBlocks := by
          rw [hdec]; simp
        have hx0 : x = 0 := bcb_owner_unique mb hwf u x 0 hxlen h0len humem (hup ▸ hpmem)
        have hlast0 : ((computeBcbs mb).1.getD 0 ⟨[], false⟩).basicBlocks.getLast? =
            some u := by
          have h2 := lastBb_getLast? ((computeBcbs mb).1.getD x ⟨[], false⟩) hxne
          rw [← hu] at h2
          rw [hx0] at h2
          exact h2
        have := getLast?_ne_mid _ l1 l2 p t (bcb_blocks_nodup mb hwf 0 h0len) hdec u hlast0
        exact this hup
    · have hzero : (computeBcbs mb).1.length = 0 := by omega
      rw [fromMir_predecessors, hzero]
      rfl
  · intro c hc0 hcn'
    have hcn : c < (computeBcbs mb).1.length := by rwa [fromMir_numNodes] at hcn'
    have hn : 0 < (computeBcbs mb).1.length := by omega
    have inv := computeBcbs_inv mb hwf
    have hcne := bcb_blocks_ne_nil mb hwf c hcn
    cases hbc : ((computeBcbs mb).1.getD c ⟨[], false⟩).basicBlocks with
    | nil => exact absurd hbc hcne
    | cons leader tc =>
      have hleadmem : leader ∈ ((computeBcbs mb).1.getD c ⟨[], false⟩).basicBlocks := by
        rw [hbc]; simp
      have hleadord : leader ∈ mergeOrder mb := bcb_blocks_sub_order mb hwf c hcn leader hleadmem
      obtain ⟨t0, ht0⟩ := blocks0_head mb hwf hn
      have hlead0 : leader ≠ 0 := by
        intro hcz
        have h0mem : (0 : Nat) ∈ ((computeBcbs mb).1.getD 0 ⟨[], false⟩).basicBlocks := by
          rw [ht0]; simp
        have := bcb_owner_unique mb hwf 0 c 0 hcn hn (hcz ▸ hleadmem) h0mem
        omega
      rcases mergeOrder_disc mb leader hleadord with h | ⟨u, hul, humem, hbefPre⟩
      · exact absurd h hlead0
      · have hterm_u : bbTerm mb u ≠ TermKind.unreachable := by
          intro hcu
          rw [hcu] at humem
          simp [bcbFilteredSuccessors] at humem
        have hu_ord : u ∈ mergeOrder mb := by
          rw [mergeOrder, List.mem_filter]
          exact ⟨listBefore_mem_left _ _ _ hbefPre, by simpa using hterm_u⟩
        have hbef : ListBefore u leader (mergeOrder mb) := by
          rw [mergeOrder]
          refine listBefore_filter u leader _ _ hbefPre (by simpa using hterm_u) ?_
          have h3 := hleadord
          rw [mergeOrder, List.mem_filter] at h3
          exact h3.2
        have hu_ne : u ≠ leader := by
          intro hc2
          exact listBefore_nodup_ne _ (mergeOrder_nodup mb) leader (hc2 ▸ hbef)
        have hu_flat : ∃ cu, cu < (computeBcbs mb).1.length ∧
            u ∈ ((computeBcbs mb).1.getD cu ⟨[], false⟩).basicBlocks := by
          rw [← flat_map_blocks_mem, flat_blocks_eq_order mb hwf]
          exact hu_ord
        obtain ⟨cu, hculen, hcumem⟩ := hu_flat
        have hcu_ne : cu ≠ c := by
          intro hc2
          subst hc2
          rw [hbc] at hcumem
          have hutc : u ∈ tc := by
            rcases List.mem_cons.mp hcumem with h | h
            · exact absurd h hu_ne
            · exact h
          obtain ⟨t1, t2, ht12⟩ := List.append_of_mem hutc
          have hdecomp := flat_decomp ((computeBcbs mb).1.map (fun d => d.basicBlocks)) cu
            (by simpa using hcn)
          rw [getD_map_blocks _ cu hcn, hbc, ht12] at hdecomp
          have hbefle : ListBefore leader u (mergeOrder mb) := by
            rw [← flat_blocks_eq_order mb hwf, hdecomp]
            refine ⟨flat (((computeBcbs mb).1.map (fun d => d.basicBlocks)).take cu),
              t1, t2 ++ flat (((computeBcbs mb).1.map (fun d => d.basicBlocks)).drop (cu + 1)),
              ?_⟩
            simp
          exact listBefore_nodup_asymm _ (mergeOrder_nodup mb) u leader hbef hbefle
        have hlead_not : leader ∉ ((computeBcbs mb).1.getD cu ⟨[], false⟩).basicBlocks := by
          intro hc2
          exact hcu_ne (bcb_owner_unique mb hwf leader cu c hculen hcn hc2 hleadmem)
        have hulast := cross_edge_from_last mb hwf cu hculen u leader hcumem humem hlead_not
        have hu_is_last : ((computeBcbs mb).1.getD cu ⟨[], false⟩).lastBb = u := by
          have h2 := lastBb_getLast? ((computeBcbs mb).1.getD cu ⟨[], false⟩)
            (bcb_blocks_ne_nil mb hwf cu hculen)
          rw [hulast] at h2
          exact (Option.some.inj h2).symm
        have hsuccmem : c ∈ (fromMir mb).successors.getD cu [] := by
          rw [fromMir_succs_mem mb cu (by rwa [fromMir_numNodes]) c]
          refine ⟨leader, ?_, ?_⟩
          · rw [hu_is_last]; exact humem
          · exact (inv.mapiff leader c).mpr ⟨hcn, hleadmem⟩
        have : cu ∈ (fromMir mb).predecessors.getD c [] := by
          rw [fromMir_pred_mem_iff mb cu c hcn']
          exact ⟨by rwa [fromMir_numNodes], hsuccmem⟩
        exact List.ne_nil_of_mem this

theorem c3_entry_unique_no_preds_witness :
    (fromMir [TermKind.switchInt [1, 2], TermKind.goto 3, TermKind.goto 3,
      TermKind.ret]).predecessors.getD 0 [] = [] ∧
    (fromMir [TermKind.switchInt [1, 2], TermKind.goto 3, TermKind.goto 3,
      TermKind.ret]).predecessors.getD 2 [] ≠ [] :=
  ⟨(c3_entry_unique_no_preds [TermKind.switchInt [1, 2], TermKind.goto 3, TermKind.goto 3,
      TermKind.ret] (by decide)).1,
   (c3_entry_unique_no_preds [TermKind.switchInt [1, 2], TermKind.goto 3, TermKind.goto 3,
      TermKind.ret] (by decide)).2 2 (by decide) (by decide)⟩

theorem pathFromTo_snoc (sf : Nat → List Nat) (x u b : Nat) (p : List Nat)
    (hp : PathFromTo sf x u p) (hedge : b ∈ sf u) : PathFromTo sf x b (p ++ [b]) := by
  obtain ⟨hc, hh, hl⟩ := hp
  refine ⟨?_, ?_, ?_⟩
  · rw [IsPath, List.chain'_append]
    refine ⟨hc, List.chain'_singleton b, ?_⟩
    intro y hy z hz
    have hyu : u = y := by rw [hl] at hy; simpa using hy
    have hzb : b = z := by simpa using hz
    rw [← hyu, ← hzb]
    exact hedge
  · cases p with
    | nil => simp at hh
    | cons q t => simpa using hh
  · simp

theorem mem_of_getElem?' {l : List Nat} {i a : Nat} (h : l[i]? = some a) : a ∈ l := by
  have hlt := getElem?_some_lt h
  rw [List.getElem?_eq_getElem hlt] at h
  have hm := List.getElem_mem hlt
  rwa [Option.some.inj h] at hm

theorem getElem_listBefore : ∀ (l : List Nat) (i j a b : Nat), i < j →
    l[i]? = some a → l[j]? = some b → ListBefore a b l := by
  intro l
  induction l with
  | nil => intro i j a b _ ha; simp at ha
  | cons x t ih =>
    intro i j a b hij ha hb
    cases i with
    | zero =>
      have hxa : x = a := by simpa using ha
      subst hxa
      cases j with
      | zero => omega
      | succ j' =>
        rw [List.getElem?_cons_succ] at hb
        exact listBefore_head x b t (mem_of_getElem?' hb)
    | succ i' =>
      cases j with
      | zero => omega
      | succ j' =>
        rw [List.getElem?_cons_succ] at ha hb
        exact listBefore_cons a b x t (ih i' j' a b (by omega) ha hb)

/-- The constructed coverage graph's successor lists only target coverage
nodes. -/
theorem bcbG_wf (mb : MirBody) (hwf : MirWf mb) : GWf (fromMir mb).successors := by
  intro l hl x hx
  rw [fromMir_successors] at hl
  rw [mkSuccessors] at hl
  rw [List.mem_map] at hl
  obtain ⟨d, -, rfl⟩ := hl
  rw [bcbSuccsOf] at hx
  have hx' := ((filterNew_spec _ _).2 x).mp hx
  rw [List.mem_filterMap] at hx'
  obtain ⟨t, -, ht⟩ := hx'.1
  have inv := computeBcbs_inv mb hwf
  have := (inv.mapiff t x).mp ht
  rw [fromMir_successors, mkSuccessors_length]
  exact this.1

/-- Every non-entry coverage node has a predecessor with a smaller index. -/
theorem bcb_pred_smaller (mb : MirBody) (hwf : MirWf mb) :
    ∀ c, 0 < c → c < (computeBcbs mb).1.length →
      ∃ cu, cu < c ∧ c ∈ (fromMir mb).successors.getD cu [] := by
  intro c hc0 hcn
  have hn : 0 < (computeBcbs mb).1.length := by omega
  have inv := computeBcbs_inv mb hwf
  have hcne := bcb_blocks_ne_nil mb hwf c hcn
  cases hbc : ((computeBcbs mb).1.getD c ⟨[], false⟩).basicBlocks with
  | nil => exact absurd hbc hcne
  | cons leader tc =>
    have hleadmem : leader ∈ ((computeBcbs mb).1.getD c ⟨[], false⟩).basicBlocks := by
      rw [hbc]; simp
    have hleadord : leader ∈ mergeOrder mb := bcb_blocks_sub_order mb hwf c hcn leader hleadmem
    obtain ⟨t0, ht0⟩ := blocks0_head mb hwf hn
    have hlead0 : leader ≠ 0 := by
      intro hcz
      have h0mem : (0 : Nat) ∈ ((computeBcbs mb).1.getD 0 ⟨[], false⟩).basicBlocks := by
        rw [ht0]; simp
      have := bcb_owner_unique mb hwf 0 c 0 hcn hn (hcz ▸ hleadmem) h0mem
      omega
    rcases mergeOrder_disc mb leader hleadord with h | ⟨u, hul, humem, hbefPre⟩
    · exact absurd h hlead0
    · have hterm_u : bbTerm mb u ≠ TermKind.unreachable := by
        intro hcu
        rw [hcu] at humem
        simp [bcbFilteredSuccessors] at humem
      have hu_ord : u ∈ mergeOrder mb := by
        rw [mergeOrder, List.mem_filter]
        exact ⟨listBefore_mem_left _ _ _ hbefPre, by simpa using hterm_u⟩
      have hbef : ListBefore u leader (mergeOrder mb) := by
        rw [mergeOrder]
        refine listBefore_filter u leader _ _ hbefPre (by simpa using hterm_u) ?_
        have h3 := hleadord
        rw [mergeOrder, List.mem_filter] at h3
        exact h3.2
      have hu_ne : u ≠ leader := by
        intro hc2
        exact listBefore_nodup_ne _ (mergeOrder_nodup mb) leader (hc2 ▸ hbef)
      have hu_flat : ∃ cu, cu < (computeBcbs mb).1.length ∧
          u ∈ ((computeBcbs mb).1.getD cu ⟨[], false⟩).basicBlocks := by
        rw [← flat_map_blocks_mem, flat_blocks_eq_order mb hwf]
        exact hu_ord
      obtain ⟨cu, hculen, hcumem⟩ := hu_flat
      -- `u` lies strictly before `leader` in the merge order, so its owning
      -- node cannot be `c` (whose blocks start at `leader`) nor any later node
      have hcu_lt : cu < c := by
        by_contra hge
        have hdecomp := flat_decomp ((computeBcbs mb).1.map (fun d => d.basicBlocks)) c
          (by simpa using hcn)
        rw [getD_map_blocks _ c hcn, hbc] at hdecomp
        have hbefle : ListBefore leader u (mergeOrder mb) := by
          by_cases hceq : cu = c
          · subst hceq
            rw [hbc] at hcumem
            have hutc : u ∈ tc := by
              rcases List.mem_cons.mp hcumem with h | h
              · exact absurd h hu_ne
              · exact h
            obtain ⟨t1, t2, ht12⟩ := List.append_of_mem hutc
            rw [ht12] at hdecomp
            rw [← flat_blocks_eq_order mb hwf, hdecomp]
            exact ⟨flat (((computeBcbs mb).1.map (fun d => d.basicBlocks)).take cu),
              t1, t2 ++ flat (((computeBcbs mb).1.map (fun d => d.basicBlocks)).drop (cu + 1)),
              by simp⟩
          · have hgt : c + 1 ≤ cu := by omega
            have hudrop : u ∈
                flat (((computeBcbs mb).1.map (fun d => d.basicBlocks)).drop (c + 1)) := by
              rw [mem_flat]
              refine ⟨((computeBcbs mb).1.getD cu ⟨[], false⟩).basicBlocks, ?_, hcumem⟩
              have hculen' : cu < ((computeBcbs mb).1.map (fun d => d.basicBlocks)).length := by
                simpa using hculen
              have hidx : cu - (c + 1) <
                  (((computeBcbs mb).1.map (fun d => d.basicBlocks)).drop (c + 1)).length := by
                rw [List.length_drop]
                omega
              rw [← getD_map_blocks _ cu hculen]
              refine List.mem_iff_getElem.mpr ⟨cu - (c + 1), hidx, ?_⟩
              rw [List.getElem_drop]
              rw [List.getD_eq_getElem?_getD,
                List.getElem?_eq_getElem (by simpa using hculen)]
              have harith : c + 1 + (cu - (c + 1)) = cu := by omega
              simp [harith]
            obtain ⟨d1, d2, hd12⟩ := List.append_of_mem hudrop
            rw [hd12] at hdecomp
            rw [← flat_blocks_eq_order mb hwf, hdecomp]
            exact ⟨flat (((computeBcbs mb).1.map (fun d => d.basicBlocks)).take c),
              tc ++ d1, d2, by simp⟩
        exact listBefore_nodup_asymm _ (mergeOrder_nodup mb) u leader hbef hbefle
      have hlead_not : leader ∉ ((computeBcbs mb).1.getD cu ⟨[], false⟩).basicBlocks := by
        intro hc2
        have := bcb_owner_unique mb hwf leader cu c hculen hcn hc2 hleadmem
        omega
      have hulast := cross_edge_from_last mb hwf cu hculen u leader hcumem humem hlead_not
      have hu_is_last : ((computeBcbs mb).1.getD cu ⟨[], false⟩).lastBb = u := by
        have h2 := lastBb_getLast? ((computeBcbs mb).1.getD cu ⟨[], false⟩)
          (bcb_blocks_ne_nil mb hwf cu hculen)
        rw [hulast] at h2
        exact (Option.some.inj h2).symm
      refine ⟨cu, hcu_lt, ?_⟩
      rw [fromMir_succs_mem mb cu (by rw [fromMir_numNodes]; omega) c]
      refine ⟨leader, ?_, ?_⟩
      · rw [hu_is_last]; exact humem
      · exact (inv.mapiff leader c).mpr ⟨hcn, hleadmem⟩

theorem rpo_mem_iff (g : List (List Nat)) (hwf : GWf g) (h0 : 0 < g.length)
    (hstep : ∀ c, 0 < c → c < g.length → ∃ cu, cu < c ∧ c ∈ g.getD cu []) :
    ∀ c, c ∈ rpoOrder g ↔ c < g.length := by
  have hall : ∀ c, c < g.length → c ∈ (dfsRun g 0).visited := by
    intro c
    induction c using Nat.strong_induction_on with
    | _ c ih =>
      intro hc
      by_cases hc0 : c = 0
      · subst hc0
        exact (dfsRun_complete g 0 hwf h0).1
      · obtain ⟨cu, hlt, hmem⟩ := hstep c (by omega) hc
        have hcu : cu ∈ (dfsRun g 0).visited := ih cu hlt (by omega)
        exact (dfsRun_complete g 0 hwf h0).2 cu hcu c hmem
  intro c
  rw [rpoOrder, List.mem_reverse]
  rw [show (dfsRun g 0).post = (dfsA (graphSf g) (dfsFuel g) [0] []).post from rfl]
  rw [← dfsA_pre_iff_post]
  rw [show (dfsA (graphSf g) (dfsFuel g) [0] []).pre = (dfsRun g 0).pre from rfl]
  rw [← dfsRun_visited_iff_pre]
  constructor
  · intro hc
    have hpre := (dfsRun_visited_iff_pre g 0 c).mp hc
    rcases dfsA_pre_discoverer (graphSf g) (dfsFuel g) [0] [] c hpre with h | ⟨u, hu, -⟩
    · have : c = 0 := by simpa using h
      omega
    · exact graphSf_targets_lt g hwf u c hu
  · exact hall c

theorem rpo_nodup (g : List (List Nat)) : (rpoOrder g).Nodup := by
  rw [rpoOrder, List.nodup_reverse]
  exact dfsA_post_nodup _ _ _ _

theorem rpo_pred_earlier (g : List (List Nat)) :
    ∀ b ∈ rpoOrder g, b ≠ 0 → ∃ u, b ∈ graphSf g u ∧ ListBefore u b (rpoOrder g) := by
  intro b hb hb0
  rw [rpoOrder, List.mem_reverse] at hb
  rcases dfsA_post_parent_later (graphSf g) (dfsFuel g) [0] [] b hb with h | ⟨u, hu, hbef⟩
  · exact absurd (by simpa using h) hb0
  · exact ⟨u, hu, listBefore_reverse b u _ hbef⟩

theorem rpo_avoid_path (g : List (List Nat)) (a : Nat) :
    ∀ j b : Nat, (rpoOrder g)[j]? = some b →
      (∀ i : Nat, (rpoOrder g)[i]? = some a → j < i) →
      ∃ p, PathFromTo (graphSf g) 0 b p ∧ a ∉ p ∧
        ∀ z ∈ p, ∃ i : Nat, i ≤ j ∧ (rpoOrder g)[i]? = some z := by
  intro j
  induction j using Nat.strong_induction_on with
  | _ j ih =>
    intro b hb hapos
    have hab : a ≠ b := by
      intro hc
      subst hc
      exact absurd (hapos j hb) (by omega)
    by_cases hb0 : b = 0
    · subst hb0
      refine ⟨[0], pathFromTo_single _ 0, by simpa using hab, ?_⟩
      intro z hz
      have hz0 : z = 0 := by simpa using hz
      exact ⟨j, le_refl j, by rw [hz0]; exact hb⟩
    · obtain ⟨u, hedge, hbef⟩ := rpo_pred_earlier g b (mem_of_getElem?' hb) hb0
      obtain ⟨i2, j2, hij2, hui, hbj⟩ := listBefore_getElem u b _ hbef
      have hj2 : j2 = j := List.getElem?_inj (getElem?_some_lt hbj) (rpo_nodup g)
        (by rw [hbj, hb])
      have hij : i2 < j := hj2 ▸ hij2
      obtain ⟨p, hp, hap, hzb⟩ := ih i2 hij u hui
        (fun i hi => lt_trans hij (hapos i hi))
      refine ⟨p ++ [b], pathFromTo_snoc _ 0 u b p hp hedge, ?_, ?_⟩
      · intro hc
        rcases List.mem_append.mp hc with h | h
        · exact hap h
        · exact hab (by simpa using h)
      · intro z hz
        rcases List.mem_append.mp hz with h | h
        · obtain ⟨i, hle, hzi⟩ := hzb z h
          exact ⟨i, by omega, hzi⟩
        · have hz3 : z = b := by simpa using h
          exact ⟨j, le_refl j, by rw [hz3]; exact hb⟩

theorem rpo_dom_before (g : List (List Nat))
    (a b : Nat) (hb : b ∈ rpoOrder g) (hab : a ≠ b) (hdom : DominatesP g 0 a b) :
    ListBefore a b (rpoOrder g) := by
  by_contra hnb
  obtain ⟨j, hjlt, hbj⟩ := List.mem_iff_getElem.mp hb
  have hbj' : (rpoOrder g)[j]? = some b := by
    rw [List.getElem?_eq_getElem hjlt, hbj]
  have hapos : ∀ i : Nat, (rpoOrder g)[i]? = some a → j < i := by
    intro i hi
    by_contra hle
    have hij : i < j ∨ i = j := by omega
    rcases hij with h | h
    · exact hnb (getElem_listBefore _ i j a b h hi hbj')
    · subst h
      rw [hi] at hbj'
      exact hab (Option.some.inj hbj')
  obtain ⟨p, hp, hap, -⟩ := rpo_avoid_path g a j b hbj' hapos
  exact hap (hdom p hp)

theorem getD_set_self_nat (m : List Nat) (k v : Nat) (hk : k < m.length) :
    (m.set k v).getD k 0 = v := by
  rw [List.getD_eq_getElem?_getD, List.getElem?_set_self (by simpa using hk)]
  simp

theorem getD_set_ne_nat (m : List Nat) (k v bb : Nat) (h : k ≠ bb) :
    (m.set k v).getD bb 0 = m.getD bb 0 := by
  rw [List.getD_eq_getElem?_getD, List.getElem?_set_ne h, List.getD_eq_getElem?_getD]

theorem mem_of_getElem?Pair {α : Type} {l : List α} {i : Nat} {a : α}
    (h : l[i]? = some a) : a ∈ l := by
  have hlt : i < l.length := by
    by_contra hc
    rw [List.getElem?_eq_none (by omega)] at h
    simp at h
  rw [List.getElem?_eq_getElem hlt] at h
  have hm := List.getElem_mem hlt
  rwa [Option.some.inj h] at hm

theorem initStep_rank (g preds : List (List Nat)) (order : List Nat) (acc : InitAcc)
    (rb : Nat × Nat) :
    (initStep g preds order acc rb).rank = acc.rank.set rb.2 rb.1 := rfl

theorem foldInit_rank_len (g preds : List (List Nat)) (order : List Nat) :
    ∀ (ps : List (Nat × Nat)) (acc : InitAcc),
      (ps.foldl (initStep g preds order) acc).rank.length = acc.rank.length := by
  intro ps
  induction ps with
  | nil => intro acc; rfl
  | cons rb rest ih =>
    intro acc
    rw [List.foldl_cons, ih, initStep_rank, List.length_set]

theorem foldInit_rank_untouched (g preds : List (List Nat)) (order : List Nat) :
    ∀ (ps : List (Nat × Nat)) (acc : InitAcc) (b : Nat),
      (∀ kb ∈ ps, kb.2 ≠ b) →
      (ps.foldl (initStep g preds order) acc).rank.getD b 0 = acc.rank.getD b 0 := by
  intro ps
  induction ps with
  | nil => intro acc b _; rfl
  | cons rb rest ih =>
    intro acc b hb
    rw [List.foldl_cons, ih _ b (fun kb hkb => hb kb (by simp [hkb])), initStep_rank]
    exact getD_set_ne_nat _ _ _ _ (hb rb (by simp))

theorem foldInit_rank_write (g preds : List (List Nat)) (order : List Nat) :
    ∀ (ps : List (Nat × Nat)) (acc : InitAcc) (k b : Nat),
      (k, b) ∈ ps → (ps.map Prod.snd).Nodup → b < acc.rank.length →
      (ps.foldl (initStep g preds order) acc).rank.getD b 0 = k := by
  intro ps
  induction ps with
  | nil => intro acc k b h; simp at h
  | cons rb rest ih =>
    intro acc k b hmem hnd hblen
    rw [List.foldl_cons]
    have hnd' : rb.2 ∉ rest.map Prod.snd ∧ (rest.map Prod.snd).Nodup := by
      rw [List.map_cons] at hnd
      exact List.nodup_cons.mp hnd
    rcases List.mem_cons.mp hmem with heq | hmem'
    · have hb2 : rb.2 = b := by rw [← heq]
      have hnotin : ∀ kb ∈ rest, kb.2 ≠ b := by
        intro kb hkb hc
        have h1 : b ∈ rest.map Prod.snd := by
          rw [List.mem_map]; exact ⟨kb, hkb, hc⟩
        have h2 := hnd'.1
        rw [hb2] at h2
        exact h2 h1
      rw [foldInit_rank_untouched g preds order rest _ b hnotin, initStep_rank, hb2]
      have hk1 : rb.1 = k := by rw [← heq]
      rw [hk1]
      exact getD_set_self_nat _ _ _ hblen
    · refine ih _ k b hmem' hnd'.2 ?_
      rw [initStep_rank, List.length_set]
      exact hblen

theorem zip_range_getElem (order : List Nat) (k : Nat) (hk : k < order.length) :
    ((List.range order.length).zip order)[k]? = some (k, order.get ⟨k, hk⟩) := by
  rw [List.getElem?_zip_eq_some]
  constructor
  · rw [List.getElem?_range hk]
  · rw [List.getElem?_eq_getElem hk]
    rfl

theorem zip_range_snd (order : List Nat) :
    ((List.range order.length).zip order).map Prod.snd = order :=
  List.map_snd_zip _ _ (by simp)

theorem initAll_rank_getD (g preds : List (List Nat)) (order : List Nat) (n : Nat)
    (hnd : order.Nodup) (k b : Nat) (hk : order[k]? = some b) (hb : b < n) :
    (initAll g preds order n).rank.getD b 0 = k := by
  have hklt : k < order.length := getElem?_some_lt hk
  have hget : order.get ⟨k, hklt⟩ = b := by
    rw [List.getElem?_eq_getElem hklt] at hk
    exact Option.some.inj hk
  have hmem : (k, b) ∈ (List.range order.length).zip order := by
    refine mem_of_getElem?Pair (i := k) ?_
    rw [zip_range_getElem order k hklt, hget]
  rw [initAll]
  refine foldInit_rank_write g preds order _ _ k b hmem ?_ (by simpa using hb)
  rw [zip_range_snd]
  exact hnd

set_option maxHeartbeats 4000000 in
theorem fromMir_rank_eq (mb : MirBody) :
    (fromMir mb).dominatorOrderRank = (bcbInit mb).rank := by
  unfold fromMir
  exact rfl

set_option maxHeartbeats 4000000 in
theorem fromMir_isLoopHeader_eq (mb : MirBody) :
    (fromMir mb).isLoopHeader = (bcbInit mb).isLoopHeader := by
  unfold fromMir
  exact rfl

set_option maxHeartbeats 4000000 in
theorem fromMir_encl_eq (mb : MirBody) :
    (fromMir mb).enclosingLoopHeader = (bcbInit mb).encl := by
  unfold fromMir
  exact rfl

/-- A duplicate-free list whose members are exactly the naturals below `n` has
length `n`. -/
theorem nodup_subset_length_eq (l : List Nat) (n : Nat) (hnd : l.Nodup)
    (hmem : ∀ c, c ∈ l ↔ c < n) : l.length = n := by
  have h1 : l.length ≤ n := by
    have hsp : l.Subperm (List.range n) :=
      List.subperm_of_subset hnd (fun c hc => List.mem_range.mpr ((hmem c).mp hc))
    simpa using hsp.length_le
  have h2 : n ≤ l.length := by
    have hsp : (List.range n).Subperm l :=
      List.subperm_of_subset (List.nodup_range n)
        (fun c hc => (hmem c).mpr (List.mem_range.mp hc))
    simpa using hsp.length_le
  omega

theorem bcbSuccsG_length (mb : MirBody) :
    (bcbSuccsG mb).length = (computeBcbs mb).1.length :=
  mkSuccessors_length mb _ _

theorem bcbSuccsG_wf (mb : MirBody) (hwf : MirWf mb) : GWf (bcbSuccsG mb) := by
  have h := bcbG_wf mb hwf
  rwa [fromMir_successors] at h

/-- The dominator order of the constructed coverage graph contains exactly the
coverage nodes. -/
theorem bcbOrder_mem_iff (mb : MirBody) (hwf : MirWf mb)
    (h0 : 0 < (computeBcbs mb).1.length) :
    ∀ c, c ∈ bcbOrder mb ↔ c < (computeBcbs mb).1.length := by
  have hg := bcbSuccsG_wf mb hwf
  have hlen := bcbSuccsG_length mb
  have h0' : 0 < (bcbSuccsG mb).length := by omega
  have hsucc : (fromMir mb).successors = bcbSuccsG mb := fromMir_successors mb
  have hstep : ∀ c, 0 < c → c < (bcbSuccsG mb).length →
      ∃ cu, cu < c ∧ c ∈ (bcbSuccsG mb).getD cu [] := by
    intro c hc0 hc
    obtain ⟨cu, h1, h2⟩ := bcb_pred_smaller mb hwf c hc0 (by omega)
    rw [hsucc] at h2
    exact ⟨cu, h1, h2⟩
  intro c
  have h := rpo_mem_iff (bcbSuccsG mb) hg h0' hstep c
  rw [hlen] at h
  exact h

theorem bcbOrder_nodup (mb : MirBody) : (bcbOrder mb).Nodup :=
  rpo_nodup (bcbSuccsG mb)

theorem bcbOrder_length (mb : MirBody) (hwf : MirWf mb)
    (h0 : 0 < (computeBcbs mb).1.length) :
    (bcbOrder mb).length = (computeBcbs mb).1.length :=
  nodup_subset_length_eq _ _ (bcbOrder_nodup mb) (bcbOrder_mem_iff mb hwf h0)

/-- The stored dominator-order rank of a coverage node is its position in the
dominator order. -/
theorem bcbRank_getD (mb : MirBody) (k b : Nat) (hk : (bcbOrder mb)[k]? = some b)
    (hb : b < (computeBcbs mb).1.length) :
    (fromMir mb).dominatorOrderRank.getD b 0 = k := by
  rw [fromMir_rank_eq]
  exact initAll_rank_getD (bcbSuccsG mb) (bcbPredsG mb) (bcbOrder mb) _
    (bcbOrder_nodup mb) k b hk hb

/-- Dominators come earlier in the dominator order of the constructed
coverage graph. -/
theorem bcb_dom_before (mb : MirBody) (hwf : MirWf mb)
    (h0 : 0 < (computeBcbs mb).1.length) (a b : Nat)
    (hb : b < (computeBcbs mb).1.length) (hab : a ≠ b)
    (hdom : DominatesQ (fromMir mb) a b) :
    ListBefore a b (bcbOrder mb) := by
  have hbmem : b ∈ bcbOrder mb := (bcbOrder_mem_iff mb hwf h0 b).mpr hb
  have h : DominatesP (fromMir mb).successors 0 a b := hdom
  have hsucc : (fromMir mb).successors = bcbSuccsG mb := fromMir_successors mb
  rw [hsucc] at h
  exact rpo_dom_before (bcbSuccsG mb) a b hbmem hab h

/-- C4: in a constructed coverage graph with at least one node, dominance is
consistent with the dominator order: if `a` dominates `b` then
`cmp_in_dominator_order a b` is not `Greater` (`a`'s rank is at most `b`'s);
moreover the stored rank is a bijection from the nodes onto `0..num_nodes`
(injective on nodes, every rank below `num_nodes` attained, and every node's
rank below `num_nodes`), hence a total order on the nodes. -/
theorem c4_dominator_order (mb : MirBody) (hwf : MirWf mb)
    (h0 : 0 < (fromMir mb).numNodes) :
    (∀ a b, a < (fromMir mb).numNodes → b < (fromMir mb).numNodes →
        DominatesQ (fromMir mb) a b →
        cmpInDominatorOrder (fromMir mb) a b ≠ Ordering.gt) ∧
    (∀ a b, a < (fromMir mb).numNodes → b < (fromMir mb).numNodes →
        (fromMir mb).dominatorOrderRank.getD a 0 =
          (fromMir mb).dominatorOrderRank.getD b 0 →
        a = b) ∧
    (∀ k, k < (fromMir mb).numNodes →
        ∃ b, b < (fromMir mb).numNodes ∧
          (fromMir mb).dominatorOrderRank.getD b 0 = k) ∧
    (∀ b, b < (fromMir mb).numNodes →
        (fromMir mb).dominatorOrderRank.getD b 0 < (fromMir mb).numNodes) := by
  rw [fromMir_numNodes] at h0
  rw [fromMir_numNodes]
  refine ⟨?_, ?_, ?_, ?_⟩
  · intro a b ha hb hdom
    by_cases hab : a = b
    · subst hab
      intro hc
      have heq : cmpInDominatorOrder (fromMir mb) a a =
          compare ((fromMir mb).dominatorOrderRank.getD a 0)
            ((fromMir mb).dominatorOrderRank.getD a 0) := rfl
      rw [heq, Nat.compare_eq_gt] at hc
      omega
    · have hbef := bcb_dom_before mb hwf h0 a b hb hab hdom
      obtain ⟨i, j, hij, hia, hjb⟩ := listBefore_getElem a b _ hbef
      have hra := bcbRank_getD mb i a hia ha
      have hrb := bcbRank_getD mb j b hjb hb
      intro hc
      have heq : cmpInDominatorOrder (fromMir mb) a b =
          compare ((fromMir mb).dominatorOrderRank.getD a 0)
            ((fromMir mb).dominatorOrderRank.getD b 0) := rfl
      rw [heq, hra, hrb, Nat.compare_eq_gt] at hc
      omega
  · intro a b ha hb heq
    obtain ⟨ka, hka, hkaa⟩ :=
      List.mem_iff_getElem.mp ((bcbOrder_mem_iff mb hwf h0 a).mpr ha)
    obtain ⟨kb, hkb, hkbb⟩ :=
      List.mem_iff_getElem.mp ((bcbOrder_mem_iff mb hwf h0 b).mpr hb)
    have hka' : (bcbOrder mb)[ka]? = some a := by
      rw [List.getElem?_eq_getElem hka, hkaa]
    have hkb' : (bcbOrder mb)[kb]? = some b := by
      rw [List.getElem?_eq_getElem hkb, hkbb]
    have hra := bcbRank_getD mb ka a hka' ha
    have hrb := bcbRank_getD mb kb b hkb' hb
    have hkk : ka = kb := by omega
    rw [hkk, hkb'] at hka'
    exact (Option.some.inj hka').symm
  · intro k hk
    have hk' : k < (bcbOrder mb).length := by
      rw [bcbOrder_length mb hwf h0]
      omega
    have hkb : (bcbOrder mb)[k]? = some ((bcbOrder mb).get ⟨k, hk'⟩) := by
      rw [List.getElem?_eq_getElem hk']
      rfl
    have hblt : (bcbOrder mb).get ⟨k, hk'⟩ < (computeBcbs mb).1.length := by
      rw [← bcbOrder_mem_iff mb hwf h0]
      exact List.get_mem _ _ hk'
    exact ⟨(bcbOrder mb).get ⟨k, hk'⟩, hblt, bcbRank_getD mb k _ hkb hblt⟩
  · intro b hb
    obtain ⟨k, hklt, hkb⟩ :=
      List.mem_iff_getElem.mp ((bcbOrder_mem_iff mb hwf h0 b).mpr hb)
    have hkb' : (bcbOrder mb)[k]? = some b := by
      rw [List.getElem?_eq_getElem hklt, hkb]
    rw [bcbRank_getD mb k b hkb' hb]
    rw [bcbOrder_length mb hwf h0] at hklt
    exact hklt

theorem c4_dominator_order_witness :
    cmpInDominatorOrder
        (fromMir [TermKind.switchInt [1, 2], TermKind.goto 3, TermKind.goto 3,
          TermKind.ret]) 0 1 ≠ Ordering.gt ∧
    (∃ b, b < (fromMir [TermKind.switchInt [1, 2], TermKind.goto 3, TermKind.goto 3,
          TermKind.ret]).numNodes ∧
      (fromMir [TermKind.switchInt [1, 2], TermKind.goto 3, TermKind.goto 3,
          TermKind.ret]).dominatorOrderRank.getD b 0 = 1) :=
  ⟨(c4_dominator_order [TermKind.switchInt [1, 2], TermKind.goto 3, TermKind.goto 3,
      TermKind.ret] (by decide) (by decide)).1 0 1 (by decide) (by decide)
      (dominatesP_root _ 0 1),
   (c4_dominator_order [TermKind.switchInt [1, 2], TermKind.goto 3, TermKind.goto 3,
      TermKind.ret] (by decide) (by decide)).2.2.1 1 (by decide)⟩

theorem getD_set_self_bool (m : List Bool) (k : Nat) (v : Bool) (hk : k < m.length) :
    (m.set k v).getD k false = v := by
  rw [List.getD_eq_getElem?_getD, List.getElem?_set_self (by simpa using hk)]
  simp

theorem getD_set_ne_bool (m : List Bool) (k : Nat) (v : Bool) (b : Nat) (h : k ≠ b) :
    (m.set k v).getD b false = m.getD b false := by
  rw [List.getD_eq_getElem?_getD, List.getElem?_set_ne h, List.getD_eq_getElem?_getD]

theorem getD_set_true_bool (m : List Bool) (k b : Nat) (h : m.getD b false = true) :
    (m.set k true).getD b false = true := by
  by_cases hkb : k = b
  · subst hkb
    by_cases hk : k < m.length
    · exact getD_set_self_bool m k true hk
    · rw [List.set_eq_of_length_le (by omega)]
      exact h
  · rw [getD_set_ne_bool m k true b hkb]
    exact h

/-- The loop-header flags right after an initialization step on pair `rb`. -/
def headersAfter (g preds : List (List Nat)) (acc : InitAcc) (rb : Nat × Nat) : List Bool :=
  if !(reloopB g preds rb.2).isEmpty then acc.isLoopHeader.set rb.2 true
  else acc.isLoopHeader

theorem initStep_header (g preds : List (List Nat)) (order : List Nat) (acc : InitAcc)
    (rb : Nat × Nat) :
    (initStep g preds order acc rb).isLoopHeader = headersAfter g preds acc rb := rfl

theorem initStep_encl (g preds : List (List Nat)) (order : List Nat) (acc : InitAcc)
    (rb : Nat × Nat) :
    (initStep g preds order acc rb).encl =
      match idomOf g order rb.2 with
      | some d =>
          acc.encl.set rb.2
            (if (headersAfter g preds acc rb).getD d false then some d
             else acc.encl.getD d none)
      | none => acc.encl := rfl

theorem headersAfter_mono (g preds : List (List Nat)) (acc : InitAcc) (rb : Nat × Nat)
    (b : Nat) (h : acc.isLoopHeader.getD b false = true) :
    (headersAfter g preds acc rb).getD b false = true := by
  unfold headersAfter
  by_cases hc : !(reloopB g preds rb.2).isEmpty
  · rw [if_pos hc]
    exact getD_set_true_bool _ _ _ h
  · rw [if_neg hc]
    exact h

theorem headersAfter_getD_ne (g preds : List (List Nat)) (acc : InitAcc) (rb : Nat × Nat)
    (b : Nat) (h : rb.2 ≠ b) :
    (headersAfter g preds acc rb).getD b false = acc.isLoopHeader.getD b false := by
  unfold headersAfter
  by_cases hc : !(reloopB g preds rb.2).isEmpty
  · rw [if_pos hc]
    exact getD_set_ne_bool _ _ _ _ h
  · rw [if_neg hc]

theorem headersAfter_length (g preds : List (List Nat)) (acc : InitAcc) (rb : Nat × Nat) :
    (headersAfter g preds acc rb).length = acc.isLoopHeader.length := by
  unfold headersAfter
  by_cases hc : !(reloopB g preds rb.2).isEmpty
  · rw [if_pos hc, List.length_set]
  · rw [if_neg hc]

theorem headersAfter_getD_self (g preds : List (List Nat)) (acc : InitAcc) (rb : Nat × Nat)
    (hlen : rb.2 < acc.isLoopHeader.length)
    (hold : acc.isLoopHeader.getD rb.2 false = false) :
    (headersAfter g preds acc rb).getD rb.2 false = !(reloopB g preds rb.2).isEmpty := by
  unfold headersAfter
  by_cases hc : !(reloopB g preds rb.2).isEmpty
  · rw [if_pos hc, getD_set_self_bool _ _ _ hlen, hc]
  · rw [if_neg hc, hold]
    simp only [Bool.not_eq_true] at hc
    rw [hc]

theorem initStep_header_getD_ne (g preds : List (List Nat)) (order : List Nat)
    (acc : InitAcc) (rb : Nat × Nat) (b : Nat) (h : rb.2 ≠ b) :
    (initStep g preds order acc rb).isLoopHeader.getD b false =
      acc.isLoopHeader.getD b false := by
  rw [initStep_header]
  exact headersAfter_getD_ne g preds acc rb b h

theorem foldInit_header_len (g preds : List (List Nat)) (order : List Nat) :
    ∀ (ps : List (Nat × Nat)) (acc : InitAcc),
      (ps.foldl (initStep g preds order) acc).isLoopHeader.length =
        acc.isLoopHeader.length := by
  intro ps
  induction ps with
  | nil => intro acc; rfl
  | cons rb rest ih =>
    intro acc
    rw [List.foldl_cons, ih, initStep_header, headersAfter_length]

theorem foldInit_header_untouched (g preds : List (List Nat)) (order : List Nat) :
    ∀ (ps : List (Nat × Nat)) (acc : InitAcc) (b : Nat),
      (∀ kb ∈ ps, kb.2 ≠ b) →
      (ps.foldl (initStep g preds order) acc).isLoopHeader.getD b false =
        acc.isLoopHeader.getD b false := by
  intro ps
  induction ps with
  | nil => intro acc b _; rfl
  | cons rb rest ih =>
    intro acc b hb
    rw [List.foldl_cons, ih _ b (fun kb hkb => hb kb (by simp [hkb]))]
    exact initStep_header_getD_ne g preds order acc rb b (hb rb (by simp))

theorem foldInit_header_write (g preds : List (List Nat)) (order : List Nat) :
    ∀ (ps : List (Nat × Nat)) (acc : InitAcc) (k b : Nat),
      (k, b) ∈ ps → (ps.map Prod.snd).Nodup → b < acc.isLoopHeader.length →
      acc.isLoopHeader.getD b false = false →
      (ps.foldl (initStep g preds order) acc).isLoopHeader.getD b false =
        !(reloopB g preds b).isEmpty := by
  intro ps
  induction ps with
  | nil => intro acc k b h; simp at h
  | cons rb rest ih =>
    intro acc k b hmem hnd hblen hbfalse
    rw [List.foldl_cons]
    have hnd' : rb.2 ∉ rest.map Prod.snd ∧ (rest.map Prod.snd).Nodup := by
      rw [List.map_cons] at hnd
      exact List.nodup_cons.mp hnd
    rcases List.mem_cons.mp hmem with heq | hmem'
    · have hb2 : rb.2 = b := by rw [← heq]
      have hnotin : ∀ kb ∈ rest, kb.2 ≠ b := by
        intro kb hkb hc
        have h1 : b ∈ rest.map Prod.snd := by
          rw [List.mem_map]; exact ⟨kb, hkb, hc⟩
        have h2 := hnd'.1
        rw [hb2] at h2
        exact h2 h1
      rw [foldInit_header_untouched g preds order rest _ b hnotin, initStep_header]
      rw [← hb2]
      exact headersAfter_getD_self g preds acc rb (by rw [hb2]; exact hblen)
        (by rw [hb2]; exact hbfalse)
    · have hne : rb.2 ≠ b := by
        intro hc
        refine hnd'.1 ?_
        rw [hc]
        exact List.mem_map.mpr ⟨(k, b), hmem', rfl⟩
      refine ih _ k b hmem' hnd'.2 ?_ ?_
      · rw [initStep_header, headersAfter_length]
        exact hblen
      · rw [initStep_header_getD_ne g preds order acc rb b hne]
        exact hbfalse

theorem initAll_header_getD (g preds : List (List Nat)) (order : List Nat) (n : Nat)
    (hnd : order.Nodup) (k b : Nat) (hk : order[k]? = some b) (hb : b < n) :
    (initAll g preds order n).isLoopHeader.getD b false =
      !(reloopB g preds b).isEmpty := by
  have hklt : k < order.length := getElem?_some_lt hk
  have hget : order.get ⟨k, hklt⟩ = b := by
    rw [List.getElem?_eq_getElem hklt] at hk
    exact Option.some.inj hk
  have hmem : (k, b) ∈ (List.range order.length).zip order := by
    refine mem_of_getElem?Pair (i := k) ?_
    rw [zip_range_getElem order k hklt, hget]
  rw [initAll]
  refine foldInit_header_write g preds order _ _ k b hmem ?_ (by simpa using hb) ?_
  · rw [zip_range_snd]
    exact hnd
  · rw [List.getD_eq_getElem?_getD, List.getElem?_replicate]
    by_cases h : b < n <;> simp [h]

/-- Invariant of the initialization loop: every stored enclosing-loop-header
entry points at a node whose loop-header flag is already set and that
dominates the entry's owner. -/
def EncInvP (g : List (List Nat)) (acc : InitAcc) : Prop :=
  ∀ b h, acc.encl.getD b none = some h →
    acc.isLoopHeader.getD h false = true ∧ DominatesP g 0 h b

/-- An immediate dominator produced by `idomOf` is a distinct dominator drawn
from the dominator order. -/
theorem idomOf_spec (g : List (List Nat)) (order : List Nat) (b d : Nat)
    (hwf : GWf g) (h0 : 0 < g.length) (hid : idomOf g order b = some d) :
    d ≠ b ∧ DominatesP g 0 d b ∧ d ∈ order := by
  unfold idomOf at hid
  by_cases hb0 : b = 0
  · rw [if_pos hb0] at hid
    simp at hid
  · rw [if_neg hb0] at hid
    have hdmem := getLast?_mem' _ _ hid
    rw [List.mem_filter] at hdmem
    obtain ⟨hdord, hcond⟩ := hdmem
    rw [Bool.and_eq_true] at hcond
    refine ⟨?_, ?_, hdord⟩
    · intro hc
      rw [hc] at hcond
      simp at hcond
    · exact (dominatesB_iff g 0 d b hwf h0).mpr hcond.2

theorem initStep_encInv (g preds : List (List Nat)) (order : List Nat) (acc : InitAcc)
    (rb : Nat × Nat) (hwf : GWf g) (h0 : 0 < g.length) (hinv : EncInvP g acc) :
    EncInvP g (initStep g preds order acc rb) := by
  intro b h hb
  rw [initStep_encl] at hb
  rw [initStep_header]
  cases hid : idomOf g order rb.2 with
  | none =>
    simp only [hid] at hb
    obtain ⟨h1, h2⟩ := hinv b h hb
    exact ⟨headersAfter_mono g preds acc rb h h1, h2⟩
  | some d =>
    simp only [hid] at hb
    by_cases hbb : rb.2 = b
    · subst hbb
      by_cases hblen : rb.2 < acc.encl.length
      · rw [getD_set_self acc.encl rb.2 _ hblen] at hb
        by_cases hd : (headersAfter g preds acc rb).getD d false = true
        · rw [if_pos hd] at hb
          have hdh : d = h := Option.some.inj hb
          subst hdh
          obtain ⟨-, hdom, -⟩ := idomOf_spec g order rb.2 d hwf h0 hid
          exact ⟨hd, hdom⟩
        · rw [if_neg hd] at hb
          obtain ⟨h1, h2⟩ := hinv d h hb
          obtain ⟨-, hdom, -⟩ := idomOf_spec g order rb.2 d hwf h0 hid
          exact ⟨headersAfter_mono g preds acc rb h h1,
            dominatesP_trans g 0 h d rb.2 h2 hdom⟩
      · rw [List.set_eq_of_length_le (by omega)] at hb
        obtain ⟨h1, h2⟩ := hinv rb.2 h hb
        exact ⟨headersAfter_mono g preds acc rb h h1, h2⟩
    · rw [getD_set_ne acc.encl rb.2 _ b hbb] at hb
      obtain ⟨h1, h2⟩ := hinv b h hb
      exact ⟨headersAfter_mono g preds acc rb h h1, h2⟩

theorem foldInit_encInv (g preds : List (List Nat)) (order : List Nat)
    (hwf : GWf g) (h0 : 0 < g.length) :
    ∀ (ps : List (Nat × Nat)) (acc : InitAcc), EncInvP g acc →
      EncInvP g (ps.foldl (initStep g preds order) acc) := by
  intro ps
  induction ps with
  | nil => intro acc h; exact h
  | cons rb rest ih =>
    intro acc h
    rw [List.foldl_cons]
    exact ih _ (initStep_encInv g preds order acc rb hwf h0 h)

theorem initAll_encInv (g preds : List (List Nat)) (order : List Nat) (n : Nat)
    (hwf : GWf g) (h0 : 0 < g.length) :
    EncInvP g (initAll g preds order n) := by
  rw [initAll]
  refine foldInit_encInv g preds order hwf h0 _ _ ?_
  intro b h hb
  rw [replicate_none_getD] at hb
  simp at hb

/-- C5: for every node of a constructed coverage graph, the first element
yielded by `loop_headers_containing` is the node itself exactly when
`reloop_predecessors` yields at least one element, i.e. when the node
dominates one of its own predecessors. -/
theorem c5_loop_headers_self (mb : MirBody) (hwf : MirWf mb)
    (h0 : 0 < (fromMir mb).numNodes) (n : Nat) (hn : n < (fromMir mb).numNodes) :
    (loopHeadersContaining (fromMir mb) n).head? = some n ↔
      reloopPredecessors (fromMir mb) n ≠ [] := by
  rw [fromMir_numNodes] at h0 hn
  have hg : GWf (bcbSuccsG mb) := bcbSuccsG_wf mb hwf
  have hglen : 0 < (bcbSuccsG mb).length := by
    rw [bcbSuccsG_length]
    omega
  have hrepl : reloopPredecessors (fromMir mb) n =
      reloopB (bcbSuccsG mb) (bcbPredsG mb) n := rfl
  obtain ⟨k, hklt, hkn⟩ := List.mem_iff_getElem.mp ((bcbOrder_mem_iff mb hwf h0 n).mpr hn)
  have hk' : (bcbOrder mb)[k]? = some n := by
    rw [List.getElem?_eq_getElem hklt, hkn]
  have hflag : (fromMir mb).isLoopHeader.getD n false =
      !(reloopB (bcbSuccsG mb) (bcbPredsG mb) n).isEmpty := by
    rw [fromMir_isLoopHeader_eq]
    exact initAll_header_getD (bcbSuccsG mb) (bcbPredsG mb) (bcbOrder mb) _
      (bcbOrder_nodup mb) k n hk' hn
  have hinv : EncInvP (bcbSuccsG mb) (bcbInit mb) :=
    initAll_encInv (bcbSuccsG mb) (bcbPredsG mb) (bcbOrder mb) _ hg hglen
  rw [hrepl]
  unfold loopHeadersContaining
  by_cases hh : (fromMir mb).isLoopHeader.getD n false = true
  · rw [if_pos hh]
    constructor
    · intro _
      rw [hflag] at hh
      simp only [Bool.not_eq_true'] at hh
      exact List.isEmpty_eq_false.mp hh
    · intro _
      rw [List.singleton_append]
      rfl
  · rw [if_neg hh]
    rw [List.nil_append]
    have hflag' : (fromMir mb).isLoopHeader.getD n false = false := by
      cases hfc : (fromMir mb).isLoopHeader.getD n false
      · rfl
      · exact absurd hfc hh
    constructor
    · intro hhead
      exfalso
      cases hnum : (fromMir mb).numNodes with
      | zero =>
        rw [fromMir_numNodes] at hnum
        omega
      | succ m =>
        rw [hnum] at hhead
        simp only [enclChain] at hhead
        cases henc : (fromMir mb).enclosingLoopHeader.getD n none with
        | none =>
          simp only [henc] at hhead
          simp at hhead
        | some hs =>
          simp only [henc] at hhead
          have hsn : hs = n := by simpa using hhead
          have hencl : (bcbInit mb).encl.getD n none = some n := by
            rw [← fromMir_encl_eq]
            conv_rhs => rw [← hsn]
            exact henc
          refine hh ?_
          rw [fromMir_isLoopHeader_eq]
          exact (hinv n n hencl).1
    · intro hne
      exfalso
      rw [hflag] at hflag'
      simp only [Bool.not_eq_false'] at hflag'
      exact hne (List.isEmpty_iff.mp hflag')

theorem c5_loop_headers_self_witness :
    (loopHeadersContaining
        (fromMir [TermKind.goto 1, TermKind.switchInt [1, 2], TermKind.ret]) 1).head? =
      some 1 ↔
    reloopPredecessors
        (fromMir [TermKind.goto 1, TermKind.switchInt [1, 2], TermKind.ret]) 1 ≠ [] :=
  c5_loop_headers_self [TermKind.goto 1, TermKind.switchInt [1, 2], TermKind.ret]
    (by decide) (by decide) 1 (by decide)

theorem initStep_encl_length (g preds : List (List Nat)) (order : List Nat)
    (acc : InitAcc) (rb : Nat × Nat) :
    (initStep g preds order acc rb).encl.length = acc.encl.length := by
  rw [initStep_encl]
  cases hid : idomOf g order rb.2 with
  | none => rfl
  | some d =>
    show (acc.encl.set rb.2 _).length = acc.encl.length
    simp

theorem initStep_encl_getD_ne (g preds : List (List Nat)) (order : List Nat)
    (acc : InitAcc) (rb : Nat × Nat) (b : Nat) (h : rb.2 ≠ b) :
    (initStep g preds order acc rb).encl.getD b none = acc.encl.getD b none := by
  rw [initStep_encl]
  cases hid : idomOf g order rb.2 with
  | none => rfl
  | some d =>
    show (acc.encl.set rb.2 _).getD b none = acc.encl.getD b none
    exact getD_set_ne acc.encl rb.2 _ b h

theorem foldInit_encl_len (g preds : List (List Nat)) (order : List Nat) :
    ∀ (ps : List (Nat × Nat)) (acc : InitAcc),
      (ps.foldl (initStep g preds order) acc).encl.length = acc.encl.length := by
  intro ps
  induction ps with
  | nil => intro acc; rfl
  | cons rb rest ih =>
    intro acc
    rw [List.foldl_cons, ih, initStep_encl_length]

theorem foldInit_encl_untouched (g preds : List (List Nat)) (order : List Nat) :
    ∀ (ps : List (Nat × Nat)) (acc : InitAcc) (b : Nat),
      (∀ kb ∈ ps, kb.2 ≠ b) →
      (ps.foldl (initStep g preds order) acc).encl.getD b none = acc.encl.getD b none := by
  intro ps
  induction ps with
  | nil => intro acc b _; rfl
  | cons rb rest ih =>
    intro acc b hb
    rw [List.foldl_cons, ih _ b (fun kb hkb => hb kb (by simp [hkb]))]
    exact initStep_encl_getD_ne g preds order acc rb b (hb rb (by simp))

theorem foldInit_encl_id_none (g preds : List (List Nat)) (order : List Nat) (b : Nat)
    (hid : idomOf g order b = none) :
    ∀ (ps : List (Nat × Nat)) (acc : InitAcc),
      (ps.foldl (initStep g preds order) acc).encl.getD b none = acc.encl.getD b none := by
  intro ps
  induction ps with
  | nil => intro acc; rfl
  | cons rb rest ih =>
    intro acc
    rw [List.foldl_cons, ih]
    by_cases hbb : rb.2 = b
    · rw [initStep_encl, hbb, hid]
    · exact initStep_encl_getD_ne g preds order acc rb b hbb

theorem initStep_encl_pair (g preds : List (List Nat)) (order : List Nat)
    (acc : InitAcc) (k b : Nat) :
    (initStep g preds order acc (k, b)).encl =
      match idomOf g order b with
      | some d =>
          acc.encl.set b
            (if (headersAfter g preds acc (k, b)).getD d false then some d
             else acc.encl.getD d none)
      | none => acc.encl :=
  initStep_encl g preds order acc (k, b)

theorem zip_range_drop_mem (order : List Nat) (j : Nat) (kb : Nat × Nat)
    (h : kb ∈ ((List.range order.length).zip order).drop j) :
    j ≤ kb.1 ∧ order[kb.1]? = some kb.2 := by
  obtain ⟨t, ht, heq⟩ := List.mem_iff_getElem.mp h
  rw [List.getElem_drop] at heq
  have hlt : j + t < ((List.range order.length).zip order).length := by
    rw [List.length_drop] at ht
    omega
  have holt : j + t < order.length := by
    have hL : ((List.range order.length).zip order).length = order.length := by simp
    omega
  have hq : ((List.range order.length).zip order)[j + t]? = some kb := by
    rw [List.getElem?_eq_getElem hlt, heq]
  rw [zip_range_getElem order (j + t) holt] at hq
  have hkb := Option.some.inj hq
  constructor
  · rw [← hkb]
    show j ≤ j + t
    omega
  · rw [← hkb]
    show order[(j + t : Nat)]? = some (order.get ⟨j + t, holt⟩)
    rw [List.getElem?_eq_getElem holt]
    rfl

theorem foldl_split_at {α β : Type} (f : β → α → β) (l : List α) (j : Nat)
    (hj : j < l.length) (a : β) :
    l.foldl f a = (l.drop (j + 1)).foldl f (f ((l.take j).foldl f a) l[j]) := by
  conv_lhs => rw [← List.take_append_drop j l]
  rw [List.foldl_append, List.drop_eq_getElem_cons hj, List.foldl_cons]

/-- The final enclosing-loop-header entry of a node: its immediate dominator
if that node's final loop-header flag is set, otherwise the dominator's own
final entry, otherwise none. -/
theorem initAll_encl_getD (g preds : List (List Nat)) (order : List Nat) (N : Nat)
    (hnd : order.Nodup)
    (n : Nat) (hn : n < N) (hordsub : ∀ c, c ∈ order → c < N)
    (hdombef : ∀ d, idomOf g order n = some d → ListBefore d n order) :
    (initAll g preds order N).encl.getD n none =
      match idomOf g order n with
      | some d =>
          if (initAll g preds order N).isLoopHeader.getD d false then some d
          else (initAll g preds order N).encl.getD d none
      | none => none := by
  cases hidm : idomOf g order n with
  | none =>
    show (initAll g preds order N).encl.getD n none = none
    rw [initAll, foldInit_encl_id_none g preds order n hidm]
    exact replicate_none_getD _ _
  | some d =>
    have hbef := hdombef d hidm
    have hdn : d ≠ n := by
      intro hc
      exact listBefore_nodup_ne _ hnd n (hc ▸ hbef)
    obtain ⟨i, j, hij, hidx, hjdx⟩ := listBefore_getElem d n order hbef
    have hjlt : j < order.length := getElem?_some_lt hjdx
    have hilt : i < order.length := getElem?_some_lt hidx
    have hdN : d < N := hordsub d (mem_of_getElem?' hidx)
    have hpsL : ((List.range order.length).zip order).length = order.length := by simp
    have hpsj : j < ((List.range order.length).zip order).length := by
      rw [hpsL]
      exact hjlt
    have hgetn : order[j] = n := by
      rw [List.getElem?_eq_getElem hjlt] at hjdx
      exact Option.some.inj hjdx
    have hgetd : order.get ⟨i, hilt⟩ = d := by
      rw [List.getElem?_eq_getElem hilt] at hidx
      exact Option.some.inj hidx
    have hzj : ((List.range order.length).zip order)[j] = (j, n) := by
      have h := zip_range_getElem order j hjlt
      rw [List.getElem?_eq_getElem hpsj] at h
      have h2 := Option.some.inj h
      rw [h2, show order.get ⟨j, hjlt⟩ = n from hgetn]
    have hfold : initAll g preds order N =
        ((((List.range order.length).zip order).drop (j + 1)).foldl (initStep g preds order)
          (initStep g preds order
            ((((List.range order.length).zip order).take j).foldl (initStep g preds order)
              ⟨List.replicate N 0, List.replicate N false, List.replicate N none⟩)
            (j, n))) := by
      rw [initAll, foldl_split_at (initStep g preds order) _ j hpsj, hzj]
    have ha1len : ((((List.range order.length).zip order).take j).foldl
        (initStep g preds order)
        (⟨List.replicate N 0, List.replicate N false, List.replicate N none⟩ :
          InitAcc)).encl.length = N := by
      rw [foldInit_encl_len]
      simp
    have hstepn : (initStep g preds order
        ((((List.range order.length).zip order).take j).foldl (initStep g preds order)
          ⟨List.replicate N 0, List.replicate N false, List.replicate N none⟩)
        (j, n)).encl.getD n none =
        (if (headersAfter g preds
            ((((List.range order.length).zip order).take j).foldl (initStep g preds order)
              ⟨List.replicate N 0, List.replicate N false, List.replicate N none⟩)
            (j, n)).getD d false
         then some d
         else ((((List.range order.length).zip order).take j).foldl (initStep g preds order)
            ⟨List.replicate N 0, List.replicate N false, List.replicate N none⟩).encl.getD
            d none) := by
      rw [initStep_encl_pair, hidm]
      exact getD_set_self _ n _ (by rw [ha1len]; omega)
    have hdropn : ∀ kb ∈ ((List.range order.length).zip order).drop (j + 1), kb.2 ≠ n := by
      intro kb hkb hc
      obtain ⟨hge, hkidx⟩ := zip_range_drop_mem order (j + 1) kb hkb
      rw [hc] at hkidx
      have hkl : kb.1 < order.length := getElem?_some_lt hkidx
      have hkj : kb.1 = j := List.getElem?_inj hkl hnd (by rw [hkidx, hjdx])
      omega
    have hfinn : (initAll g preds order N).encl.getD n none =
        (initStep g preds order
          ((((List.range order.length).zip order).take j).foldl (initStep g preds order)
            ⟨List.replicate N 0, List.replicate N false, List.replicate N none⟩)
          (j, n)).encl.getD n none := by
      rw [hfold]
      exact foldInit_encl_untouched g preds order _ _ n hdropn
    have hdropd : ∀ kb ∈ ((List.range order.length).zip order).drop (j + 1), kb.2 ≠ d := by
      intro kb hkb hc
      obtain ⟨hge, hkidx⟩ := zip_range_drop_mem order (j + 1) kb hkb
      rw [hc] at hkidx
      have hkl : kb.1 < order.length := getElem?_some_lt hkidx
      have hki : kb.1 = i := List.getElem?_inj hkl hnd (by rw [hkidx, hidx])
      omega
    have hfind : (initAll g preds order N).encl.getD d none =
        ((((List.range order.length).zip order).take j).foldl (initStep g preds order)
          ⟨List.replicate N 0, List.replicate N false, List.replicate N none⟩).encl.getD
          d none := by
      rw [hfold, foldInit_encl_untouched g preds order _ _ d hdropd]
      exact initStep_encl_getD_ne g preds order _ (j, n) d (Ne.symm hdn)
    have htakei : (i, d) ∈ (((List.range order.length).zip order).take j) := by
      refine mem_of_getElem?Pair (i := i) ?_
      rw [List.getElem?_take_of_lt hij, zip_range_getElem order i hilt,
        show order.get ⟨i, hilt⟩ = d from hgetd]
    have hfa1 : ((((List.range order.length).zip order).take j).foldl (initStep g preds order)
        (⟨List.replicate N 0, List.replicate N false, List.replicate N none⟩ :
          InitAcc)).isLoopHeader.getD d false = !(reloopB g preds d).isEmpty := by
      refine foldInit_header_write g preds order _ _ i d htakei ?_ (by simpa using hdN) ?_
      · rw [List.map_take, zip_range_snd]
        exact List.Nodup.sublist (List.take_sublist j order) hnd
      · rw [List.getD_eq_getElem?_getD, List.getElem?_replicate]
        by_cases h : d < N <;> simp [h]
    have hfall : (initAll g preds order N).isLoopHeader.getD d false =
        !(reloopB g preds d).isEmpty :=
      initAll_header_getD g preds order N hnd i d hidx hdN
    have hha : (headersAfter g preds
        ((((List.range order.length).zip order).take j).foldl (initStep g preds order)
          ⟨List.replicate N 0, List.replicate N false, List.replicate N none⟩)
        (j, n)).getD d false =
        (initAll g preds order N).isLoopHeader.getD d false := by
      rw [headersAfter_getD_ne g preds _ (j, n) d (Ne.symm hdn), hfa1, hfall]
    show (initAll g preds order N).encl.getD n none =
      (if (initAll g preds order N).isLoopHeader.getD d false then some d
       else (initAll g preds order N).encl.getD d none)
    rw [hfinn, hstepn, hha, hfind]

/-- C6: for every node `n` of a constructed coverage graph, the stored
enclosing loop header equals `n`'s immediate dominator if that dominator is a
loop header, otherwise the dominator's own enclosing loop header, otherwise
none; consequently any stored enclosing header `h` of `n` dominates `n` and is
a loop header. -/
theorem c6_enclosing_loop_header (mb : MirBody) (hwf : MirWf mb)
    (h0 : 0 < (fromMir mb).numNodes) (n : Nat) (hn : n < (fromMir mb).numNodes) :
    ((fromMir mb).enclosingLoopHeader.getD n none =
      match idomOf (bcbSuccsG mb) (bcbOrder mb) n with
      | some d =>
          if (fromMir mb).isLoopHeader.getD d false then some d
          else (fromMir mb).enclosingLoopHeader.getD d none
      | none => none) ∧
    (∀ h, (fromMir mb).enclosingLoopHeader.getD n none = some h →
      DominatesQ (fromMir mb) h n ∧ (fromMir mb).isLoopHeader.getD h false = true) := by
  rw [fromMir_numNodes] at h0 hn
  have hg : GWf (bcbSuccsG mb) := bcbSuccsG_wf mb hwf
  have hglen0 : 0 < (bcbSuccsG mb).length := by
    rw [bcbSuccsG_length]
    omega
  have hnd := bcbOrder_nodup mb
  constructor
  · have hmain := initAll_encl_getD (bcbSuccsG mb) (bcbPredsG mb) (bcbOrder mb)
      (computeBcbs mb).1.length hnd n hn
      (fun c hc => (bcbOrder_mem_iff mb hwf h0 c).mp hc)
      (fun d hidm => rpo_dom_before (bcbSuccsG mb) d n
        ((bcbOrder_mem_iff mb hwf h0 n).mpr hn)
        (idomOf_spec (bcbSuccsG mb) (bcbOrder mb) n d hg hglen0 hidm).1
        (idomOf_spec (bcbSuccsG mb) (bcbOrder mb) n d hg hglen0 hidm).2.1)
    rw [fromMir_encl_eq, fromMir_isLoopHeader_eq]
    exact hmain
  · intro h hh
    have hencl : (bcbInit mb).encl.getD n none = some h := by
      rw [← fromMir_encl_eq]
      exact hh
    have hinv : EncInvP (bcbSuccsG mb) (bcbInit mb) :=
      initAll_encInv (bcbSuccsG mb) (bcbPredsG mb) (bcbOrder mb) _ hg hglen0
    obtain ⟨h1, h2⟩ := hinv n h hencl
    refine ⟨h2, ?_⟩
    rw [fromMir_isLoopHeader_eq]
    exact h1

theorem c6_enclosing_loop_header_witness :
    ((fromMir [TermKind.goto 1, TermKind.switchInt [1, 2],
        TermKind.ret]).enclosingLoopHeader.getD 2 none =
      match idomOf (bcbSuccsG [TermKind.goto 1, TermKind.switchInt [1, 2], TermKind.ret])
          (bcbOrder [TermKind.goto 1, TermKind.switchInt [1, 2], TermKind.ret]) 2 with
      | some d =>
          if (fromMir [TermKind.goto 1, TermKind.switchInt [1, 2],
              TermKind.ret]).isLoopHeader.getD d false then some d
          else (fromMir [TermKind.goto 1, TermKind.switchInt [1, 2],
              TermKind.ret]).enclosingLoopHeader.getD d none
      | none => none) ∧
    (∀ h, (fromMir [TermKind.goto 1, TermKind.switchInt [1, 2],
        TermKind.ret]).enclosingLoopHeader.getD 2 none = some h →
      DominatesQ (fromMir [TermKind.goto 1, TermKind.switchInt [1, 2], TermKind.ret]) h 2 ∧
      (fromMir [TermKind.goto 1, TermKind.switchInt [1, 2],
        TermKind.ret]).isLoopHeader.getD h false = true) :=
  c6_enclosing_loop_header [TermKind.goto 1, TermKind.switchInt [1, 2], TermKind.ret]
    (by decide) (by decide) 2 (by decide)

/-- Number of predecessors in `pl` not yet visited (not in `L`). -/
def pendCount (pl L : List Nat) : Nat :=
  (pl.filter fun u => !(decide (u ∈ L))).length

theorem pendCount_congr (pl L L' : List Nat) (h : ∀ u ∈ pl, (u ∈ L ↔ u ∈ L')) :
    pendCount pl L = pendCount pl L' := by
  unfold pendCount
  rw [List.filter_congr (fun a ha => by rw [decide_eq_decide.mpr (h a ha)])]

theorem pendCount_nil (pl : List Nat) : pendCount pl [] = pl.length := by
  unfold pendCount
  simp

theorem pendCount_snoc (pl L : List Nat) (v : Nat) (hnd : pl.Nodup) (hv : v ∉ L) :
    pendCount pl L = pendCount pl (L ++ [v]) + (if v ∈ pl then 1 else 0) := by
  induction pl with
  | nil => simp [pendCount]
  | cons u tl ih =>
    have hnd' := List.nodup_cons.mp hnd
    by_cases huv : u = v
    · subst huv
      have h1 : pendCount (u :: tl) L = pendCount tl L + 1 := by
        unfold pendCount
        rw [List.filter_cons, if_pos (by simp [hv])]
        simp
      have h2 : pendCount (u :: tl) (L ++ [u]) = pendCount tl (L ++ [u]) := by
        unfold pendCount
        rw [List.filter_cons, if_neg (by simp)]
      have h3 : pendCount tl L = pendCount tl (L ++ [u]) := by
        refine pendCount_congr tl L (L ++ [u]) ?_
        intro x hx
        have hxu : x ≠ u := fun hc => hnd'.1 (hc ▸ hx)
        simp [hxu]
      rw [h1, h2, h3, if_pos (by simp)]
    · have hif : (if v ∈ u :: tl then (1 : Nat) else 0) = if v ∈ tl then 1 else 0 := by
        by_cases hc : v ∈ tl
        · rw [if_pos hc, if_pos (by simp [hc])]
        · have hnc : v ∉ u :: tl := by
            intro hcc
            rcases List.mem_cons.mp hcc with h | h
            · exact huv h.symm
            · exact hc h
          rw [if_neg hc, if_neg hnc]
      have hcond : (!(decide (u ∈ L))) = (!(decide (u ∈ L ++ [v]))) := by
        simp [huv]
      have h1 : pendCount (u :: tl) L =
          pendCount tl L + (if !(decide (u ∈ L)) then 1 else 0) := by
        unfold pendCount
        rw [List.filter_cons]
        by_cases hc : !(decide (u ∈ L)) <;> simp [hc]
      have h2 : pendCount (u :: tl) (L ++ [v]) =
          pendCount tl (L ++ [v]) + (if !(decide (u ∈ L)) then 1 else 0) := by
        unfold pendCount
        rw [List.filter_cons, ← hcond]
        by_cases hc : !(decide (u ∈ L)) <;> simp [hc]
      rw [h1, h2, hif, ih hnd'.2]
      omega

theorem drainFallback_none_iff (st : List RState) :
    ∀ fb : List Nat, drainFallback st fb = none ↔
      ∀ v ∈ fb, st.getD v .unqueued ≠ .inFallback := by
  intro fb
  induction fb with
  | nil => simp [drainFallback]
  | cons v rest ih =>
    rw [drainFallback]
    by_cases hv : st.getD v .unqueued = .inFallback
    · rw [if_pos (by simp only [beq_iff_eq]; exact hv)]
      constructor
      · intro h
        simp at h
      · intro h
        exact absurd hv (h v (by simp))
    · rw [if_neg (by simp only [beq_iff_eq]; exact hv)]
      rw [ih]
      constructor
      · intro h w hw
        rcases List.mem_cons.mp hw with hw1 | hw1
        · rw [hw1]
          exact hv
        · exact h w hw1
      · intro h w hw
        exact h w (by simp [hw])

theorem drainFallback_some (st : List RState) :
    ∀ (fb : List Nat) (v : Nat) (rest : List Nat),
      drainFallback st fb = some (v, rest) →
      st.getD v .unqueued = .inFallback ∧
      ∃ pre, fb = pre ++ v :: rest ∧ ∀ x ∈ pre, st.getD x .unqueued ≠ .inFallback := by
  intro fb
  induction fb with
  | nil => intro v rest h; simp [drainFallback] at h
  | cons w tl ih =>
    intro v rest h
    rw [drainFallback] at h
    by_cases hw : st.getD w .unqueued = .inFallback
    · rw [if_pos (by simp only [beq_iff_eq]; exact hw)] at h
      have hpair := Option.some.inj h
      rw [Prod.mk.injEq] at hpair
      obtain ⟨h1, h2⟩ := hpair
      refine ⟨by rw [← h1]; exact hw, [], ?_, by simp⟩
      rw [h1, h2]
      rfl
    · rw [if_neg (by simp only [beq_iff_eq]; exact hw)] at h
      obtain ⟨hst, pre, hfb, hpre⟩ := ih v rest h
      refine ⟨hst, w :: pre, by rw [hfb]; rfl, ?_⟩
      intro x hx
      rcases List.mem_cons.mp hx with hx1 | hx1
      · rw [hx1]
        exact hw
      · exact hpre x hx1

theorem drainFallback_live (st : List RState) :
    ∀ (fb : List Nat) (v : Nat), v ∈ fb → st.getD v .unqueued = .inFallback →
      ∃ w rest, drainFallback st fb = some (w, rest) := by
  intro fb
  induction fb with
  | nil => intro v h; simp at h
  | cons w tl ih =>
    intro v hv hst
    rw [drainFallback]
    by_cases hw : st.getD w .unqueued = .inFallback
    · rw [if_pos (by simp only [beq_iff_eq]; exact hw)]
      exact ⟨w, tl, rfl⟩
    · rw [if_neg (by simp only [beq_iff_eq]; exact hw)]
      rcases List.mem_cons.mp hv with hv1 | hv1
      · rw [← hv1] at hw
        exact absurd hst hw
      · exact ih v hv1 hst

/-- C1's terminal condition at the level of a single step: `next` returns
`None` exactly when the ready queue is empty and the fallback queue holds no
live (`InFallbackQueue`) entry. -/
theorem travNext_none_iff (g : CoverageGraph) (s : TravState) :
    (travNext g s).1 = none ↔
      (s.readyQueue = [] ∧
        ∀ v ∈ s.fallbackQueue, s.state.getD v .unqueued ≠ .inFallback) := by
  have hfst : (travNext g s).1 = (nextInner s).1 := by
    rw [travNext]
    cases hni : nextInner s with
    | mk o s2 =>
      cases o with
      | none => rfl
      | some v => rfl
  rw [hfst]
  cases hrq : s.readyQueue with
  | cons v rest =>
    simp only [nextInner, hrq]
    constructor
    · intro h
      simp at h
    · rintro ⟨h1, -⟩
      simp at h1
  | nil =>
    simp only [nextInner, hrq]
    cases hdf : drainFallback s.state s.fallbackQueue with
    | some p =>
      obtain ⟨v, rest⟩ := p
      simp only [hdf]
      constructor
      · intro h
        simp at h
      · rintro ⟨-, h2⟩
        have hnone := (drainFallback_none_iff s.state s.fallbackQueue).mpr h2
        rw [hnone] at hdf
        simp at hdf
    | none =>
      simp only [hdf]
      constructor
      · intro _
        exact ⟨trivial, (drainFallback_none_iff s.state s.fallbackQueue).mp hdf⟩
      · intro _
        trivial

theorem enqueueStep_visited (s : TravState) (w : Nat)
    (h : s.state.getD w .unqueued = .visited) : enqueueStep s w = s := by
  rw [List.getD_eq_getElem?_getD] at h
  simp [enqueueStep, h]

theorem enqueueStep_ready (s : TravState) (w : Nat)
    (h : s.state.getD w .unqueued = .inReady) : enqueueStep s w = s := by
  rw [List.getD_eq_getElem?_getD] at h
  simp [enqueueStep, h]

theorem enqueueStep_unqueued_zero (s : TravState) (w : Nat)
    (h : s.state.getD w .unqueued = .unqueued)
    (hk : s.nUnvisitedPreds.getD w 0 - 1 = 0) :
    enqueueStep s w =
      ⟨s.nUnvisitedPreds.set w (s.nUnvisitedPreds.getD w 0 - 1),
       s.state.set w .inReady, s.readyQueue ++ [w], s.fallbackQueue⟩ := by
  rw [List.getD_eq_getElem?_getD] at h
  rw [List.getD_eq_getElem?_getD] at hk
  simp [enqueueStep, h, hk]

theorem enqueueStep_unqueued_pos (s : TravState) (w : Nat)
    (h : s.state.getD w .unqueued = .unqueued)
    (hk : s.nUnvisitedPreds.getD w 0 - 1 ≠ 0) :
    enqueueStep s w =
      ⟨s.nUnvisitedPreds.set w (s.nUnvisitedPreds.getD w 0 - 1),
       s.state.set w .inFallback, s.readyQueue, s.fallbackQueue ++ [w]⟩ := by
  rw [List.getD_eq_getElem?_getD] at h
  rw [List.getD_eq_getElem?_getD] at hk
  simp [enqueueStep, h, hk]

theorem enqueueStep_fallback_zero (s : TravState) (w : Nat)
    (h : s.state.getD w .unqueued = .inFallback)
    (hk : s.nUnvisitedPreds.getD w 0 - 1 = 0) :
    enqueueStep s w =
      ⟨s.nUnvisitedPreds.set w (s.nUnvisitedPreds.getD w 0 - 1),
       s.state.set w .inReady, s.readyQueue ++ [w], s.fallbackQueue⟩ := by
  rw [List.getD_eq_getElem?_getD] at h
  rw [List.getD_eq_getElem?_getD] at hk
  simp [enqueueStep, h, hk]

theorem enqueueStep_fallback_pos (s : TravState) (w : Nat)
    (h : s.state.getD w .unqueued = .inFallback)
    (hk : s.nUnvisitedPreds.getD w 0 - 1 ≠ 0) :
    enqueueStep s w =
      ⟨s.nUnvisitedPreds.set w (s.nUnvisitedPreds.getD w 0 - 1),
       s.state, s.readyQueue, s.fallbackQueue⟩ := by
  rw [List.getD_eq_getElem?_getD] at h
  rw [List.getD_eq_getElem?_getD] at hk
  simp [enqueueStep, h, hk]

/-- Invariant of the ready-first traversal, stated during the successor
processing of the most recently yielded node: `L` is the list of yielded
nodes (ending in the just-yielded `v`) and `rest` the successors of `v` not
yet processed. At quiescent states `rest = []`. -/
structure TMid (g : CoverageGraph) (v : Nat) (L : List Nat) (rest : List Nat)
    (s : TravState) : Prop where
  hlen1 : s.state.length = g.numNodes
  hlen2 : s.nUnvisitedPreds.length = g.numNodes
  hLnd : L.Nodup
  hLsub : ∀ x ∈ L, x < g.numNodes
  hrestnd : rest.Nodup
  hrestsub : ∀ w ∈ rest, w ∈ g.successors.getD v []
  hvis : ∀ w, w < g.numNodes → (s.state.getD w .unqueued = .visited ↔ w ∈ L)
  hready : ∀ w, w ∈ s.readyQueue ↔
    (w < g.numNodes ∧ s.state.getD w .unqueued = .inReady)
  hreadynd : s.readyQueue.Nodup
  hfb1 : ∀ w ∈ s.fallbackQueue, w < g.numNodes ∧ s.state.getD w .unqueued ≠ .unqueued
  hfb2 : ∀ w, w < g.numNodes → s.state.getD w .unqueued = .inFallback →
    w ∈ s.fallbackQueue
  hcnt : ∀ w, w < g.numNodes → s.state.getD w .unqueued ≠ .visited →
    s.nUnvisitedPreds.getD w 0 =
      pendCount (g.predecessors.getD w []) L + (if w ∈ rest then 1 else 0)
  hrdy0 : ∀ w, w < g.numNodes → s.state.getD w .unqueued = .inReady →
    s.nUnvisitedPreds.getD w 0 = 0
  hunq : ∀ w, w < g.numNodes → s.state.getD w .unqueued = .unqueued →
    ∀ u ∈ g.predecessors.getD w [], u ∈ L → (u = v ∧ w ∈ rest)
  hqueued : ∀ w, w < g.numNodes → w ≠ 0 →
    (s.state.getD w .unqueued = .inFallback ∨ s.state.getD w .unqueued = .inReady) →
    ∃ u ∈ g.predecessors.getD w [], u ∈ L
  hzero : s.state.getD 0 .unqueued ≠ .unqueued

/-- The quiescent traversal invariant. -/
def TInv (g : CoverageGraph) (s : TravState) (L : List Nat) : Prop :=
  TMid g 0 L [] s

theorem mem_all_of_nodup_length (L : List Nat) (n : Nat) (hnd : L.Nodup)
    (hsub : ∀ x ∈ L, x < n) (hlen : n ≤ L.length) : ∀ w, w < n → w ∈ L := by
  have hsp : L.Subperm (List.range n) :=
    List.subperm_of_subset hnd (fun x hx => List.mem_range.mpr (hsub x hx))
  have hperm := hsp.perm_of_length_le (by simpa using hlen)
  intro w hw
  exact hperm.symm.subset (List.mem_range.mpr hw)

theorem exists_unvisited (L : List Nat) (n : Nat) (hlt : L.length < n) :
    ∃ w, w < n ∧ w ∉ L := by
  by_contra hc
  push_neg at hc
  have hsp : (List.range n).Subperm L :=
    List.subperm_of_subset (List.nodup_range n)
      (fun x hx => hc x (List.mem_range.mp hx))
  have := hsp.length_le
  simp at this
  omega

theorem path_nodes_lt (g : List (List Nat)) (hwf : GWf g) :
    ∀ (p : List Nat) (a : Nat), p.head? = some a → IsPath (graphSf g) p →
      a < g.length → ∀ x ∈ p, x < g.length := by
  intro p
  induction p with
  | nil => intro a h; simp at h
  | cons u tl ih =>
    intro a hh hp ha x hx
    have hua : u = a := by simpa using hh
    rcases List.mem_cons.mp hx with hx1 | hx1
    · rw [hx1, hua]
      exact ha
    · cases tl with
      | nil => simp at hx1
      | cons c tl' =>
        have hchain := List.chain'_cons.mp hp
        have hc : c < g.length := graphSf_targets_lt g hwf u c hchain.1
        exact ih c rfl hchain.2 hc x hx1

theorem chain_frontier (sf : Nat → List Nat) (P : Nat → Prop) :
    ∀ (p : List Nat) (a b : Nat), PathFromTo sf a b p → P a → ¬ P b →
      ∃ u z, u ∈ p ∧ z ∈ sf u ∧ P u ∧ ¬ P z := by
  intro p
  induction p with
  | nil => intro a b hp; simp [PathFromTo] at hp
  | cons u tl ih =>
    intro a b hp hPa hPb
    have hua : u = a := by
      have := hp.2.1
      simpa using this
    cases tl with
    | nil =>
      have hub : u = b := by
        have := hp.2.2
        simpa using this
      rw [hua] at hub
      rw [hub] at hPa
      exact absurd hPa hPb
    | cons c tl' =>
      have hchain := List.chain'_cons.mp hp.1
      by_cases hPc : P c
      · have hpath : PathFromTo sf c b (c :: tl') := by
          refine ⟨hchain.2, rfl, ?_⟩
          have := hp.2.2
          rwa [List.getLast?_cons_cons] at this
        obtain ⟨u', z, hu', hz, hPu', hPz⟩ := ih c b hpath hPc hPb
        exact ⟨u', z, by simp [hu'], hz, hPu', hPz⟩
      · exact ⟨u, c, by simp, hchain.1, hua ▸ hPa, hPc⟩

theorem getD_set_self_r (m : List RState) (k : Nat) (vv : RState) (hk : k < m.length) :
    (m.set k vv).getD k .unqueued = vv := by
  rw [List.getD_eq_getElem?_getD, List.getElem?_set_self (by simpa using hk)]
  simp

theorem getD_set_ne_r (m : List RState) (k : Nat) (vv : RState) (b : Nat) (h : k ≠ b) :
    (m.set k vv).getD b .unqueued = m.getD b .unqueued := by
  rw [List.getD_eq_getElem?_getD, List.getElem?_set_ne h, List.getD_eq_getElem?_getD]

/-- Preservation of the traversal invariant by one successor-processing step,
when the successor's unvisited-predecessor count drops to zero: it is promoted
to the ready queue. -/
theorem enqueueStep_inv_zero (g : CoverageGraph)
    (v : Nat) (L : List Nat) (hvL : v ∈ L)
    (w : Nat) (hwlt : w < g.numNodes) (hvpred : v ∈ g.predecessors.getD w [])
    (rest : List Nat) (s : TravState) (hmid : TMid g v L (w :: rest) s)
    (hst12 : s.state.getD w .unqueued = .unqueued ∨
      s.state.getD w .unqueued = .inFallback)
    (hz : s.nUnvisitedPreds.getD w 0 - 1 = 0) :
    TMid g v L rest
      ⟨s.nUnvisitedPreds.set w (s.nUnvisitedPreds.getD w 0 - 1),
       s.state.set w .inReady, s.readyQueue ++ [w], s.fallbackQueue⟩ := by
  have hwrest : w ∉ rest := (List.nodup_cons.mp hmid.hrestnd).1
  have hnv : s.state.getD w .unqueued ≠ .visited := by
    rcases hst12 with h | h <;> rw [h] <;> simp
  have hnotready : s.state.getD w .unqueued ≠ .inReady := by
    rcases hst12 with h | h <;> rw [h] <;> simp
  have hwNotL : w ∉ L := fun hc => hnv ((hmid.hvis w hwlt).mpr hc)
  have hcw := hmid.hcnt w hwlt hnv
  rw [if_pos (by simp)] at hcw
  have hkP : s.nUnvisitedPreds.getD w 0 - 1 =
      pendCount (g.predecessors.getD w []) L := by omega
  have hstlen : w < s.state.length := by rw [hmid.hlen1]; exact hwlt
  have hcntlen : w < s.nUnvisitedPreds.length := by rw [hmid.hlen2]; exact hwlt
  refine ⟨?_, ?_, hmid.hLnd, hmid.hLsub, (List.nodup_cons.mp hmid.hrestnd).2,
    (fun x hx => hmid.hrestsub x (by simp [hx])), ?_, ?_, ?_, ?_, ?_, ?_, ?_, ?_, ?_, ?_⟩
  · simp [hmid.hlen1]
  · simp [hmid.hlen2]
  · intro w2 hw2
    by_cases hww : w2 = w
    · subst hww
      rw [getD_set_self_r _ _ _ hstlen]
      constructor
      · intro hc
        simp at hc
      · intro hc
        exact absurd hc hwNotL
    · rw [getD_set_ne_r _ _ _ _ (fun hc => hww hc.symm)]
      exact hmid.hvis w2 hw2
  · intro w2
    constructor
    · intro hmem
      rcases List.mem_append.mp hmem with hm | hm
      · obtain ⟨h1, h2⟩ := (hmid.hready w2).mp hm
        have hww : w2 ≠ w := fun hc => hnotready (hc ▸ h2)
        rw [getD_set_ne_r _ _ _ _ (fun hc => hww hc.symm)]
        exact ⟨h1, h2⟩
      · have hww : w2 = w := by simpa using hm
        subst hww
        rw [getD_set_self_r _ _ _ hstlen]
        exact ⟨hwlt, rfl⟩
    · intro hc
      by_cases hww : w2 = w
      · subst hww
        simp
      · rw [getD_set_ne_r _ _ _ _ (fun hcc => hww hcc.symm)] at hc
        exact List.mem_append.mpr (Or.inl ((hmid.hready w2).mpr hc))
  · rw [List.nodup_append]
    refine ⟨hmid.hreadynd, by simp, ?_⟩
    intro a ha hb
    have hab : a = w := by simpa using hb
    subst hab
    exact hnotready ((hmid.hready a).mp ha).2
  · intro x hx
    obtain ⟨h1, h2⟩ := hmid.hfb1 x hx
    by_cases hxx : x = w
    · subst hxx
      rw [getD_set_self_r _ _ _ hstlen]
      exact ⟨h1, by simp⟩
    · rw [getD_set_ne_r _ _ _ _ (fun hc => hxx hc.symm)]
      exact ⟨h1, h2⟩
  · intro w2 hw2 hc
    by_cases hww : w2 = w
    · subst hww
      rw [getD_set_self_r _ _ _ hstlen] at hc
      simp at hc
    · rw [getD_set_ne_r _ _ _ _ (fun hcc => hww hcc.symm)] at hc
      exact hmid.hfb2 w2 hw2 hc
  · intro w2 hw2 hnv2
    by_cases hww : w2 = w
    · subst hww
      rw [getD_set_self_nat _ _ _ hcntlen, if_neg hwrest, hkP]
      omega
    · rw [getD_set_ne_r _ _ _ _ (fun hc => hww hc.symm)] at hnv2
      rw [getD_set_ne_nat _ _ _ _ (fun hc => hww hc.symm)]
      have h0 := hmid.hcnt w2 hw2 hnv2
      rw [h0]
      by_cases hmm : w2 ∈ rest
      · rw [if_pos hmm, if_pos (by simp [hmm])]
      · rw [if_neg hmm, if_neg (by simp [hww, hmm])]
  · intro w2 hw2 hc
    by_cases hww : w2 = w
    · subst hww
      rw [getD_set_self_nat _ _ _ hcntlen]
      omega
    · rw [getD_set_ne_r _ _ _ _ (fun hcc => hww hcc.symm)] at hc
      rw [getD_set_ne_nat _ _ _ _ (fun hcc => hww hcc.symm)]
      exact hmid.hrdy0 w2 hw2 hc
  · intro w2 hw2 hc u hu huL
    by_cases hww : w2 = w
    · subst hww
      rw [getD_set_self_r _ _ _ hstlen] at hc
      simp at hc
    · rw [getD_set_ne_r _ _ _ _ (fun hcc => hww hcc.symm)] at hc
      obtain ⟨h1, h2⟩ := hmid.hunq w2 hw2 hc u hu huL
      refine ⟨h1, ?_⟩
      rcases List.mem_cons.mp h2 with hcc | hcc
      · exact absurd hcc hww
      · exact hcc
  · intro w2 hw2 hne hc
    by_cases hww : w2 = w
    · subst hww
      exact ⟨v, hvpred, hvL⟩
    · rw [getD_set_ne_r _ _ _ _ (fun hcc => hww hcc.symm)] at hc
      exact hmid.hqueued w2 hw2 hne hc
  · by_cases hww : (0 : Nat) = w
    · rw [← hww, getD_set_self_r _ _ _ (by rw [← hww] at hstlen; exact hstlen)]
      simp
    · rw [getD_set_ne_r _ _ _ _ (fun hc => hww hc.symm)]
      exact hmid.hzero


/-- Preservation when an unqueued successor still has unvisited predecessors:
it enters the fallback queue. -/
theorem enqueueStep_inv_unq_pos (g : CoverageGraph)
    (v : Nat) (L : List Nat) (hvL : v ∈ L)
    (w : Nat) (hwlt : w < g.numNodes) (hvpred : v ∈ g.predecessors.getD w [])
    (rest : List Nat) (s : TravState) (hmid : TMid g v L (w :: rest) s)
    (hst : s.state.getD w .unqueued = .unqueued)
    (hz : s.nUnvisitedPreds.getD w 0 - 1 ≠ 0) :
    TMid g v L rest
      ⟨s.nUnvisitedPreds.set w (s.nUnvisitedPreds.getD w 0 - 1),
       s.state.set w .inFallback, s.readyQueue, s.fallbackQueue ++ [w]⟩ := by
  have hwrest : w ∉ rest := (List.nodup_cons.mp hmid.hrestnd).1
  have hnv : s.state.getD w .unqueued ≠ .visited := by rw [hst]; simp
  have hnotready : s.state.getD w .unqueued ≠ .inReady := by rw [hst]; simp
  have hwNotL : w ∉ L := fun hc => hnv ((hmid.hvis w hwlt).mpr hc)
  have hcw := hmid.hcnt w hwlt hnv
  rw [if_pos (by simp)] at hcw
  have hkP : s.nUnvisitedPreds.getD w 0 - 1 =
      pendCount (g.predecessors.getD w []) L := by omega
  have hstlen : w < s.state.length := by rw [hmid.hlen1]; exact hwlt
  have hcntlen : w < s.nUnvisitedPreds.length := by rw [hmid.hlen2]; exact hwlt
  refine ⟨?_, ?_, hmid.hLnd, hmid.hLsub, (List.nodup_cons.mp hmid.hrestnd).2,
    (fun x hx => hmid.hrestsub x (by simp [hx])), ?_, ?_, hmid.hreadynd, ?_, ?_, ?_, ?_,
    ?_, ?_, ?_⟩
  · simp [hmid.hlen1]
  · simp [hmid.hlen2]
  · intro w2 hw2
    by_cases hww : w2 = w
    · subst hww
      rw [getD_set_self_r _ _ _ hstlen]
      constructor
      · intro hc
        simp at hc
      · intro hc
        exact absurd hc hwNotL
    · rw [getD_set_ne_r _ _ _ _ (fun hc => hww hc.symm)]
      exact hmid.hvis w2 hw2
  · intro w2
    by_cases hww : w2 = w
    · subst hww
      rw [getD_set_self_r _ _ _ hstlen]
      constructor
      · intro hmem
        exact absurd ((hmid.hready w2).mp hmem).2 hnotready
      · intro hc
        simp at hc
    · rw [getD_set_ne_r _ _ _ _ (fun hc => hww hc.symm)]
      exact hmid.hready w2
  · intro x hx
    rcases List.mem_append.mp hx with hm | hm
    · obtain ⟨h1, h2⟩ := hmid.hfb1 x hm
      by_cases hxx : x = w
      · subst hxx
        rw [getD_set_self_r _ _ _ hstlen]
        exact ⟨h1, by simp⟩
      · rw [getD_set_ne_r _ _ _ _ (fun hc => hxx hc.symm)]
        exact ⟨h1, h2⟩
    · have hxx : x = w := by simpa using hm
      subst hxx
      rw [getD_set_self_r _ _ _ hstlen]
      exact ⟨hwlt, by simp⟩
  · intro w2 hw2 hc
    by_cases hww : w2 = w
    · subst hww
      simp
    · rw [getD_set_ne_r _ _ _ _ (fun hcc => hww hcc.symm)] at hc
      exact List.mem_append.mpr (Or.inl (hmid.hfb2 w2 hw2 hc))
  · intro w2 hw2 hnv2
    by_cases hww : w2 = w
    · subst hww
      rw [getD_set_self_nat _ _ _ hcntlen, if_neg hwrest, hkP]
      omega
    · rw [getD_set_ne_r _ _ _ _ (fun hc => hww hc.symm)] at hnv2
      rw [getD_set_ne_nat _ _ _ _ (fun hc => hww hc.symm)]
      have h0 := hmid.hcnt w2 hw2 hnv2
      rw [h0]
      by_cases hmm : w2 ∈ rest
      · rw [if_pos hmm, if_pos (by simp [hmm])]
      · rw [if_neg hmm, if_neg (by simp [hww, hmm])]
  · intro w2 hw2 hc
    by_cases hww : w2 = w
    · subst hww
      rw [getD_set_self_r _ _ _ hstlen] at hc
      simp at hc
    · rw [getD_set_ne_r _ _ _ _ (fun hcc => hww hcc.symm)] at hc
      rw [getD_set_ne_nat _ _ _ _ (fun hcc => hww hcc.symm)]
      exact hmid.hrdy0 w2 hw2 hc
  · intro w2 hw2 hc u hu huL
    by_cases hww : w2 = w
    · subst hww
      rw [getD_set_self_r _ _ _ hstlen] at hc
      simp at hc
    · rw [getD_set_ne_r _ _ _ _ (fun hcc => hww hcc.symm)] at hc
      obtain ⟨h1, h2⟩ := hmid.hunq w2 hw2 hc u hu huL
      refine ⟨h1, ?_⟩
      rcases List.mem_cons.mp h2 with hcc | hcc
      · exact absurd hcc hww
      · exact hcc
  · intro w2 hw2 hne hc
    by_cases hww : w2 = w
    · subst hww
      exact ⟨v, hvpred, hvL⟩
    · rw [getD_set_ne_r _ _ _ _ (fun hcc => hww hcc.symm)] at hc
      exact hmid.hqueued w2 hw2 hne hc
  · by_cases hww : (0 : Nat) = w
    · rw [← hww, getD_set_self_r _ _ _ (by rw [← hww] at hstlen; exact hstlen)]
      simp
    · rw [getD_set_ne_r _ _ _ _ (fun hc => hww hc.symm)]
      exact hmid.hzero

/-- Preservation when a fallback-queued successor still has unvisited
predecessors: only its counter changes. -/
theorem enqueueStep_inv_fb_pos (g : CoverageGraph)
    (v : Nat) (L : List Nat)
    (w : Nat) (hwlt : w < g.numNodes)
    (rest : List Nat) (s : TravState) (hmid : TMid g v L (w :: rest) s)
    (hst : s.state.getD w .unqueued = .inFallback)
    (hz : s.nUnvisitedPreds.getD w 0 - 1 ≠ 0) :
    TMid g v L rest
      ⟨s.nUnvisitedPreds.set w (s.nUnvisitedPreds.getD w 0 - 1),
       s.state, s.readyQueue, s.fallbackQueue⟩ := by
  have hwrest : w ∉ rest := (List.nodup_cons.mp hmid.hrestnd).1
  have hnv : s.state.getD w .unqueued ≠ .visited := by rw [hst]; simp
  have hcw := hmid.hcnt w hwlt hnv
  rw [if_pos (by simp)] at hcw
  have hkP : s.nUnvisitedPreds.getD w 0 - 1 =
      pendCount (g.predecessors.getD w []) L := by omega
  have hcntlen : w < s.nUnvisitedPreds.length := by rw [hmid.hlen2]; exact hwlt
  refine ⟨hmid.hlen1, ?_, hmid.hLnd, hmid.hLsub, (List.nodup_cons.mp hmid.hrestnd).2,
    (fun x hx => hmid.hrestsub x (by simp [hx])), hmid.hvis, hmid.hready, hmid.hreadynd,
    hmid.hfb1, hmid.hfb2, ?_, ?_, ?_, hmid.hqueued, hmid.hzero⟩
  · simp [hmid.hlen2]
  · intro w2 hw2 hnv2
    by_cases hww : w2 = w
    · subst hww
      rw [getD_set_self_nat _ _ _ hcntlen, if_neg hwrest, hkP]
      omega
    · rw [getD_set_ne_nat _ _ _ _ (fun hc => hww hc.symm)]
      have h0 := hmid.hcnt w2 hw2 hnv2
      rw [h0]
      by_cases hmm : w2 ∈ rest
      · rw [if_pos hmm, if_pos (by simp [hmm])]
      · rw [if_neg hmm, if_neg (by simp [hww, hmm])]
  · intro w2 hw2 hc
    by_cases hww : w2 = w
    · subst hww
      rw [hst] at hc
      simp at hc
    · rw [getD_set_ne_nat _ _ _ _ (fun hcc => hww hcc.symm)]
      exact hmid.hrdy0 w2 hw2 hc
  · intro w2 hw2 hc u hu huL
    obtain ⟨h1, h2⟩ := hmid.hunq w2 hw2 hc u hu huL
    refine ⟨h1, ?_⟩
    have hww : w2 ≠ w := by
      intro hcc
      rw [hcc, hst] at hc
      simp at hc
    rcases List.mem_cons.mp h2 with hcc | hcc
    · exact absurd hcc hww
    · exact hcc

/-- One successor-processing step of `mark_visited_and_enqueue_successors`
preserves the traversal invariant (the source's `unreachable!` for an
in-ready-queue successor is proved unreachable on the way). -/
theorem enqueueStep_inv (g : CoverageGraph)
    (hslen : g.successors.length = g.numNodes)
    (hgwf : ∀ l ∈ g.successors, ∀ x ∈ l, x < g.numNodes)
    (hinv : ∀ u w2, u < g.numNodes → w2 < g.numNodes →
      (u ∈ g.predecessors.getD w2 [] ↔ w2 ∈ g.successors.getD u []))
    (v : Nat) (hv : v < g.numNodes) (L : List Nat) (hvL : v ∈ L)
    (w : Nat) (rest : List Nat) (s : TravState)
    (hmid : TMid g v L (w :: rest) s) :
    TMid g v L rest (enqueueStep s w) := by
  have hw_succ : w ∈ g.successors.getD v [] := hmid.hrestsub w (by simp)
  have hsucc_mem : g.successors.getD v [] ∈ g.successors :=
    getD_mem _ v [] (by rw [hslen]; exact hv)
  have hwlt : w < g.numNodes := hgwf _ hsucc_mem w hw_succ
  have hvpred : v ∈ g.predecessors.getD w [] := (hinv v w hv hwlt).mpr hw_succ
  cases hst : s.state.getD w .unqueued with
  | visited =>
    rw [enqueueStep_visited s w hst]
    have hwrest : w ∉ rest := (List.nodup_cons.mp hmid.hrestnd).1
    refine ⟨hmid.hlen1, hmid.hlen2, hmid.hLnd, hmid.hLsub,
      (List.nodup_cons.mp hmid.hrestnd).2,
      (fun x hx => hmid.hrestsub x (by simp [hx])), hmid.hvis, hmid.hready,
      hmid.hreadynd, hmid.hfb1, hmid.hfb2, ?_, hmid.hrdy0, ?_, hmid.hqueued, hmid.hzero⟩
    · intro w2 hw2 hnv2
      have hww : w2 ≠ w := fun hc => hnv2 (hc ▸ hst)
      have h0 := hmid.hcnt w2 hw2 hnv2
      rw [h0]
      by_cases hmm : w2 ∈ rest
      · rw [if_pos hmm, if_pos (by simp [hmm])]
      · rw [if_neg hmm, if_neg (by simp [hww, hmm])]
    · intro w2 hw2 hc u hu huL
      obtain ⟨h1, h2⟩ := hmid.hunq w2 hw2 hc u hu huL
      have hww : w2 ≠ w := by
        intro hcc
        rw [hcc, hst] at hc
        simp at hc
      refine ⟨h1, ?_⟩
      rcases List.mem_cons.mp h2 with hcc | hcc
      · exact absurd hcc hww
      · exact hcc
  | inReady =>
    exfalso
    have h0 := hmid.hrdy0 w hwlt hst
    have hc := hmid.hcnt w hwlt (by rw [hst]; simp)
    rw [if_pos (by simp)] at hc
    omega
  | unqueued =>
    by_cases hz : s.nUnvisitedPreds.getD w 0 - 1 = 0
    · rw [enqueueStep_unqueued_zero s w hst hz]
      exact enqueueStep_inv_zero g v L hvL w hwlt hvpred rest s hmid (Or.inl hst) hz
    · rw [enqueueStep_unqueued_pos s w hst hz]
      exact enqueueStep_inv_unq_pos g v L hvL w hwlt hvpred rest s hmid hst hz
  | inFallback =>
    by_cases hz : s.nUnvisitedPreds.getD w 0 - 1 = 0
    · rw [enqueueStep_fallback_zero s w hst hz]
      exact enqueueStep_inv_zero g v L hvL w hwlt hvpred rest s hmid (Or.inr hst) hz
    · rw [enqueueStep_fallback_pos s w hst hz]
      exact enqueueStep_inv_fb_pos g v L w hwlt rest s hmid hst hz

/-- Folding `enqueueStep` over the remaining successors preserves the
invariant down to the quiescent state. -/
theorem enqueue_fold_inv (g : CoverageGraph)
    (hslen : g.successors.length = g.numNodes)
    (hgwf : ∀ l ∈ g.successors, ∀ x ∈ l, x < g.numNodes)
    (hinv : ∀ u w2, u < g.numNodes → w2 < g.numNodes →
      (u ∈ g.predecessors.getD w2 [] ↔ w2 ∈ g.successors.getD u []))
    (v : Nat) (hv : v < g.numNodes) (L : List Nat) (hvL : v ∈ L) :
    ∀ (rest : List Nat) (s : TravState), TMid g v L rest s →
      TMid g v L [] (rest.foldl enqueueStep s) := by
  intro rest
  induction rest with
  | nil => intro s h; exact h
  | cons w tl ih =>
    intro s h
    rw [List.foldl_cons]
    exact ih _ (enqueueStep_inv g hslen hgwf hinv v hv L hvL w tl s h)

theorem tmid_done (g : CoverageGraph) (v : Nat) (L : List Nat) (s : TravState)
    (h : TMid g v L [] s) : TInv g s L := by
  refine ⟨h.hlen1, h.hlen2, h.hLnd, h.hLsub, List.nodup_nil, (by intro w hw; simp at hw),
    h.hvis, h.hready, h.hreadynd, h.hfb1, h.hfb2, h.hcnt, h.hrdy0, ?_, h.hqueued, h.hzero⟩
  intro w hw hst u hu huL
  exact absurd (h.hunq w hw hst u hu huL).2 (by simp)

/-- `ReadyFirstTraversal::new` establishes the traversal invariant. -/
theorem travNew_inv (g : CoverageGraph)
    (hn : 0 < g.numNodes)
    (hplen : g.predecessors.length = g.numNodes)
    (hp0 : g.predecessors.getD 0 [] = []) :
    TInv g (travNew g) [] := by
  have hrep : ∀ w : Nat,
      (List.replicate g.numNodes (RState.unqueued)).getD w .unqueued = .unqueued := by
    intro w
    rw [List.getD_eq_getElem?_getD, List.getElem?_replicate]
    by_cases h : w < g.numNodes <;> simp [h]
  have hreplen : (0 : Nat) < (List.replicate g.numNodes RState.unqueued).length := by
    simpa using hn
  have hst0 : (travNew g).state.getD 0 .unqueued = .inReady :=
    getD_set_self_r _ _ _ hreplen
  have hstw : ∀ w : Nat, w ≠ 0 → (travNew g).state.getD w .unqueued = .unqueued := by
    intro w hw
    have h := getD_set_ne_r (List.replicate g.numNodes RState.unqueued) 0 .inReady w
      (fun hc => hw hc.symm)
    rw [travNew]
    rw [h, hrep]
  have hmap : ∀ w, w < g.numNodes →
      (g.predecessors.map List.length).getD w 0 = (g.predecessors.getD w []).length := by
    intro w hw
    have hw' : w < g.predecessors.length := by rw [hplen]; exact hw
    rw [List.getD_eq_getElem?_getD, List.getElem?_map, List.getElem?_eq_getElem hw']
    rw [List.getD_eq_getElem?_getD, List.getElem?_eq_getElem hw']
    simp
  refine ⟨?_, ?_, List.nodup_nil, (by intro x hx; simp at hx), List.nodup_nil,
    (by intro w hw; simp at hw), ?_, ?_, by simp [travNew], ?_, ?_, ?_, ?_, ?_, ?_, ?_⟩
  · simp [travNew]
  · simp [travNew, hplen]
  · intro w hw
    constructor
    · intro hc
      by_cases hw0 : w = 0
      · rw [hw0, hst0] at hc
        simp at hc
      · rw [hstw w hw0] at hc
        simp at hc
    · intro hc
      simp at hc
  · intro w
    constructor
    · intro hmem
      have hw0 : w = 0 := by
        rw [travNew] at hmem
        simpa using hmem
      subst hw0
      exact ⟨hn, hst0⟩
    · intro ⟨h1, h2⟩
      by_cases hw0 : w = 0
      · rw [travNew, hw0]
        simp
      · rw [hstw w hw0] at h2
        simp at h2
  · intro w hw
    rw [travNew] at hw
    simp at hw
  · intro w hw hc
    by_cases hw0 : w = 0
    · rw [hw0, hst0] at hc
      simp at hc
    · rw [hstw w hw0] at hc
      simp at hc
  · intro w hw hnv
    show (g.predecessors.map List.length).getD w 0 = _
    rw [hmap w hw, pendCount_nil]
    simp
  · intro w hw hc
    have hw0 : w = 0 := by
      by_contra hc2
      rw [hstw w hc2] at hc
      simp at hc
    subst hw0
    show (g.predecessors.map List.length).getD 0 0 = 0
    rw [hmap 0 hw, hp0]
    rfl
  · intro w hw hst u hu huL
    simp at huL
  · intro w hw hne hc
    rcases hc with hc | hc
    · rw [hstw w hne] at hc
      simp at hc
    · rw [hstw w hne] at hc
      simp at hc
  · rw [hst0]
    simp

/-- Marking a yielded node visited and processing its successors restores the
quiescent invariant, for any pair of queues compatible with popping the node. -/
theorem mark_fold_tinv (g : CoverageGraph)
    (hslen : g.successors.length = g.numNodes)
    (hplen : g.predecessors.length = g.numNodes)
    (hsnd : ∀ l ∈ g.successors, l.Nodup)
    (hgwf : ∀ l ∈ g.successors, ∀ x ∈ l, x < g.numNodes)
    (hpnd : ∀ l ∈ g.predecessors, l.Nodup)
    (hinv : ∀ u w2, u < g.numNodes → w2 < g.numNodes →
      (u ∈ g.predecessors.getD w2 [] ↔ w2 ∈ g.successors.getD u []))
    (s : TravState) (L : List Nat) (hI : TInv g s L)
    (v : Nat) (hvlt : v < g.numNodes)
    (hstv : s.state.getD v .unqueued = .inReady ∨
      s.state.getD v .unqueued = .inFallback)
    (rq2 fb2 : List Nat)
    (hrq2sub : ∀ w ∈ rq2, w ∈ s.readyQueue)
    (hrq2nd : rq2.Nodup)
    (hrq2mem : ∀ w, w ∈ s.readyQueue → w ≠ v → w ∈ rq2)
    (hvnotrq2 : v ∉ rq2)
    (hfb2sub : ∀ w ∈ fb2, w ∈ s.fallbackQueue)
    (hfb2mem : ∀ w, w < g.numNodes → s.state.getD w .unqueued = .inFallback →
      w ≠ v → w ∈ fb2) :
    TInv g
      ((g.successors.getD v []).foldl enqueueStep
        ⟨s.nUnvisitedPreds, s.state.set v .visited, rq2, fb2⟩)
      (L ++ [v]) := by
  have hnvv : s.state.getD v .unqueued ≠ .visited := by
    rcases hstv with h | h <;> rw [h] <;> simp
  have hvnotL : v ∉ L := fun hc => hnvv ((hI.hvis v hvlt).mpr hc)
  have hstlen : v < s.state.length := by rw [hI.hlen1]; exact hvlt
  have hvL' : v ∈ L ++ [v] := by simp
  have hsucc_mem : g.successors.getD v [] ∈ g.successors :=
    getD_mem _ v [] (by rw [hslen]; exact hvlt)
  refine tmid_done g v (L ++ [v]) _
    (enqueue_fold_inv g hslen hgwf hinv v hvlt (L ++ [v]) hvL' _ _ ?_)
  refine ⟨?_, hI.hlen2, ?_, ?_, hsnd _ hsucc_mem, (fun x hx => hx), ?_, ?_, hrq2nd,
    ?_, ?_, ?_, ?_, ?_, ?_, ?_⟩
  · simp [hI.hlen1]
  · rw [List.nodup_append]
    exact ⟨hI.hLnd, by simp, by intro a ha hb; exact hvnotL ((by simpa using hb : a = v) ▸ ha)⟩
  · intro x hx
    rcases List.mem_append.mp hx with h | h
    · exact hI.hLsub x h
    · rw [show x = v from by simpa using h]
      exact hvlt
  · intro w hw
    by_cases hww : w = v
    · subst hww
      rw [getD_set_self_r _ _ _ hstlen]
      simp
    · rw [getD_set_ne_r _ _ _ _ (fun hc => hww hc.symm)]
      rw [hI.hvis w hw]
      constructor
      · intro h
        exact List.mem_append.mpr (Or.inl h)
      · intro h
        rcases List.mem_append.mp h with h1 | h1
        · exact h1
        · exact absurd (by simpa using h1) hww
  · intro w
    constructor
    · intro hmem
      obtain ⟨h1, h2⟩ := (hI.hready w).mp (hrq2sub w hmem)
      have hww : w ≠ v := fun hc => hvnotrq2 (hc ▸ hmem)
      rw [getD_set_ne_r _ _ _ _ (fun hc => hww hc.symm)]
      exact ⟨h1, h2⟩
    · rintro ⟨h1, h2⟩
      have hww : w ≠ v := by
        intro hc
        rw [hc, getD_set_self_r _ _ _ hstlen] at h2
        simp at h2
      rw [getD_set_ne_r _ _ _ _ (fun hc => hww hc.symm)] at h2
      exact hrq2mem w ((hI.hready w).mpr ⟨h1, h2⟩) hww
  · intro x hx
    obtain ⟨h1, h2⟩ := hI.hfb1 x (hfb2sub x hx)
    by_cases hxx : x = v
    · subst hxx
      rw [getD_set_self_r _ _ _ hstlen]
      exact ⟨h1, by simp⟩
    · rw [getD_set_ne_r _ _ _ _ (fun hc => hxx hc.symm)]
      exact ⟨h1, h2⟩
  · intro w hw hc
    have hww : w ≠ v := by
      intro hcc
      rw [hcc, getD_set_self_r _ _ _ hstlen] at hc
      simp at hc
    rw [getD_set_ne_r _ _ _ _ (fun hc2 => hww hc2.symm)] at hc
    exact hfb2mem w hw hc hww
  · intro w hw hnv2
    have hww : w ≠ v := by
      intro hcc
      rw [hcc, getD_set_self_r _ _ _ hstlen] at hnv2
      exact hnv2 rfl
    rw [getD_set_ne_r _ _ _ _ (fun hc => hww hc.symm)] at hnv2
    show s.nUnvisitedPreds.getD w 0 = _
    have h0 := hI.hcnt w hw hnv2
    rw [if_neg (by simp)] at h0
    have hpw_mem : g.predecessors.getD w [] ∈ g.predecessors :=
      getD_mem _ w [] (by rw [hplen]; exact hw)
    have hsnoc := pendCount_snoc (g.predecessors.getD w []) L v
      (hpnd _ hpw_mem) hvnotL
    by_cases hvp : v ∈ g.predecessors.getD w []
    · rw [if_pos hvp] at hsnoc
      rw [if_pos ((hinv v w hvlt hw).mp hvp)]
      omega
    · rw [if_neg hvp] at hsnoc
      rw [if_neg (fun hc => hvp ((hinv v w hvlt hw).mpr hc))]
      omega
  · intro w hw hc
    have hww : w ≠ v := by
      intro hcc
      rw [hcc, getD_set_self_r _ _ _ hstlen] at hc
      simp at hc
    rw [getD_set_ne_r _ _ _ _ (fun hc2 => hww hc2.symm)] at hc
    exact hI.hrdy0 w hw hc
  · intro w hw hc u hu huL
    have hww : w ≠ v := by
      intro hcc
      rw [hcc, getD_set_self_r _ _ _ hstlen] at hc
      simp at hc
    rw [getD_set_ne_r _ _ _ _ (fun hc2 => hww hc2.symm)] at hc
    rcases List.mem_append.mp huL with h1 | h1
    · exact absurd (hI.hunq w hw hc u hu h1).2 (by simp)
    · have huv : u = v := by simpa using h1
      subst huv
      exact ⟨rfl, (hinv u w hvlt hw).mp hu⟩
  · intro w hw hne hc
    have hww : w ≠ v := by
      intro hcc
      rw [hcc, getD_set_self_r _ _ _ hstlen] at hc
      rcases hc with h | h <;> simp at h
    rw [getD_set_ne_r _ _ _ _ (fun hc2 => hww hc2.symm)] at hc
    obtain ⟨u, hu, huL⟩ := hI.hqueued w hw hne hc
    exact ⟨u, hu, List.mem_append.mpr (Or.inl huL)⟩
  · by_cases hw0 : (0 : Nat) = v
    · rw [← hw0]
      rw [getD_set_self_r _ _ _ (by rw [← hw0] at hstlen; exact hstlen)]
      simp
    · rw [getD_set_ne_r _ _ _ _ (fun hc => hw0 hc.symm)]
      exact hI.hzero

/-- With all nodes yielded, the iterator returns `None`. -/
theorem travNext_done (g : CoverageGraph) (s : TravState) (L : List Nat)
    (hI : TInv g s L) (hfull : g.numNodes ≤ L.length) :
    (travNext g s).1 = none := by
  rw [travNext_none_iff]
  have hallvis : ∀ w, w < g.numNodes → s.state.getD w .unqueued = .visited := by
    intro w hw
    exact (hI.hvis w hw).mpr
      (mem_all_of_nodup_length L g.numNodes hI.hLnd hI.hLsub hfull w hw)
  constructor
  · cases hrq : s.readyQueue with
    | nil => rfl
    | cons v rtl =>
      exfalso
      have h := (hI.hready v).mp (by rw [hrq]; simp)
      rw [hallvis v h.1] at h
      simp at h
  · intro w hw
    have h1 := hI.hfb1 w hw
    rw [hallvis w h1.1]
    simp

/-- From a quiescent state with unvisited nodes remaining, one call to `next`
yields a fresh node (preceded by a visited predecessor unless it is the
entry) and restores the invariant. -/
theorem travNext_step (g : CoverageGraph)
    (hn : 0 < g.numNodes)
    (hslen : g.successors.length = g.numNodes)
    (hplen : g.predecessors.length = g.numNodes)
    (hsnd : ∀ l ∈ g.successors, l.Nodup)
    (hgwf : ∀ l ∈ g.successors, ∀ x ∈ l, x < g.numNodes)
    (hpnd : ∀ l ∈ g.predecessors, l.Nodup)
    (hinv : ∀ u w2, u < g.numNodes → w2 < g.numNodes →
      (u ∈ g.predecessors.getD w2 [] ↔ w2 ∈ g.successors.getD u []))
    (hreach : ∀ w, w < g.numNodes → Reaches (graphSf g.successors) 0 w)
    (s : TravState) (L : List Nat) (hI : TInv g s L) (hlt : L.length < g.numNodes) :
    ∃ v s2, travNext g s = (some v, s2) ∧ v < g.numNodes ∧ v ∉ L ∧
      (v ≠ 0 → ∃ u ∈ g.predecessors.getD v [], u ∈ L) ∧
      TInv g s2 (L ++ [v]) := by
  have hgwf' : GWf g.successors := by
    intro l hl x hx
    rw [hslen]
    exact hgwf l hl x hx
  cases hrq : s.readyQueue with
  | cons v rtl =>
    obtain ⟨hvlt, hstv⟩ := (hI.hready v).mp (by rw [hrq]; simp)
    have hvnotL : v ∉ L := by
      intro hc
      have := (hI.hvis v hvlt).mpr hc
      rw [hstv] at this
      simp at this
    have hvnotrtl : v ∉ rtl := by
      have h := hI.hreadynd
      rw [hrq] at h
      exact (List.nodup_cons.mp h).1
    have hni : nextInner s = (some v, { s with readyQueue := rtl }) := by
      simp only [nextInner, hrq]
    have htn : travNext g s =
        (some v, markVisitedAndEnqueue g { s with readyQueue := rtl } v) := by
      rw [travNext, hni]
    refine ⟨v, _, htn, hvlt, hvnotL,
      (fun hne => hI.hqueued v hvlt hne (Or.inr hstv)), ?_⟩
    show TInv g
      ((g.successors.getD v []).foldl enqueueStep
        ⟨s.nUnvisitedPreds, s.state.set v .visited, rtl, s.fallbackQueue⟩)
      (L ++ [v])
    refine mark_fold_tinv g hslen hplen hsnd hgwf hpnd hinv s L hI v hvlt
      (Or.inl hstv) rtl s.fallbackQueue ?_ ?_ ?_ hvnotrtl (fun w hw => hw) ?_
    · intro w hw
      rw [hrq]
      simp [hw]
    · have h := hI.hreadynd
      rw [hrq] at h
      exact (List.nodup_cons.mp h).2
    · intro w hw hne
      rw [hrq] at hw
      rcases List.mem_cons.mp hw with h | h
      · exact absurd h hne
      · exact h
    · intro w hw hst hne
      exact hI.hfb2 w hw hst
  | nil =>
    have hlive : ∃ z, z < g.numNodes ∧ s.state.getD z .unqueued = .inFallback := by
      obtain ⟨w0, hw0n, hw0L⟩ := exists_unvisited L g.numNodes hlt
      have hw0nv : s.state.getD w0 .unqueued ≠ .visited :=
        fun hc => hw0L ((hI.hvis w0 hw0n).mp hc)
      have hnotready : ∀ z, z < g.numNodes →
          s.state.getD z .unqueued ≠ .inReady := by
        intro z hz hc
        have := (hI.hready z).mpr ⟨hz, hc⟩
        rw [hrq] at this
        simp at this
      by_cases h0v : s.state.getD 0 .unqueued = .visited
      · obtain ⟨p, hp⟩ := hreach w0 hw0n
        obtain ⟨u, z, hup, hz, hPu, hPz⟩ := chain_frontier (graphSf g.successors)
          (fun x => s.state.getD x .unqueued = .visited) p 0 w0 hp h0v hw0nv
        have hallp := path_nodes_lt g.successors hgwf' p 0 hp.2.1 hp.1
          (by rw [hslen]; exact hn)
        have hult : u < g.numNodes := by
          rw [← hslen]
          exact hallp u hup
        have hzlt : z < g.numNodes := by
          rw [← hslen]
          exact graphSf_targets_lt g.successors hgwf' u z hz
        have huL : u ∈ L := (hI.hvis u hult).mp hPu
        have hupred : u ∈ g.predecessors.getD z [] := (hinv u z hult hzlt).mpr hz
        have hznotunq : s.state.getD z .unqueued ≠ .unqueued := by
          intro hc
          exact absurd (hI.hunq z hzlt hc u hupred huL).2 (by simp)
        cases hzst : s.state.getD z .unqueued with
        | unqueued => exact absurd hzst hznotunq
        | visited => exact absurd hzst hPz
        | inReady => exact absurd hzst (hnotready z hzlt)
        | inFallback => exact ⟨z, hzlt, hzst⟩
      · cases h0st : s.state.getD 0 .unqueued with
        | unqueued => exact absurd h0st hI.hzero
        | visited => exact absurd h0st h0v
        | inReady => exact absurd h0st (hnotready 0 hn)
        | inFallback => exact ⟨0, hn, h0st⟩
    obtain ⟨z, hzlt, hzfb⟩ := hlive
    obtain ⟨v, ftl, hdrain⟩ := drainFallback_live s.state s.fallbackQueue z
      (hI.hfb2 z hzlt hzfb) hzfb
    obtain ⟨hstv, pre, hfbeq, hpre⟩ := drainFallback_some s.state s.fallbackQueue v ftl
      hdrain
    have hvfb : v ∈ s.fallbackQueue := by
      rw [hfbeq]
      simp
    have hvlt : v < g.numNodes := (hI.hfb1 v hvfb).1
    have hvnotL : v ∉ L := by
      intro hc
      have := (hI.hvis v hvlt).mpr hc
      rw [hstv] at this
      simp at this
    have hni : nextInner s = (some v, { s with fallbackQueue := ftl }) := by
      simp only [nextInner, hrq, hdrain]
    have htn : travNext g s =
        (some v, markVisitedAndEnqueue g { s with fallbackQueue := ftl } v) := by
      rw [travNext, hni]
    refine ⟨v, _, htn, hvlt, hvnotL,
      (fun hne => hI.hqueued v hvlt hne (Or.inl hstv)), ?_⟩
    show TInv g
      ((g.successors.getD v []).foldl enqueueStep
        ⟨s.nUnvisitedPreds, s.state.set v .visited, s.readyQueue, ftl⟩)
      (L ++ [v])
    refine mark_fold_tinv g hslen hplen hsnd hgwf hpnd hinv s L hI v hvlt
      (Or.inr hstv) s.readyQueue ftl (fun w hw => hw) hI.hreadynd
      (fun w hw hne => hw) ?_ ?_ ?_
    · intro hc
      have := (hI.hready v).mp hc
      rw [hstv] at this
      simp at this
    · intro w hw
      rw [hfbeq]
      simp [hw]
    · intro w hw hst hne
      have hwfb := hI.hfb2 w hw hst
      rw [hfbeq] at hwfb
      rcases List.mem_append.mp hwfb with h | h
      · exact absurd hst (hpre w h)
      · rcases List.mem_cons.mp h with h1 | h1
        · exact absurd h1 hne
        · exact h1

/-- The full run of the traversal from a quiescent state: it yields exactly
the remaining nodes, without repeats, each non-entry node preceded by one of
its predecessors. -/
theorem travRun_spec (g : CoverageGraph)
    (hn : 0 < g.numNodes)
    (hslen : g.successors.length = g.numNodes)
    (hplen : g.predecessors.length = g.numNodes)
    (hsnd : ∀ l ∈ g.successors, l.Nodup)
    (hgwf : ∀ l ∈ g.successors, ∀ x ∈ l, x < g.numNodes)
    (hpnd : ∀ l ∈ g.predecessors, l.Nodup)
    (hinv : ∀ u w2, u < g.numNodes → w2 < g.numNodes →
      (u ∈ g.predecessors.getD w2 [] ↔ w2 ∈ g.successors.getD u []))
    (hreach : ∀ w, w < g.numNodes → Reaches (graphSf g.successors) 0 w) :
    ∀ (k m : Nat) (s : TravState) (L : List Nat), TInv g s L →
      L.length + m = g.numNodes → m ≤ k →
      (travRun g k s).length = m ∧
      (L ++ travRun g k s).Nodup ∧
      (∀ x ∈ travRun g k s, x < g.numNodes) ∧
      (∀ i v, (travRun g k s)[i]? = some v → v ≠ 0 →
        ∃ u ∈ g.predecessors.getD v [], u ∈ L ++ (travRun g k s).take i) := by
  intro k
  induction k with
  | zero =>
    intro m s L hI hlen hm
    have hm0 : m = 0 := by omega
    subst hm0
    refine ⟨rfl, by simpa [travRun] using hI.hLnd, ?_, ?_⟩
    · intro x hx
      simp [travRun] at hx
    · intro i v h
      simp [travRun] at h
  | succ k ih =>
    intro m s L hI hlen hm
    cases m with
    | zero =>
      have hdone := travNext_done g s L hI (by omega)
      have hrun : travRun g (k + 1) s = [] := by
        cases htn : travNext g s with
        | mk o s2 =>
          cases o with
          | none => simp [travRun, htn]
          | some v =>
            rw [htn] at hdone
            simp at hdone
      rw [hrun]
      refine ⟨rfl, by simpa using hI.hLnd, ?_, ?_⟩
      · intro x hx
        simp at hx
      · intro i v h
        simp at h
    | succ m2 =>
      obtain ⟨v, s2, htn, hvlt, hvnotL, horder, hI2⟩ :=
        travNext_step g hn hslen hplen hsnd hgwf hpnd hinv hreach s L hI (by omega)
      have hrun : travRun g (k + 1) s = v :: travRun g k s2 := by
        simp [travRun, htn]
      obtain ⟨ih1, ih2, ih3, ih4⟩ := ih m2 s2 (L ++ [v]) hI2
        (by simp; omega) (by omega)
      rw [hrun]
      refine ⟨by simp [ih1], ?_, ?_, ?_⟩
      · have heq : L ++ v :: travRun g k s2 = (L ++ [v]) ++ travRun g k s2 := by simp
        rw [heq]
        exact ih2
      · intro x hx
        rcases List.mem_cons.mp hx with h | h
        · rw [h]
          exact hvlt
        · exact ih3 x h
      · intro i w h hw0
        cases i with
        | zero =>
          have hvw : v = w := by simpa using h
          subst hvw
          obtain ⟨u, hu, huL⟩ := horder hw0
          exact ⟨u, hu, by simp [huL]⟩
        | succ i2 =>
          rw [List.getElem?_cons_succ] at h
          obtain ⟨u, hu, huL⟩ := ih4 i2 w h hw0
          refine ⟨u, hu, ?_⟩
          have heq : L ++ (v :: travRun g k s2).take (i2 + 1) =
              (L ++ [v]) ++ (travRun g k s2).take i2 := by
            simp
          rw [heq]
          exact huL

/-- Well-formedness facts guaranteed by coverage-graph construction and
relied on by the traversal: node-count bookkeeping, deduplicated in-range
adjacency with predecessors the exact inverse, entry without predecessors,
and every node reachable from the entry. -/
abbrev GOk (g : CoverageGraph) : Prop :=
  0 < g.numNodes ∧
  g.successors.length = g.numNodes ∧
  g.predecessors.length = g.numNodes ∧
  (∀ l ∈ g.successors, ∀ x ∈ l, x < g.numNodes) ∧
  (∀ l ∈ g.successors, l.Nodup) ∧
  (∀ l ∈ g.predecessors, l.Nodup) ∧
  (∀ u, u < g.numNodes → ∀ w2, w2 < g.numNodes →
    (u ∈ g.predecessors.getD w2 [] ↔ w2 ∈ g.successors.getD u [])) ∧
  g.predecessors.getD 0 [] = [] ∧
  (∀ w, w < g.numNodes → w ∈ (dfsRun g.successors 0).visited)

/-- C1: on a well-formed coverage graph the ready-first traversal yields
every node exactly once (the run of length `num_nodes` lists exactly the
nodes, without repeats, and one more unit of fuel yields nothing more), the
entry node comes first, every non-entry node is yielded after one of its
predecessors, and a call to `next` returns `None` exactly when the ready
queue is empty and the fallback queue holds no live entry. -/
theorem c1_ready_first_traversal (g : CoverageGraph) (hok : GOk g) :
    (∀ x, x ∈ travRun g g.numNodes (travNew g) ↔ x < g.numNodes) ∧
    (travRun g g.numNodes (travNew g)).Nodup ∧
    (travRun g g.numNodes (travNew g)).head? = some 0 ∧
    (∀ i v, (travRun g g.numNodes (travNew g))[i]? = some v → v ≠ 0 →
      ∃ u ∈ g.predecessors.getD v [],
        u ∈ (travRun g g.numNodes (travNew g)).take i) ∧
    (travRun g (g.numNodes + 1) (travNew g)).length = g.numNodes ∧
    (∀ s, (travNext g s).1 = none ↔
      (s.readyQueue = [] ∧
        ∀ v ∈ s.fallbackQueue, s.state.getD v .unqueued ≠ .inFallback)) := by
  obtain ⟨hn, hslen, hplen, hgwf, hsnd, hpnd, hinv0, hp0, hvisited⟩ := hok
  have hinv : ∀ u w2, u < g.numNodes → w2 < g.numNodes →
      (u ∈ g.predecessors.getD w2 [] ↔ w2 ∈ g.successors.getD u []) :=
    fun u w2 hu hw2 => hinv0 u hu w2 hw2
  have hgwf' : GWf g.successors := by
    intro l hl x hx
    rw [hslen]
    exact hgwf l hl x hx
  have hreach : ∀ w, w < g.numNodes → Reaches (graphSf g.successors) 0 w := by
    intro w hw
    exact (dfsRun_visited_iff_reaches g.successors 0 hgwf'
      (by rw [hslen]; exact hn) w).mp (hvisited w hw)
  have hI0 := travNew_inv g hn hplen hp0
  obtain ⟨hlen, hnd, hsub, hord⟩ := travRun_spec g hn hslen hplen hsnd hgwf hpnd hinv
    hreach g.numNodes g.numNodes (travNew g) [] hI0 (by simp) (le_refl _)
  obtain ⟨hlen1, -, -, -⟩ := travRun_spec g hn hslen hplen hsnd hgwf hpnd hinv
    hreach (g.numNodes + 1) g.numNodes (travNew g) [] hI0 (by simp) (by omega)
  simp only [List.nil_append] at hnd hord
  refine ⟨?_, hnd, ?_, hord, hlen1, fun s => travNext_none_iff g s⟩
  · intro x
    constructor
    · exact hsub x
    · exact mem_all_of_nodup_length _ g.numNodes hnd hsub (by rw [hlen]) x
  · have hstep : travNext g (travNew g) =
        (some 0, markVisitedAndEnqueue g { travNew g with readyQueue := [] } 0) := by
      rw [travNext]
      simp only [nextInner, travNew]
    cases hnn : g.numNodes with
    | zero => omega
    | succ m =>
      rw [show travRun g (m + 1) (travNew g) =
        0 :: travRun g m (markVisitedAndEnqueue g { travNew g with readyQueue := [] } 0)
        from by rw [travRun, hstep]]
      rfl

theorem c1_ready_first_traversal_witness :
    GOk (fromMir [TermKind.switchInt [1, 2], TermKind.goto 3, TermKind.goto 3,
      TermKind.ret]) ∧
    (travRun (fromMir [TermKind.switchInt [1, 2], TermKind.goto 3, TermKind.goto 3,
        TermKind.ret])
      (fromMir [TermKind.switchInt [1, 2], TermKind.goto 3, TermKind.goto 3,
        TermKind.ret]).numNodes
      (travNew (fromMir [TermKind.switchInt [1, 2], TermKind.goto 3, TermKind.goto 3,
        TermKind.ret]))).head? = some 0 :=
  ⟨by decide,
   (c1_ready_first_traversal (fromMir [TermKind.switchInt [1, 2], TermKind.goto 3,
      TermKind.goto 3, TermKind.ret]) (by decide)).2.2.1⟩

end CoverageSpec
